import Mathlib

/-!
A shallow embedding of `voussoirkit/expressionmatch.py`: the boolean
query-expression engine (tokenizer, parenthesis sublisting, implied-token
normalization, operator-precedence restructuring, tree construction,
evaluation, and the post-parse `map`/`prune` operations).

Python strings are Lean `String`s, Python nested token lists are the
inductive `Tok`, tree nodes are `ETree` (token `Option String` because
`map` may set a token to `None`), and Python exceptions are explicit
`Except` error values.  Loops in the source whose termination is not
structural (`implied_tokens`'s group-resolution loop, the index-rewinding
scan of `order_operations`, recursive descent in `sublist_tokens`) are
embedded with an explicit fuel parameter returning `Option`: `none` means
the fuel ran out, and every theorem about these functions either
quantifies over all fuels that produce a result or evaluates at a
concrete fuel that provably suffices for the concrete input.
-/

namespace ExpressionMatch

/-- `BINARY_OPERATORS = {'AND', 'OR', 'XOR'}` (membership-only set). -/
def BINARY_OPERATORS : List String := ["AND", "OR", "XOR"]

/-- `UNARY_OPERATORS = {'NOT'}`. -/
def UNARY_OPERATORS : List String := ["NOT"]

/-- `PRECEDENCE = ['NOT', 'AND', 'XOR', 'OR']` (strongest first; the list
index is the precedence number). -/
def PRECEDENCE : List String := ["NOT", "AND", "XOR", "OR"]

/-- `OPERATORS = BINARY_OPERATORS | UNARY_OPERATORS`. -/
def OPERATORS : List String := BINARY_OPERATORS ++ UNARY_OPERATORS

/-- An element of the token stream after parenthesis sublisting: either a
plain string or a nested parenthesized group (`sublist_tokens` output). -/
inductive Tok where
  | str (s : String)
  | group (ts : List Tok)
deriving Repr

mutual

/-- Boolean structural equality on tokens (Python `==` on nested lists of
strings). -/
def tokBEq : Tok → Tok → Bool
  | .str a, .str b => a == b
  | .group a, .group b => tokListBEq a b
  | .str _, .group _ => false
  | .group _, .str _ => false

/-- Boolean structural equality on token lists. -/
def tokListBEq : List Tok → List Tok → Bool
  | [], [] => true
  | a :: as, b :: bs => tokBEq a b && tokListBEq as bs
  | [], _ :: _ => false
  | _ :: _, [] => false

end

mutual

theorem tokBEq_iff : ∀ a b : Tok, tokBEq a b = true ↔ a = b
  | .str a, .str b => by simp [tokBEq]
  | .group a, .group b => by
      simp only [tokBEq, Tok.group.injEq]
      exact tokListBEq_iff a b
  | .str _, .group _ => by simp [tokBEq]
  | .group _, .str _ => by simp [tokBEq]

theorem tokListBEq_iff : ∀ a b : List Tok, tokListBEq a b = true ↔ a = b
  | [], [] => by simp [tokListBEq]
  | a :: as, b :: bs => by
      simp only [tokListBEq, Bool.and_eq_true, List.cons.injEq]
      exact and_congr (tokBEq_iff a b) (tokListBEq_iff as bs)
  | [], _ :: _ => by simp [tokListBEq]
  | _ :: _, [] => by simp [tokListBEq]

end

instance : DecidableEq Tok := fun a b => decidable_of_iff _ (tokBEq_iff a b)

instance : DecidableEq (List Tok) := fun a b => decidable_of_iff _ (tokListBEq_iff a b)

/-- A raw token as produced by the character scan of `tokenize`, before
`sublist_tokens`: a string or one of the `PAREN_OPEN` / `PAREN_CLOSE`
sentinels. -/
inductive RawTok where
  | str (s : String)
  | parenOpen
  | parenClose
deriving DecidableEq, Repr

/-- One node of `ExpressionTree`: the `token` (an `Option` because
`map` may store `None`) and the ordered `children`.  Parent pointers of
the Python class are represented implicitly (by position in a parent's
`children`) and, during parsing, by the `PState` zipper. -/
inductive ETree where
  | node (token : Option String) (children : List ETree)
deriving Repr

mutual

/-- Boolean structural equality on trees. -/
def treeBEq : ETree → ETree → Bool
  | .node t a, .node u b => t == u && treeListBEq a b

/-- Boolean structural equality on child lists. -/
def treeListBEq : List ETree → List ETree → Bool
  | [], [] => true
  | a :: as, b :: bs => treeBEq a b && treeListBEq as bs
  | [], _ :: _ => false
  | _ :: _, [] => false

end

mutual

theorem treeBEq_iff : ∀ a b : ETree, treeBEq a b = true ↔ a = b
  | .node t a, .node u b => by
      simp only [treeBEq, Bool.and_eq_true, ETree.node.injEq, beq_iff_eq]
      exact and_congr Iff.rfl (treeListBEq_iff a b)

theorem treeListBEq_iff : ∀ a b : List ETree, treeListBEq a b = true ↔ a = b
  | [], [] => by simp [treeListBEq]
  | a :: as, b :: bs => by
      simp only [treeListBEq, Bool.and_eq_true, List.cons.injEq]
      exact and_congr (treeBEq_iff a b) (treeListBEq_iff as bs)
  | [], _ :: _ => by simp [treeListBEq]
  | _ :: _, [] => by simp [treeListBEq]

end

instance : DecidableEq ETree := fun a b => decidable_of_iff _ (treeBEq_iff a b)

instance : DecidableEq (List ETree) := fun a b => decidable_of_iff _ (treeListBEq_iff a b)

/-- `self.token`. -/
def ETree.token : ETree → Option String
  | .node t _ => t

/-- `self.children`. -/
def ETree.children : ETree → List ETree
  | .node _ c => c

/-- `token in OPERATORS` for an `Option String` token (`None` is never a
member of the Python set). -/
def isOpStr : Option String → Bool
  | some s => OPERATORS.contains s
  | none => false

/-- `token in BINARY_OPERATORS`. -/
def isBinStr : Option String → Bool
  | some s => BINARY_OPERATORS.contains s
  | none => false

/-- `token in UNARY_OPERATORS`. -/
def isUnStr : Option String → Bool
  | some s => UNARY_OPERATORS.contains s
  | none => false

/-- `func_and`: `all(values)` over an already-forced list. -/
def func_and (values : List Bool) : Bool := values.all id

/-- `func_or`: `any(values)`. -/
def func_or (values : List Bool) : Bool := values.any id

/-- `func_xor`: `values.count(True) % 2 == 1`. -/
def func_xor (values : List Bool) : Bool := decide (values.count true % 2 = 1)

/-- Exceptions arising during evaluation.  `notOneValue` is the
`ValueError('NOT only takes 1 value')` from `func_not`; `custom` stands
for an arbitrary exception raised by a match function; `wrapped` is the
new `Exception(message)` raised by `evaluate` with `raise override from e`
(the guidance message plus the original exception as cause). -/
inductive Exc where
  | notOneValue
  | custom (s : String)
  | wrapped (msg : String) (cause : Exc)
deriving DecidableEq, Repr

/-- `MESSAGE_WRITE_YOUR_OWN_MATCHER` (the template; at run time Python
substitutes the repr of the default match function for the placeholder). -/
def MESSAGE_WRITE_YOUR_OWN_MATCHER : String :=
  "The default match function is str.__contains__.\nConsider passing your own `match_function`, which accepts two\npositional arguments:\n1. The object being tested.\n2. The Expression token, a string."

/-- `func_not`: forces the values, raises unless there is exactly one. -/
def func_not (values : List Bool) : Except Exc Bool :=
  match values with
  | [v] => .ok (!v)
  | _ => .error .notOneValue

/-- A match function with the tested object already applied: it receives
the node token (possibly `None`) and produces a boolean or raises. -/
def MatchFn := Option String → Except Exc Bool

/-- The re-wrapping performed by `ExpressionTree.evaluate`'s
`try/except`: when the match function in use is the default one
(`dflt = true` models `match_function is DEFAULT_MATCH_FUNCTION`), an
exception is replaced by the guidance exception with the original as its
cause; otherwise it is re-raised unchanged. -/
def wrapExc (dflt : Bool) : Except Exc Bool → Except Exc Bool
  | .ok b => .ok b
  | .error e => if dflt then .error (.wrapped MESSAGE_WRITE_YOUR_OWN_MATCHER e) else .error e

mutual

/-- `ExpressionTree._evaluate`: a non-operator token is passed to the
match function; an operator token is dispatched to its operator function
over the children, each child evaluated through `evaluate` (hence
re-wrapped, as in the source where the generator calls
`child.evaluate`).  `all`/`any` consume the generator lazily
(short-circuit), while `XOR`/`NOT` force it with `list(...)`. -/
def evalI (dflt : Bool) (m : MatchFn) : ETree → Except Exc Bool
  | .node tok cs =>
    if isOpStr tok then
      if tok = some "AND" then evalAnd dflt m cs
      else if tok = some "OR" then evalOr dflt m cs
      else if tok = some "XOR" then
        match evalList dflt m cs with
        | .ok bs => .ok (func_xor bs)
        | .error e => .error e
      else
        match evalList dflt m cs with
        | .ok bs => func_not bs
        | .error e => .error e
    else m tok

/-- `all(child.evaluate(...) for child in children)`: short-circuits on
the first `False`; an exception from a child propagates. -/
def evalAnd (dflt : Bool) (m : MatchFn) : List ETree → Except Exc Bool
  | [] => .ok true
  | c :: cs =>
    match wrapExc dflt (evalI dflt m c) with
    | .error e => .error e
    | .ok false => .ok false
    | .ok true => evalAnd dflt m cs

/-- `any(child.evaluate(...) for child in children)`: short-circuits on
the first `True`. -/
def evalOr (dflt : Bool) (m : MatchFn) : List ETree → Except Exc Bool
  | [] => .ok false
  | c :: cs =>
    match wrapExc dflt (evalI dflt m c) with
    | .error e => .error e
    | .ok true => .ok true
    | .ok false => evalOr dflt m cs

/-- `list(child.evaluate(...) for child in children)`: forces every
child, left to right; the first exception propagates. -/
def evalList (dflt : Bool) (m : MatchFn) : List ETree → Except Exc (List Bool)
  | [] => .ok []
  | c :: cs =>
    match wrapExc dflt (evalI dflt m c) with
    | .error e => .error e
    | .ok b =>
      match evalList dflt m cs with
      | .error e => .error e
      | .ok bs => .ok (b :: bs)

end

/-- `ExpressionTree.evaluate`: run `_evaluate` and re-wrap any exception
when the default match function is in use. -/
def evalE (dflt : Bool) (m : MatchFn) (t : ETree) : Except Exc Bool :=
  wrapExc dflt (evalI dflt m t)

/-- Substring containment, `needle in hay` on Python strings
(`str.__contains__(hay, needle)`). -/
def strContains (hay needle : String) : Bool :=
  (List.range (hay.data.length + 1)).any
    (fun i => needle.data.isPrefixOf (hay.data.drop i))

/-- `DEFAULT_MATCH_FUNCTION = str.__contains__` applied to a given test
object of string type: a `None` token raises (`TypeError`). -/
def defaultMatch (text : String) : MatchFn :=
  fun tok =>
    match tok with
    | some s => .ok (strContains text s)
    | none => .error (.custom "TypeError: argument of NoneType")

/-- A total custom match function built from a boolean assignment on
operand strings (never raises on string tokens). -/
def liftMatch (mf : String → Bool) : MatchFn :=
  fun tok =>
    match tok with
    | some s => .ok (mf s)
    | none => .error (.custom "TypeError: argument of NoneType")

/-! ## The tokenizer's character scan -/

/-- `character.isspace()` restricted to the ASCII whitespace characters
(the expressions in scope are ASCII; Unicode-only space characters are
not modelled). -/
def pyIsSpace (c : Char) : Bool :=
  c = ' ' || c = '\t' || c = '\n' || c = '\r' || c = '\x0b' || c = '\x0c'

/-- The mutable state of `tokenize`'s character loop: `current_word`,
`in_escape`, `in_quotes`, `paren_depth` and the accumulated `tokens`. -/
structure TokSt where
  word : List Char
  inEscape : Bool
  inQuotes : Bool
  parenDepth : Int
  toks : List RawTok
deriving DecidableEq, Repr

/-- The initial state of the character loop. -/
def tokInit : TokSt := ⟨[], false, false, 0, []⟩

/-- One iteration of `tokenize`'s `for character in expression` loop. -/
def tokStep (st : TokSt) (c : Char) : TokSt :=
  if st.inEscape then
    { st with inEscape := false, word := st.word ++ [c] }
  else if (c = '(' || c = ')') && !st.inQuotes then
    let snt : RawTok := if c = '(' then .parenOpen else .parenClose
    let d : Int := if c = '(' then st.parenDepth + 1 else st.parenDepth - 1
    if d ≥ 0 then
      { st with parenDepth := d,
                toks := st.toks ++ [.str (String.mk st.word), snt],
                word := [] }
    else
      { st with parenDepth := d }
  else if c = '\\' then
    { st with inEscape := true }
  else if c = '"' then
    { st with inQuotes := !st.inQuotes }
  else if pyIsSpace c && !st.inQuotes then
    { st with toks := st.toks ++ [.str (String.mk st.word)], word := [] }
  else
    { st with word := st.word ++ [c] }

/-- The character scan of `tokenize` followed by the final
`tokens.append(''.join(current_word))` and the removal of empty-string
tokens (`[w for w in tokens if w != '']`; the paren sentinels are kept). -/
def rawTokenize (s : String) : List RawTok :=
  let st := s.data.foldl tokStep tokInit
  (st.toks ++ [RawTok.str (String.mk st.word)]).filter
    (fun t => match t with | .str w => w ≠ "" | _ => true)

/-! ## `sublist_tokens` -/

/-- `sublist_tokens` as recursive descent over the remaining raw tokens.
Returns the tokens collected until a `PAREN_CLOSE` (or the end of input,
which closes any unclosed parentheses) together with the unconsumed
rest.  The index arithmetic of the source is replaced by consuming a
list; the loop is fueled (`none` = out of fuel, which a fuel of
`length + 1` always avoids). -/
def sublistAux : Nat → List RawTok → Option (List Tok × List RawTok)
  | 0, _ => none
  | _ + 1, [] => some ([], [])
  | _ + 1, .parenClose :: rest => some ([], rest)
  | fuel + 1, .parenOpen :: rest =>
    match sublistAux fuel rest with
    | none => none
    | some (g, rest') =>
      match sublistAux fuel rest' with
      | none => none
      | some (out, rest'') => some (.group g :: out, rest'')
  | fuel + 1, .str s :: rest =>
    match sublistAux fuel rest with
    | none => none
    | some (out, rest') => some (.str s :: out, rest')

/-- The top-level call `sublist_tokens(tokens)` (`_from_index = 0`): only
the collected tokens are returned; a stray top-level `PAREN_CLOSE`
breaks the loop and the rest is discarded, as in the source. -/
def sublistTokens (fuel : Nat) (raw : List RawTok) : Option (List Tok) :=
  match sublistAux fuel raw with
  | none => none
  | some (out, _) => some out

/-! ## `implied_tokens` -/

/-- `token in OPERATORS` for a stream token (`isinstance(token, str) and
token in OPERATORS`). -/
def isOpTk : Tok → Bool
  | .str s => OPERATORS.contains s
  | .group _ => false

/-- `token in BINARY_OPERATORS` for a stream token. -/
def isBinTk : Tok → Bool
  | .str s => BINARY_OPERATORS.contains s
  | .group _ => false

/-- `token in UNARY_OPERATORS` for a stream token. -/
def isUnTk : Tok → Bool
  | .str s => UNARY_OPERATORS.contains s
  | .group _ => false

/-- The scan state of `implied_tokens`: the accumulated `final_tokens`
and the `has_operand` / `has_binary_operator` / `has_unary_operator`
flags. -/
structure IState where
  final : List Tok
  hasOperand : Bool
  hasBinary : Bool
  hasUnary : Bool
deriving DecidableEq, Repr

/-- The flag-and-append logic applied by `implied_tokens` to one token
that survived the group-resolution loop (everything in the loop body
below `if skip_this: continue`). -/
def scanStep (st : IState) (token : Tok) : IState :=
  if isOpTk token then
    let thisBinary := isBinTk token
    let thisUnary := !thisBinary
    if thisBinary && (st.hasBinary || st.hasUnary) then st
    else if thisUnary && st.hasUnary then st
    else if thisBinary && !st.hasOperand then st
    else
      let base := if thisUnary && st.hasOperand then st.final ++ [Tok.str "AND"] else st.final
      { final := base ++ [token],
        hasOperand := false, hasBinary := thisBinary, hasUnary := thisUnary }
  else
    let base := if st.hasOperand then st.final ++ [Tok.str "AND"] else st.final
    { final := base ++ [token],
      hasOperand := true, hasBinary := false, hasUnary := false }

/-- The `for token in tokens` loop of `implied_tokens`, parameterized by
the group-resolution function (the `while isinstance(token, (list,
tuple))` loop) applied to each token before the flag logic. -/
def impliedScanGo (resolve : Tok → Option (Option Tok)) : List Tok → IState → Option IState
  | [], st => some st
  | t :: rest, st =>
    match resolve t with
    | none => none
    | some none => impliedScanGo resolve rest st
    | some (some tok) => impliedScanGo resolve rest (scanStep st tok)

/-- The unwrap performed by `implied_tokens` on its argument before the
scan: a single nested sublist replaces the whole sequence
(`if len(tokens) == 1 and isinstance(tokens[0], (list, tuple))`). -/
def unwrapTop : List Tok → List Tok
  | [Tok.group g] => g
  | ts => ts

/-- The two mutually recursive pieces of `implied_tokens`, indexed by
fuel so that the recursion is structural on `Nat` (the source's
group-resolution loop `token = implied_tokens(token)` has no structural
bound).  The first component is the `while isinstance(token, (list,
tuple))` loop: empty groups are skipped (`some none`), singleton groups
unwrapped, larger groups replaced by `implied_tokens(group)` until a
fixed point is reached; `some (some t)` is the token handed to the flag
logic.  The second component is `implied_tokens(tokens)` itself: unwrap
a singleton non-string top token, scan, and pop one trailing operator.
The outer `none` always means the fuel ran out (or, in the trailing-pop
case, a `pop` from an empty list, which the scan invariant rules out). -/
def impliedPair : Nat → ((Tok → Option (Option Tok)) × (List Tok → Option (List Tok)))
  | 0 => (fun _ => none, fun _ => none)
  | fuel + 1 =>
    let prev := impliedPair fuel
    (fun t =>
      match t with
      | .str s => some (some (.str s))
      | .group g =>
        match g with
        | [] => some none
        | [t'] => prev.1 t'
        | _ =>
          match prev.2 g with
          | none => none
          | some g' => if g' = g then some (some (.group g)) else prev.1 (.group g'),
     fun tokens =>
      match impliedScanGo prev.1 (unwrapTop tokens) ⟨[], false, false, false⟩ with
      | none => none
      | some st =>
        if st.hasBinary || st.hasUnary then
          match st.final with
          | [] => none
          | _ => some st.final.dropLast
        else some st.final)

/-- The group-resolution loop of `implied_tokens` at a given fuel. -/
def resolveTok (fuel : Nat) : Tok → Option (Option Tok) := (impliedPair fuel).1

/-- `implied_tokens(tokens)` at a given fuel. -/
def impliedTokens (fuel : Nat) : List Tok → Option (List Tok) := (impliedPair fuel).2

/-! ## `order_operations` -/

/-- `PRECEDENCE.index(token)`: the precedence number of an operator
string, `none` both for non-operator strings and for sublists (the
`ValueError` branch). -/
def precOf : Tok → Option Nat
  | .str s => PRECEDENCE.findIdx? (fun p => p = s)
  | .group _ => none

/-- Python `tokens[i]` for a possibly negative index (negative indices
wrap from the end; a still-out-of-range index is an `IndexError`,
returned as `none`). -/
def pyGetWrap (l : List Tok) (i : Int) : Option Tok :=
  let j : Int := if i < 0 then i + l.length else i
  if h : 0 ≤ j ∧ j < l.length then some (l.get ⟨j.toNat, by omega⟩) else none

/-- A Python slice bound: negative values count from the end, then the
result is clamped to `[0, len]`. -/
def pySliceIdx (len : Nat) (i : Int) : Nat :=
  let j : Int := if i < 0 then i + len else i
  if j < 0 then 0 else min j.toNat len

/-- `tokens[a:b]` (empty when the resolved end is before the start). -/
def pySliceGet (l : List Tok) (a b : Int) : List Tok :=
  let s := pySliceIdx l.length a
  let e := max s (pySliceIdx l.length b)
  (l.drop s).take (e - s)

/-- `tokens[a:b] = [x]`: replace the slice by the single element `x`. -/
def pySliceSet (l : List Tok) (a b : Int) (x : Tok) : List Tok :=
  let s := pySliceIdx l.length a
  let e := max s (pySliceIdx l.length b)
  l.take s ++ [x] ++ l.drop e

/-- The state of the `while index < len(tokens)` loop of
`order_operations`. -/
structure OSt where
  tokens : List Tok
  index : Int
  sliceStart : Option Int
  sliceEnd : Option Int
  stack : List Nat
deriving DecidableEq, Repr

/-- The inner `while precedence_stack and precedence_stack[-1] == delete`
loop: pop equal precedences off the stack, decrementing `index` once per
pop.  The stack is represented with Python's `stack[-1]` (the end, where
every access happens) as the Lean list head. -/
def popWhile (delete : Nat) : List Nat → Int → List Nat × Int
  | [], index => ([], index)
  | p :: rest, index =>
    if p = delete then popWhile delete rest (index - 1)
    else (p :: rest, index)

/-- One pass of the `for x in range(2)` rewind: nothing happens on an
empty stack, otherwise the top run of equal precedences is popped. -/
def popRun (stack : List Nat) (index : Int) : List Nat × Int :=
  match stack with
  | [] => (stack, index)
  | delete :: _ => popWhile delete stack index

/-- `for x in range(2): ...` — the double rewind after a slice is
collapsed. -/
def popTwice (stack : List Nat) (index : Int) : List Nat × Int :=
  let (s1, i1) := popRun stack index
  popRun s1 i1

/-- The wrap-up after the `while` loop of `order_operations`: an open
slice is closed at the end of the token list. -/
def orderFinish (st : OSt) : List Tok :=
  match st.sliceStart with
  | none => st.tokens
  | some ss => pySliceSet st.tokens ss st.tokens.length (.group (pySliceGet st.tokens ss st.tokens.length))

/-- The slice-marker update computed by one operator iteration of the
scan (`slice_start` / `slice_end` after the unary check and the
precedence comparison against the freshly pushed stack, whose top run is
`prec :: st.stack`). -/
def seExpr (st : OSt) (prec : Nat) (token : Tok) : Option Int × Option Int :=
  if isUnTk token then (some st.index, some (st.index + 2))
  else if (prec :: st.stack).length > 1 then
    match st.stack.head? with
    | some prev =>
      if prec < prev then (some (st.index - 1), (none : Option Int))
      else if prev < prec then (st.sliceStart, some st.index)
      else (st.sliceStart, st.sliceEnd)
    | none => (st.sliceStart, st.sliceEnd)
  else (st.sliceStart, st.sliceEnd)

/-- The `while index < len(tokens)` loop of `order_operations`, fueled
(the index-rewinding scan has no structural bound; `none` = out of fuel
or an out-of-range index access). -/
def orderLoop : Nat → OSt → Option (List Tok)
  | 0, _ => none
  | fuel + 1, st =>
    if st.index ≥ st.tokens.length then some (orderFinish st)
    else
      match pyGetWrap st.tokens st.index with
      | none => none
      | some token =>
        match precOf token with
        | none => orderLoop fuel { st with index := st.index + 1 }
        | some prec =>
          match seExpr st prec token with
          | (some ss, some sEnd) =>
            let tokens' := pySliceSet st.tokens ss sEnd (.group (pySliceGet st.tokens ss sEnd))
            let (stack', index') := popTwice (prec :: st.stack) st.index
            orderLoop fuel { tokens := tokens', index := index' + 1,
                             sliceStart := none, sliceEnd := none, stack := stack' }
          | (s0, e0) =>
            orderLoop fuel
              { st with index := st.index + 1, sliceStart := s0, sliceEnd := e0,
                        stack := prec :: st.stack }

/-- The recursion of `order_operations` into sublists (`for (index,
token) in enumerate(tokens): if isinstance(token, list): tokens[index] =
order_operations(token)`), parameterized by the function applied to a
sublist. -/
def orderRecGo (f : List Tok → Option (List Tok)) : List Tok → Option (List Tok)
  | [] => some []
  | .str s :: rest =>
    match orderRecGo f rest with
    | none => none
    | some rest' => some (.str s :: rest')
  | .group g :: rest =>
    match f g with
    | none => none
    | some g' =>
      match orderRecGo f rest with
      | none => none
      | some rest' => some (.group g' :: rest')

/-- `order_operations(tokens)`: recurse into sublists, return sequences
shorter than 5 unchanged, otherwise run the precedence scan.  The fuel
(structural, shared by the nesting recursion and the `while` loop)
returns `none` only when exhausted. -/
def orderOperations : Nat → List Tok → Option (List Tok)
  | 0, _ => none
  | fuel + 1, ts =>
    match orderRecGo (orderOperations fuel) ts with
    | none => none
    | some ts1 =>
      if ts1.length < 5 then some ts1
      else orderLoop (fuel + 1) ⟨ts1, 0, none, none, []⟩

instance {ε α : Type} [DecidableEq ε] [DecidableEq α] : DecidableEq (Except ε α) := fun x y =>
  match x, y with
  | .ok a, .ok b => if h : a = b then .isTrue (by rw [h]) else .isFalse (by simp [h])
  | .error a, .error b => if h : a = b then .isTrue (by rw [h]) else .isFalse (by simp [h])
  | .ok _, .error _ => .isFalse (by simp)
  | .error _, .ok _ => .isFalse (by simp)

/-! ## `ExpressionTree.parse` -/

/-- Parse failures: `NoTokens` for an empty token sequence, and the
three generic `Exception(...)` branches of the transition table. -/
inductive ParseError where
  | noTokens
  | expectedBinary (got : Option String)
  | expectedChildren
  | expectedOperandOrParent
deriving DecidableEq, Repr

/-- The position of `current` during `ExpressionTree.parse`, as a
zipper.  Except in one transient situation `current` is the root of the
tree built so far (`top`).  The exception: after a binary root takes a
fresh childless `NOT` as its last child, `current` descends to that
`NOT` (`deep rootTok sibs notTok`: the root is a `rootTok` node whose
children are `sibs` followed by the childless `notTok` node). -/
inductive PState where
  | top (t : ETree)
  | deep (rootTok : Option String) (sibs : List ETree) (notTok : Option String)
deriving DecidableEq, Repr

/-- `current.rootmost()`: the root of the tree a `PState` denotes. -/
def PState.root : PState → ETree
  | .top t => t
  | .deep rootTok sibs notTok => .node rootTok (sibs ++ [.node notTok []])

/-- One iteration of `for token in tokens[1:]` in
`ExpressionTree.parse`, after `new` has been built: the transition table
on (`current.token` class, `new.token` class, children emptiness). -/
def stepParse (st : PState) (new : ETree) : Except ParseError PState :=
  match st with
  | .top cur =>
    match cur, new with
    | .node curTok curCh, .node newTok newCh =>
      if !isOpStr curTok then
        -- current is an operand
        if isBinStr newTok then
          if newCh.isEmpty then .ok (.top (.node newTok [cur]))
          else .ok (.top cur)  -- no else-branch in the source: new is dropped
        else .error (.expectedBinary newTok)
      else if isBinStr curTok then
        if isBinStr newTok then
          if newTok = curTok then .ok (.top (.node curTok (curCh ++ newCh)))
          else if newCh.isEmpty then .ok (.top (.node newTok [cur]))
          else .ok (.top (.node curTok (curCh ++ [new])))
        else if isUnStr newTok then
          if newCh.isEmpty then .ok (.deep curTok curCh newTok)
          else .ok (.top (.node curTok (curCh ++ [new])))
        else
          if curCh.isEmpty then .error .expectedChildren
          else .ok (.top (.node curTok (curCh ++ [new])))
      else
        -- current is a unary operator at the root
        if curCh.isEmpty then .ok (.top (.node curTok [new]))
        else if isBinStr newTok then
          if newCh.isEmpty then .ok (.top (.node newTok [cur]))
          else .ok (.top (.node curTok (curCh ++ [new])))
        else .error .expectedOperandOrParent
  | .deep rootTok sibs notTok =>
    -- current is the childless NOT below the binary root: the new node
    -- becomes its operand and current climbs back to the root.
    .ok (.top (.node rootTok (sibs ++ [.node notTok [new]])))

mutual

/-- Build the node for one stream token: a leaf for a string, a
recursive `cls.parse(token)` for a sublist. -/
def parseTok : Tok → Except ParseError ETree
  | .str s => .ok (.node (some s) [])
  | .group g => parseList g

/-- `ExpressionTree.parse(tokens)` on a (nested) token sequence. -/
def parseList : List Tok → Except ParseError ETree
  | [] => .error .noTokens
  | t :: rest =>
    match parseTok t with
    | .error e => .error e
    | .ok c0 =>
      match parseRest (.top c0) rest with
      | .error e => .error e
      | .ok st => .ok st.root

/-- The fold of `stepParse` over the remaining tokens. -/
def parseRest (st : PState) : List Tok → Except ParseError PState
  | [] => .ok st
  | t :: rest =>
    match parseTok t with
    | .error e => .error e
    | .ok new =>
      match stepParse st new with
      | .error e => .error e
      | .ok st' => parseRest st' rest

end

/-! ## `map` and `prune` -/

mutual

/-- `ExpressionTree.map(function)`: walk the tree and apply the function
to the token of every node that `is_leaf` (token not an operator; a
`None` token also counts as a leaf). -/
def ETree.mapLeaves (f : Option String → Option String) : ETree → ETree
  | .node tok cs =>
    .node (if isOpStr tok then tok else f tok) (mapLeavesList f cs)

/-- `ETree.mapLeaves` over a list of children. -/
def mapLeavesList (f : Option String → Option String) : List ETree → List ETree
  | [] => []
  | c :: cs => ETree.mapLeaves f c :: mapLeavesList f cs

end

/-- The `for child in self.children: child.prune()` loop, parameterized
by the pruning of one child.  When a child becomes `None` it removes
itself from the list; the Python `for` then advances the raw index over
the shrunk list, skipping the element that slid into the removed
child's place. -/
def pruneLoopGo (f : ETree → ETree) : List ETree → List ETree
  | [] => []
  | c :: rest =>
    let c' := f c
    if c'.token = none then
      match rest with
      | [] => []
      | d :: rest' => d :: pruneLoopGo f rest'
    else c' :: pruneLoopGo f rest

/-- The observable effect of `tree.prune()` on the tree itself:
children with a `None` token are filtered out, the survivors are pruned
by the `for child in self.children` loop (which, as in the source,
iterates by index while `child.prune()` may remove the child from the
list, so the element after a removed child is skipped), and an operator
node left with no children has its token set to `None` (its removal
from its own parent's list is handled by the caller's loop).  The fuel
makes the recursion structural; any fuel at least the height of the
tree computes the source's recursion exactly (fuel `0` returns the tree
unchanged). -/
def pruneFuel : Nat → ETree → ETree
  | 0, t => t
  | fuel + 1, .node tok cs =>
    let cs1 := cs.filter (fun c => c.token ≠ none)
    let cs2 := pruneLoopGo (pruneFuel fuel) cs1
    if isOpStr tok && cs2.isEmpty then .node none [] else .node tok cs2

mutual

/-- Does any node reachable from this tree have token `None`? -/
def hasNoneToken : ETree → Bool
  | .node tok cs => tok = none || hasNoneList cs

/-- `hasNoneToken` over a list of trees. -/
def hasNoneList : List ETree → Bool
  | [] => false
  | c :: cs => hasNoneToken c || hasNoneList cs

end

/-! ## The full pipelines -/

/-- `tokenize(expression)`: character scan, sublisting, implied-token
normalization and precedence restructuring. -/
def tokenizePy (fuel : Nat) (s : String) : Option (List Tok) :=
  match sublistTokens fuel (rawTokenize s) with
  | none => none
  | some ts =>
    match impliedTokens fuel ts with
    | none => none
    | some ts' => orderOperations fuel ts'

/-- `ExpressionTree.parse` on a query string: tokenize, then build the
tree.  The outer `Option` is the fuel of the tokenizing loops; the
`Except` carries the parse exceptions of the source. -/
def parseString (fuel : Nat) (s : String) : Option (Except ParseError ETree) :=
  match tokenizePy fuel s with
  | none => none
  | some ts => some (parseList ts)

/-! ## `ExpressionTree.__str__` (rendering) -/

/-- One character of the leaf re-escaping in `__str__`.  The source
performs four sequential `str.replace` calls (`\`, `"`, `(`, `)`, each
prefixed with a backslash); as the patterns are distinct single
characters and the inserted backslashes precede their characters, the
sequence equals this single character-wise expansion. -/
def escapeChar (c : Char) : List Char :=
  if c = '\\' || c = '"' || c = '(' || c = ')' then ['\\', c] else [c]

/-- The escaped text of a leaf token. -/
def escapeString (s : String) : String :=
  ⟨s.data.flatMap escapeChar⟩

mutual

/-- `ExpressionTree.__str__`: a `None` token renders as `""`; a leaf
token is re-escaped and quoted when it contains a space; an operator
node with one child renders as `OP(child)` (operator child) or
`OP child`; otherwise the children — operator children parenthesized —
are joined with ` OP `.  (The source's second `len(children) == 1` check
inside the general branch is unreachable, the one-child case having
returned already.) -/
def render : ETree → String
  | .node none _ => "\"\""
  | .node (some tok) cs =>
    if !OPERATORS.contains tok then
      let t := escapeString tok
      if t.data.contains ' ' then "\"" ++ t ++ "\"" else t
    else
      match cs with
      | [c] =>
        let childstring := render c
        if isOpStr c.token then tok ++ "(" ++ childstring ++ ")"
        else tok ++ " " ++ childstring
      | [] => String.intercalate (" " ++ tok ++ " ") (renderList [])
      | c1 :: c2 :: rest =>
        String.intercalate (" " ++ tok ++ " ") (renderList (c1 :: c2 :: rest))
termination_by t => sizeOf t
decreasing_by
  all_goals simp only [ETree.node.sizeOf_spec, List.cons.sizeOf_spec, List.nil.sizeOf_spec]
  all_goals omega

/-- The children strings of the general branch of `__str__`, operator
children wrapped in parentheses. -/
def renderList : List ETree → List String
  | [] => []
  | c :: rest =>
    let childstring := render c
    let childstring := if isOpStr c.token then "(" ++ childstring ++ ")" else childstring
    childstring :: renderList rest
termination_by l => sizeOf l
decreasing_by
  all_goals simp only [List.cons.sizeOf_spec]
  all_goals omega

end

/-! ## The output invariant of `implied_tokens` -/

/-- An adjacent pair is acceptable unless both tokens are operators, the
only allowed operator-operator adjacency being a binary operator
directly followed by a unary one (`AND NOT`). -/
def okPair (x y : Tok) : Bool :=
  !(isOpTk x && isOpTk y) || (isBinTk x && isUnTk y)

/-- Every adjacent pair of the sequence is acceptable. -/
def okPairs : List Tok → Bool
  | [] => true
  | [_] => true
  | x :: y :: rest => okPair x y && okPairs (y :: rest)

/-- The sequence does not begin with a binary operator. -/
def headNotBin : List Tok → Bool
  | [] => true
  | x :: _ => !isBinTk x

/-- The sequence does not end with a unary operator. -/
def lastNotUn (l : List Tok) : Bool :=
  match l.getLast? with
  | none => true
  | some x => !isUnTk x

mutual

/-- A well-formed stream token: any string, or a nested group of at
least two tokens that itself satisfies the full output invariant of
`implied_tokens` (no empty or singleton groups at any depth). -/
def tokOK : Tok → Bool
  | .str _ => true
  | .group g =>
    decide (2 ≤ g.length) && headNotBin g && okPairs g && lastNotUn g && allTokOK g

/-- `tokOK` over a sequence. -/
def allTokOK : List Tok → Bool
  | [] => true
  | t :: rest => tokOK t && allTokOK rest

end

/-- The full output invariant of `implied_tokens`. -/
def invList (l : List Tok) : Bool :=
  headNotBin l && okPairs l && lastNotUn l && allTokOK l

theorem tokOK_group (g : List Tok) :
    tokOK (.group g) = (decide (2 ≤ g.length) && invList g) := by
  simp only [tokOK, invList, Bool.and_assoc]

theorem isBinTk_isOpTk {t : Tok} (h : isBinTk t = true) : isOpTk t = true := by
  cases t with
  | group g => simp [isBinTk] at h
  | str s =>
    simp only [isBinTk, BINARY_OPERATORS] at h
    simp only [isOpTk, OPERATORS, BINARY_OPERATORS, UNARY_OPERATORS]
    simp at *
    tauto

theorem isUnTk_isOpTk {t : Tok} (h : isUnTk t = true) : isOpTk t = true := by
  cases t with
  | group g => simp [isUnTk] at h
  | str s =>
    simp only [isUnTk, UNARY_OPERATORS] at h
    simp only [isOpTk, OPERATORS, BINARY_OPERATORS, UNARY_OPERATORS]
    simp at *
    tauto

theorem isOpTk_cases {t : Tok} (h : isOpTk t = true) :
    isBinTk t = true ∨ isUnTk t = true := by
  cases t with
  | group g => simp [isOpTk] at h
  | str s =>
    simp only [isOpTk, OPERATORS, BINARY_OPERATORS, UNARY_OPERATORS] at h
    simp only [isBinTk, isUnTk, BINARY_OPERATORS, UNARY_OPERATORS]
    simp at *
    tauto

theorem isBinTk_not_isUnTk {t : Tok} (h : isBinTk t = true) : isUnTk t = false := by
  cases t with
  | group g => simp [isUnTk]
  | str s =>
    simp only [isBinTk, BINARY_OPERATORS] at h
    simp only [isUnTk, UNARY_OPERATORS]
    simp at *
    rcases h with h | h | h <;> subst h <;> decide

theorem isUnTk_not_isBinTk {t : Tok} (h : isUnTk t = true) : isBinTk t = false := by
  cases hb : isBinTk t
  · rfl
  · rw [isBinTk_not_isUnTk hb] at h
    exact absurd h (by simp)

theorem headNotBin_append (l l' : List Tok) (h : l ≠ []) :
    headNotBin (l ++ l') = headNotBin l := by
  cases l with
  | nil => exact absurd rfl h
  | cons x rest => simp [headNotBin]

theorem allTokOK_append (l l' : List Tok) :
    allTokOK (l ++ l') = (allTokOK l && allTokOK l') := by
  induction l with
  | nil => simp [allTokOK]
  | cons t rest ih => simp [allTokOK, ih, Bool.and_assoc]

theorem okPairs_append_one (l : List Tok) (x : Tok) :
    okPairs (l ++ [x]) =
      (okPairs l && (match l.getLast? with | none => true | some y => okPair y x)) := by
  induction l with
  | nil => simp [okPairs]
  | cons a rest ih =>
    cases rest with
    | nil => simp [okPairs]
    | cons b rest' =>
      simp only [List.cons_append, List.append_eq] at ih
      simp only [List.cons_append, List.append_eq, okPairs, ih]
      have hlast : (a :: b :: rest').getLast? = (b :: rest').getLast? := by
        simp [List.getLast?_cons_cons]
      rw [hlast, Bool.and_assoc]

theorem getLast?_append_one (l : List Tok) (x : Tok) :
    (l ++ [x]).getLast? = some x := by
  simp

theorem headNotBin_dropLast (l : List Tok) (h : headNotBin l = true) :
    headNotBin l.dropLast = true := by
  cases l with
  | nil => simp [headNotBin]
  | cons x rest =>
    cases rest with
    | nil => simp [headNotBin]
    | cons y rest' =>
      simp only [List.dropLast_cons₂]
      simpa [headNotBin] using h

theorem okPairs_dropLast (l : List Tok) (h : okPairs l = true) :
    okPairs l.dropLast = true := by
  induction l with
  | nil => simp [okPairs]
  | cons x rest ih =>
    cases rest with
    | nil => simp [okPairs]
    | cons y rest' =>
      simp only [okPairs, Bool.and_eq_true] at h
      simp only [List.dropLast_cons₂]
      cases rest' with
      | nil => simp [okPairs]
      | cons z rest'' =>
        have h2 := ih h.2
        simp only [List.dropLast_cons₂] at h2
        simp only [List.dropLast_cons₂, okPairs, Bool.and_eq_true]
        exact ⟨h.1, h2⟩

theorem allTokOK_dropLast (l : List Tok) (h : allTokOK l = true) :
    allTokOK l.dropLast = true := by
  induction l with
  | nil => simp [allTokOK]
  | cons x rest ih =>
    simp only [allTokOK, Bool.and_eq_true] at h
    cases rest with
    | nil => simp [allTokOK]
    | cons y rest' =>
      simp only [List.dropLast_cons₂, allTokOK, Bool.and_eq_true]
      exact ⟨h.1, ih h.2⟩

theorem getLast?_cons_ne_nil (x : Tok) (l : List Tok) (h : l ≠ []) :
    (x :: l).getLast? = l.getLast? := by
  cases l with
  | nil => exact absurd rfl h
  | cons y rest => simp [List.getLast?_cons_cons]

theorem lastNotUn_dropLast (l : List Tok) (hp : okPairs l = true)
    (hlast : ∃ x, l.getLast? = some x ∧ isOpTk x = true) :
    lastNotUn l.dropLast = true := by
  induction l with
  | nil => simp [lastNotUn]
  | cons x rest ih =>
    cases rest with
    | nil => simp [lastNotUn]
    | cons y rest' =>
      obtain ⟨w, hw, hop⟩ := hlast
      rw [getLast?_cons_ne_nil x (y :: rest') (by simp)] at hw
      simp only [okPairs, Bool.and_eq_true] at hp
      cases rest' with
      | nil =>
        -- l = [x, y]; dropLast = [x]; the pair (x, y) with y an operator
        -- forces x to be binary or a non-operator, never unary.
        simp only [List.getLast?_singleton, Option.some.injEq] at hw
        subst hw
        simp only [List.dropLast_cons₂, List.dropLast_single, lastNotUn,
          List.getLast?_singleton]
        simp only [okPair, Bool.or_eq_true, Bool.not_eq_true', Bool.and_eq_true] at hp
        rcases hp.1 with hno | hbin
        · cases hx : isUnTk x
          · simp
          · rw [isUnTk_isOpTk hx] at hno
            simp [hop] at hno
        · simp [isBinTk_not_isUnTk hbin.1]
      | cons z rest'' =>
        have h2 := ih hp.2 ⟨w, hw, hop⟩
        simp only [List.dropLast_cons₂] at h2 ⊢
        rw [lastNotUn, getLast?_cons_ne_nil x _ (by simp)]
        simpa [lastNotUn] using h2

/-- The invariant carried through `implied_tokens`' scan: the
accumulated sequence satisfies the structural conditions, and the three
flags accurately describe the last accumulated token. -/
structure StInv (st : IState) : Prop where
  all_ok : allTokOK st.final = true
  head_ok : headNotBin st.final = true
  pairs_ok : okPairs st.final = true
  empty_flags : st.final = [] →
    st.hasOperand = false ∧ st.hasBinary = false ∧ st.hasUnary = false
  nonempty_flag : st.final ≠ [] → (st.hasOperand || st.hasBinary || st.hasUnary) = true
  bin_last : st.hasBinary = true → ∃ x, st.final.getLast? = some x ∧ isBinTk x = true
  un_last : st.hasUnary = true → ∃ x, st.final.getLast? = some x ∧ isUnTk x = true
  opnd_last : st.hasOperand = true → ∃ x, st.final.getLast? = some x ∧ isOpTk x = false

theorem stInv_init : StInv ⟨[], false, false, false⟩ := by
  constructor <;> simp [allTokOK, headNotBin, okPairs]

theorem stInv_snoc {l : List Tok} {x : Tok}
    (hall : allTokOK l = true) (hhead : headNotBin l = true) (hpairs : okPairs l = true)
    (hx : tokOK x = true)
    (hcompat : match l.getLast? with
               | none => isBinTk x = false
               | some y => okPair y x = true) :
    allTokOK (l ++ [x]) = true ∧ headNotBin (l ++ [x]) = true ∧
      okPairs (l ++ [x]) = true := by
  refine ⟨?_, ?_, ?_⟩
  · rw [allTokOK_append]
    simp [hall, allTokOK, hx]
  · cases l with
    | nil =>
      simp only [List.nil_append, headNotBin]
      simpa using hcompat
    | cons a rest =>
      rw [headNotBin_append _ _ (by simp)]
      exact hhead
  · rw [okPairs_append_one]
    cases hl : l.getLast? with
    | none => simp [hpairs]
    | some y =>
      rw [hl] at hcompat
      simp [hpairs, hcompat]

theorem scanStep_inv {st : IState} (h : StInv st) {tok : Tok} (htok : tokOK tok = true) :
    StInv (scanStep st tok) := by
  obtain ⟨final, hasOp, hasBin, hasUn⟩ := st
  obtain ⟨all_ok, head_ok, pairs_ok, empty_flags, nonempty_flag,
          bin_last, un_last, opnd_last⟩ := h
  simp only at all_ok head_ok pairs_ok empty_flags nonempty_flag bin_last un_last opnd_last
  by_cases hop : isOpTk tok = true
  · by_cases hbin : isBinTk tok = true
    · -- a binary operator token
      cases hB : hasBin with
      | true =>
        -- `AND AND` is malformed: skipped, state unchanged
        subst hB
        simp only [scanStep, hop, hbin, if_true, Bool.true_or, Bool.or_true,
          Bool.and_true, Bool.true_and, Bool.not_true, Bool.false_and, if_true]
        exact ⟨all_ok, head_ok, pairs_ok, empty_flags, nonempty_flag,
               bin_last, un_last, opnd_last⟩
      | false =>
        subst hB
        cases hU : hasUn with
        | true =>
          -- `NOT AND` is malformed: skipped
          subst hU
          simp only [scanStep, hop, hbin, if_true, Bool.or_true, Bool.and_true,
            Bool.true_and]
          exact ⟨all_ok, head_ok, pairs_ok, empty_flags, nonempty_flag,
                 bin_last, un_last, opnd_last⟩
        | false =>
          subst hU
          cases hO : hasOp with
          | false =>
            -- `AND test` is malformed: skipped
            subst hO
            simp only [scanStep, hop, hbin, if_true, Bool.or_false, Bool.and_false,
              Bool.false_or, Bool.and_true, Bool.not_false, Bool.true_and,
              Bool.not_true, Bool.false_and, if_false, Bool.and_self]
            exact ⟨all_ok, head_ok, pairs_ok, empty_flags, nonempty_flag,
                   bin_last, un_last, opnd_last⟩
          | true =>
            -- appended after an operand
            subst hO
            obtain ⟨y, hy, hyop⟩ := opnd_last rfl
            have hsn := stInv_snoc all_ok head_ok pairs_ok htok
              (by rw [hy]; simp [okPair, hyop])
            simp only [scanStep, hop, hbin, if_true, Bool.or_false, Bool.and_false,
              Bool.false_or, Bool.not_true, Bool.false_and, if_false, Bool.and_true,
              Bool.not_false, Bool.and_self]
            exact ⟨hsn.1, hsn.2.1, hsn.2.2, by simp, by simp,
                   fun _ => ⟨tok, by simp, hbin⟩,
                   by simp [isBinTk_not_isUnTk hbin],
                   by simp⟩
    · -- a unary operator token
      have hun : isUnTk tok = true := (isOpTk_cases hop).resolve_left hbin
      have hbin' : isBinTk tok = false := isUnTk_not_isBinTk hun
      cases hU : hasUn with
      | true =>
        -- `NOT NOT` is malformed: skipped
        subst hU
        simp only [scanStep, hop, hbin', if_true, Bool.false_and, Bool.not_false,
          Bool.true_and, if_false, if_true, Bool.false_eq_true]
        exact ⟨all_ok, head_ok, pairs_ok, empty_flags, nonempty_flag,
               bin_last, un_last, opnd_last⟩
      | false =>
        subst hU
        cases hO : hasOp with
        | true =>
          -- implied `AND` inserted before the `NOT`
          subst hO
          obtain ⟨y, hy, hyop⟩ := opnd_last rfl
          have hsn1 := stInv_snoc (x := Tok.str "AND") all_ok head_ok pairs_ok rfl
            (by rw [hy]; simp [okPair, hyop])
          have hsn2 := stInv_snoc (l := final ++ [Tok.str "AND"]) hsn1.1 hsn1.2.1 hsn1.2.2 htok
            (by rw [getLast?_append_one]
                have hband : isBinTk (Tok.str "AND") = true := by decide
                simp [okPair, hun, hband])
          simp only [scanStep, hop, hbin', if_true, Bool.false_and, Bool.not_false,
            Bool.true_and, if_false, Bool.false_or, Bool.or_false, Bool.and_true,
            Bool.and_false, Bool.and_self, Bool.false_eq_true]
          exact ⟨hsn2.1, hsn2.2.1, hsn2.2.2, by simp, by simp,
                 by simp, fun _ => ⟨tok, by simp, hun⟩, by simp⟩
        | false =>
          subst hO
          have hcompat : (match final.getLast? with
              | none => isBinTk tok = false
              | some y => okPair y tok = true) := by
            cases hB : hasBin with
            | true =>
              obtain ⟨y, hy, hybin⟩ := bin_last hB
              rw [hy]
              simp [okPair, hybin, hun]
            | false =>
              have hfe : final = [] := by
                by_contra hne
                have := nonempty_flag hne
                rw [hB] at this
                simp at this
              rw [hfe]
              simpa using hbin'
          have hsn := stInv_snoc all_ok head_ok pairs_ok htok hcompat
          simp only [scanStep, hop, hbin', if_true, Bool.false_and, Bool.not_false,
            Bool.true_and, if_false, Bool.or_false, Bool.and_false, Bool.and_true,
            Bool.and_self, Bool.false_eq_true, Bool.false_or]
          exact ⟨hsn.1, hsn.2.1, hsn.2.2, by simp, by simp,
                 by simp, fun _ => ⟨tok, by simp, hun⟩, by simp⟩
  · -- an operand (a non-operator string or a sublist)
    have hop' : isOpTk tok = false := by simpa using hop
    have hnb : isBinTk tok = false := by
      cases hb : isBinTk tok
      · rfl
      · rw [isBinTk_isOpTk hb] at hop'
        simp at hop'
    cases hO : hasOp with
    | true =>
      subst hO
      obtain ⟨y, hy, hyop⟩ := opnd_last rfl
      have hsn1 := stInv_snoc (x := Tok.str "AND") all_ok head_ok pairs_ok rfl
        (by rw [hy]; simp [okPair, hyop])
      have hsn2 := stInv_snoc (l := final ++ [Tok.str "AND"]) hsn1.1 hsn1.2.1 hsn1.2.2 htok
        (by rw [getLast?_append_one]; simp [okPair, hop'])
      simp only [scanStep, hop', Bool.false_eq_true, if_false, if_true]
      exact ⟨hsn2.1, hsn2.2.1, hsn2.2.2, by simp, by simp,
             by simp, by simp, fun _ => ⟨tok, by simp, hop'⟩⟩
    | false =>
      subst hO
      have hcompat : (match final.getLast? with
          | none => isBinTk tok = false
          | some y => okPair y tok = true) := by
        cases hl : final.getLast? with
        | none => exact hnb
        | some y => simp [okPair, hop']
      have hsn := stInv_snoc all_ok head_ok pairs_ok htok hcompat
      simp only [scanStep, hop', Bool.false_eq_true, if_false]
      exact ⟨hsn.1, hsn.2.1, hsn.2.2, by simp, by simp,
             by simp, by simp, fun _ => ⟨tok, by simp, hop'⟩⟩

theorem impliedScanGo_inv (resolve : Tok → Option (Option Tok))
    (hres : ∀ t tok, resolve t = some (some tok) → tokOK tok = true) :
    ∀ (ts : List Tok) (st st' : IState), StInv st →
      impliedScanGo resolve ts st = some st' → StInv st' := by
  intro ts
  induction ts with
  | nil =>
    intro st st' hinv hrun
    simp only [impliedScanGo] at hrun
    injection hrun with h
    exact h ▸ hinv
  | cons t rest ih =>
    intro st st' hinv hrun
    simp only [impliedScanGo] at hrun
    cases hr : resolve t with
    | none => rw [hr] at hrun; exact absurd hrun (by simp)
    | some o =>
      rw [hr] at hrun
      cases o with
      | none => exact ih st st' hinv hrun
      | some tok => exact ih _ st' (scanStep_inv hinv (hres t tok hr)) hrun

/-- The heart of claim C4: any result of the group-resolution loop is a
well-formed token, and any result of `implied_tokens` satisfies the
output invariant, for every fuel. -/
theorem impliedPair_inv : ∀ fuel : Nat,
    (∀ t tok, (impliedPair fuel).1 t = some (some tok) → tokOK tok = true) ∧
    (∀ ts out, (impliedPair fuel).2 ts = some out → invList out = true) := by
  intro fuel
  induction fuel with
  | zero =>
    constructor
    · intro t tok h
      simp [impliedPair] at h
    · intro ts out h
      simp [impliedPair] at h
  | succ fuel ih =>
    constructor
    · intro t tok h
      cases t with
      | str s =>
        simp only [impliedPair] at h
        injection h with h
        injection h with h
        exact h ▸ rfl
      | group g =>
        cases g with
        | nil =>
          simp only [impliedPair] at h
          injection h with h
          exact absurd h (by simp)
        | cons t1 grest =>
          cases grest with
          | nil =>
            simp only [impliedPair] at h
            exact ih.1 t1 tok h
          | cons t2 grest' =>
            simp only [impliedPair] at h
            split at h
            · exact absurd h (by simp)
            · rename_i g' hg
              split at h
              · rename_i heq
                injection h with h
                injection h with h
                subst h
                rw [tokOK_group]
                have hinv := ih.2 _ _ hg
                rw [heq] at hinv
                simp [hinv]
              · exact ih.1 _ tok h
    · intro ts out h
      simp only [impliedPair] at h
      split at h
      · exact absurd h (by simp)
      · rename_i st hscan
        have hinv : StInv st :=
          impliedScanGo_inv (impliedPair fuel).1 ih.1 _ _ st stInv_init hscan
        split at h
        · rename_i hflag
          split at h
          · exact absurd h (by simp)
          · rename_i f frest hfin
            injection h with h
            have hlastop : ∃ x, st.final.getLast? = some x ∧ isOpTk x = true := by
              rcases Bool.or_eq_true_iff.mp hflag with hb | hu
              · obtain ⟨x, hx, hxb⟩ := hinv.bin_last hb
                exact ⟨x, hx, isBinTk_isOpTk hxb⟩
              · obtain ⟨x, hx, hxu⟩ := hinv.un_last hu
                exact ⟨x, hx, isUnTk_isOpTk hxu⟩
            subst h
            simp only [invList, Bool.and_eq_true]
            refine ⟨⟨⟨headNotBin_dropLast _ hinv.head_ok,
                      okPairs_dropLast _ hinv.pairs_ok⟩,
                     lastNotUn_dropLast _ hinv.pairs_ok hlastop⟩,
                    allTokOK_dropLast _ hinv.all_ok⟩
        · rename_i hflag
          rw [Bool.not_eq_true] at hflag
          injection h with h
          subst h
          have hlast : lastNotUn st.final = true := by
            cases hfin : st.final with
            | nil => simp [lastNotUn]
            | cons f frest =>
              have hne : st.final ≠ [] := by rw [hfin]; simp
              have hor := hinv.nonempty_flag hne
              have hOp : st.hasOperand = true := by
                rcases Bool.or_eq_true_iff.mp hor with h1 | h2
                · rcases Bool.or_eq_true_iff.mp h1 with h3 | h4
                  · exact h3
                  · exact absurd h4 (by simp [Bool.or_eq_true_iff] at hflag; simp [hflag.1])
                · exact absurd h2 (by simp [Bool.or_eq_true_iff] at hflag; simp [hflag.2])
              obtain ⟨x, hx, hxop⟩ := hinv.opnd_last hOp
              rw [← hfin, lastNotUn, hx]
              cases hu : isUnTk x
              · simp [hu]
              · rw [isUnTk_isOpTk hu] at hxop
                simp at hxop
          simp only [invList, Bool.and_eq_true]
          exact ⟨⟨⟨hinv.head_ok, hinv.pairs_ok⟩, hlast⟩, hinv.all_ok⟩

/-! ## Rich stream invariants (strict operator/operand alternation) -/

/-- The strict adjacency discipline of normalized streams: a binary
operator is followed by an operand or `NOT`, a `NOT` by an operand, and
an operand by a binary operator. -/
def okPairR (x y : Tok) : Bool :=
  if isBinTk x then !isBinTk y
  else if isUnTk x then !isOpTk y
  else isBinTk y

/-- `okPairR` over all adjacent pairs. -/
def chainR : List Tok → Bool
  | [] => true
  | [_] => true
  | x :: y :: rest => okPairR x y && chainR (y :: rest)

mutual

/-- A rich stream token: a nonempty string, or a group of at least two
tokens forming a rich stream. -/
def richTok : Tok → Bool
  | .str s => decide (s ≠ "")
  | .group g =>
    decide (2 ≤ g.length) && headNotBin g && chainR g && lastNotUn g && richAll g

/-- `richTok` over a sequence. -/
def richAll : List Tok → Bool
  | [] => true
  | t :: rest => richTok t && richAll rest

end

/-- The rich invariant of a normalized stream: it does not begin with a
binary operator, alternates strictly, does not end with `NOT`, and all
its tokens are rich (a trailing binary operator is allowed: tokenize can
produce one). -/
def richList (l : List Tok) : Bool :=
  headNotBin l && chainR l && lastNotUn l && richAll l

/-! ## Tree shape predicates, normalization and total evaluation -/

mutual

/-- The shape of trees `parse` builds from rich streams: every token is
a string; a non-operator node is a nonempty-token leaf; a `NOT` node has
exactly one child; a binary node has at least one child, none of which
carries the same binary token (same-operator children are merged during
construction). -/
def goodT : ETree → Bool
  | .node none _ => false
  | .node (some s) cs =>
    if BINARY_OPERATORS.contains s then
      decide (1 ≤ cs.length) && goodChildren (some s) cs
    else if UNARY_OPERATORS.contains s then
      decide (cs.length = 1) && goodChildren none cs
    else decide (s ≠ "") && cs.isEmpty

/-- Children check: all good, and none equal to the banned token (the
parent's token for a binary parent, nothing for a unary parent). -/
def goodChildren (banned : Option String) : List ETree → Bool
  | [] => true
  | c :: rest =>
    goodT c && decide (banned = none ∨ c.token ≠ banned) && goodChildren banned rest

end

mutual

/-- The shape re-parsing a rendered tree yields: like `goodT` but with
no single-child binary nodes (re-parsing collapses them). -/
def strictT : ETree → Bool
  | .node none _ => false
  | .node (some s) cs =>
    if BINARY_OPERATORS.contains s then
      decide (2 ≤ cs.length) && strictChildren (some s) cs
    else if UNARY_OPERATORS.contains s then
      decide (cs.length = 1) && strictChildren none cs
    else decide (s ≠ "") && cs.isEmpty

/-- Children check for `strictT`. -/
def strictChildren (banned : Option String) : List ETree → Bool
  | [] => true
  | c :: rest =>
    strictT c && decide (banned = none ∨ c.token ≠ banned) && strictChildren banned rest

end

/-- A leaf token is whitespace-safe when every whitespace character in
it is a plain space: the one well-formedness condition on the input
string that the round-trip needs and that the tokenizer cannot enforce
(a tab inside quotes parses but renders unquoted and re-splits). -/
def wsSafeStr (s : String) : Bool :=
  s.data.all (fun c => !pyIsSpace c || c = ' ')

mutual

/-- Whitespace-safety of every leaf token of a tree. -/
def wsSafeT : ETree → Bool
  | .node tok cs =>
    (if isOpStr tok then true
     else match tok with
          | some s => wsSafeStr s
          | none => true) && wsSafeL cs

/-- `wsSafeT` over children. -/
def wsSafeL : List ETree → Bool
  | [] => true
  | c :: rest => wsSafeT c && wsSafeL rest

end

/-- Splice children equal to the parent's token into the parent: the
merging `parse` performs on same-operator trees. -/
def flattenB (tok : Option String) : List ETree → List ETree
  | [] => []
  | c :: rest => (if c.token = tok then c.children else [c]) ++ flattenB tok rest

mutual

/-- The tree that re-parsing the rendering of a good tree produces:
single-child binary nodes collapse to their child, and a child that
(after normalization) carries its binary parent's token is merged into
the parent. -/
def normT : ETree → ETree
  | .node tok cs =>
    if isBinStr tok then
      match cs with
      | [c] => normT c
      | [] => .node tok (flattenB tok (normL []))
      | c1 :: c2 :: rest => .node tok (flattenB tok (normL (c1 :: c2 :: rest)))
    else .node tok (normL cs)

/-- `normT` over children. -/
def normL : List ETree → List ETree
  | [] => []
  | c :: rest => normT c :: normL rest

end

mutual

/-- Total boolean evaluation of a tree under a pure match function (the
value `evaluate` computes when nothing raises; arbitrary on the shapes
where `evaluate` would raise). -/
def evalB (mf : String → Bool) : ETree → Bool
  | .node tok cs =>
    if isOpStr tok then
      if tok = some "AND" then (evalBL mf cs).all id
      else if tok = some "OR" then (evalBL mf cs).any id
      else if tok = some "XOR" then decide ((evalBL mf cs).count true % 2 = 1)
      else match evalBL mf cs with
           | [v] => !v
           | _ => false
    else match tok with
         | some s => mf s
         | none => false

/-- `evalB` over children. -/
def evalBL (mf : String → Bool) : List ETree → List Bool
  | [] => []
  | c :: rest => evalB mf c :: evalBL mf rest

end

/-! ## Evaluation lemmas: totality and invariance under normalization -/

mutual

/-- The shape on which evaluation with a total match function cannot
raise: every token a string, every unary node with exactly one child. -/
def evalSafeT : ETree → Bool
  | .node none _ => false
  | .node (some s) cs =>
    (if UNARY_OPERATORS.contains s then decide (cs.length = 1) else true) && evalSafeL cs

/-- `evalSafeT` over children. -/
def evalSafeL : List ETree → Bool
  | [] => true
  | c :: rest => evalSafeT c && evalSafeL rest

end

theorem wrapExc_false (r : Except Exc Bool) : wrapExc false r = r := by
  cases r <;> simp [wrapExc]

theorem evalBL_length (mf : String → Bool) :
    ∀ cs : List ETree, (evalBL mf cs).length = cs.length
  | [] => rfl
  | c :: rest => by simp [evalBL, evalBL_length mf rest]

mutual

theorem evalI_total (mf : String → Bool) : ∀ t : ETree, evalSafeT t = true →
    evalI false (liftMatch mf) t = .ok (evalB mf t)
  | .node none cs => by intro h; simp [evalSafeT] at h
  | .node (some s) cs => by
      intro h
      simp only [evalSafeT, Bool.and_eq_true] at h
      by_cases hop : isOpStr (some s) = true
      · simp only [evalI, hop, if_true, evalB]
        by_cases hand : (some s : Option String) = some "AND"
        · simp only [hand, if_pos rfl]
          exact evalAnd_total mf cs h.2
        · simp only [if_neg hand]
          by_cases hor : (some s : Option String) = some "OR"
          · simp only [hor, if_pos rfl]
            exact evalOr_total mf cs h.2
          · simp only [if_neg hor]
            by_cases hxor : (some s : Option String) = some "XOR"
            · simp only [hxor, if_pos rfl]
              rw [evalList_total mf cs h.2]
              simp [func_xor]
            · simp only [if_neg hxor]
              -- the NOT branch: s is an operator other than AND/OR/XOR
              have hnot : s = "NOT" := by
                simp only [isOpStr, OPERATORS, BINARY_OPERATORS, UNARY_OPERATORS] at hop
                simp at hop
                simp only [Option.some.injEq] at hand hor hxor
                rcases hop with h | h | h | h <;> simp_all
              subst hnot
              rw [evalList_total mf cs h.2]
              have hlen : cs.length = 1 := by
                have := h.1
                simp only [UNARY_OPERATORS] at this
                simpa using this
              have hbl : (evalBL mf cs).length = 1 := by
                rw [evalBL_length]; exact hlen
              match hb : evalBL mf cs, hbl with
              | [v], _ => simp [func_not, hb]
      · simp only [evalI, hop, Bool.false_eq_true, if_false, evalB, liftMatch]

theorem evalAnd_total (mf : String → Bool) : ∀ cs : List ETree, evalSafeL cs = true →
    evalAnd false (liftMatch mf) cs = .ok ((evalBL mf cs).all id)
  | [] => by intro _; simp [evalAnd, evalBL]
  | c :: rest => by
      intro h
      simp only [evalSafeL, Bool.and_eq_true] at h
      simp only [evalAnd, wrapExc_false, evalI_total mf c h.1, evalBL]
      cases hv : evalB mf c with
      | false => simp
      | true => simp [evalAnd_total mf rest h.2]

theorem evalOr_total (mf : String → Bool) : ∀ cs : List ETree, evalSafeL cs = true →
    evalOr false (liftMatch mf) cs = .ok ((evalBL mf cs).any id)
  | [] => by intro _; simp [evalOr, evalBL]
  | c :: rest => by
      intro h
      simp only [evalSafeL, Bool.and_eq_true] at h
      simp only [evalOr, wrapExc_false, evalI_total mf c h.1, evalBL]
      cases hv : evalB mf c with
      | false => simp [evalOr_total mf rest h.2]
      | true => simp

theorem evalList_total (mf : String → Bool) : ∀ cs : List ETree, evalSafeL cs = true →
    evalList false (liftMatch mf) cs = .ok (evalBL mf cs)
  | [] => by intro _; simp [evalList, evalBL]
  | c :: rest => by
      intro h
      simp only [evalSafeL, Bool.and_eq_true] at h
      simp only [evalList, wrapExc_false, evalI_total mf c h.1, evalBL,
        evalList_total mf rest h.2]

end

/-- Evaluation with a pure match function never raises on an
`evalSafe` tree and computes `evalB`. -/
theorem evalE_total (mf : String → Bool) (t : ETree) (h : evalSafeT t = true) :
    evalE false (liftMatch mf) t = .ok (evalB mf t) := by
  rw [evalE, wrapExc_false, evalI_total mf t h]

/-! ## Normalization preserves evaluation -/

/-- The n-ary combination a binary operator token computes over its
children's values. -/
def combineB (B : String) (vals : List Bool) : Bool :=
  if B = "AND" then vals.all id
  else if B = "OR" then vals.any id
  else decide (vals.count true % 2 = 1)

/-- The binary combination underlying `combineB`. -/
def mixB (B : String) (a b : Bool) : Bool :=
  if B = "AND" then a && b
  else if B = "OR" then a || b
  else a != b

theorem combineB_nil (B : String) : combineB B [] = (B == "AND") := by
  by_cases h1 : B = "AND" <;> by_cases h2 : B = "OR" <;>
    simp_all [combineB]

theorem combineB_cons (B : String) (v : Bool) (vs : List Bool) :
    combineB B (v :: vs) = mixB B v (combineB B vs) := by
  by_cases h1 : B = "AND"
  · subst h1; cases v <;> simp [combineB, mixB]
  · by_cases h2 : B = "OR"
    · subst h2; cases v <;> simp [combineB, mixB, h1]
    · simp only [combineB, mixB, if_neg h1, if_neg h2]
      cases v with
      | true =>
        simp only [List.count_cons, if_pos rfl]
        rcases Nat.even_or_odd (vs.count true) with he | ho
        · have h2' := Nat.even_iff.mp he
          simp [Nat.add_mod, h2', bne]
        · have h2' := Nat.odd_iff.mp ho
          simp [Nat.add_mod, h2', bne]
      | false => simp [List.count_cons, bne]

theorem combineB_single (B : String) (v : Bool) : combineB B [v] = v := by
  rw [combineB_cons, combineB_nil]
  by_cases h1 : B = "AND" <;> by_cases h2 : B = "OR" <;>
    cases v <;> simp_all [mixB]

theorem mixB_assoc (B : String) (a b c : Bool) :
    mixB B (mixB B a b) c = mixB B a (mixB B b c) := by
  by_cases h1 : B = "AND" <;> by_cases h2 : B = "OR" <;>
    cases a <;> cases b <;> cases c <;> simp_all [mixB, bne]

theorem combineB_append (B : String) (xs ys : List Bool) :
    combineB B (xs ++ ys) = mixB B (combineB B xs) (combineB B ys) := by
  induction xs with
  | nil =>
    rw [List.nil_append, combineB_nil]
    by_cases h1 : B = "AND" <;> by_cases h2 : B = "OR" <;>
      cases hc : combineB B ys <;> simp_all [mixB]
  | cons v vs ih =>
    rw [List.cons_append, combineB_cons, combineB_cons, ih, mixB_assoc]

theorem evalBL_append (mf : String → Bool) (xs ys : List ETree) :
    evalBL mf (xs ++ ys) = evalBL mf xs ++ evalBL mf ys := by
  induction xs with
  | nil => simp [evalBL]
  | cons c rest ih => simp [evalBL, ih]

theorem isBinStr_mem {B : String} (h : isBinStr (some B) = true) :
    B = "AND" ∨ B = "OR" ∨ B = "XOR" := by
  simp only [isBinStr, BINARY_OPERATORS] at h
  simpa using h

theorem isOpStr_of_isBinStr {B : String} (h : isBinStr (some B) = true) :
    isOpStr (some B) = true := by
  rcases isBinStr_mem h with h | h | h <;> subst h <;> decide

/-- A binary-token node evaluates to the `combineB` of its children's
values. -/
theorem evalB_binNode (mf : String → Bool) (B : String) (cs : List ETree)
    (hB : isBinStr (some B) = true) :
    evalB mf (.node (some B) cs) = combineB B (evalBL mf cs) := by
  have hop := isOpStr_of_isBinStr hB
  rcases isBinStr_mem hB with h | h | h <;> subst h <;>
    simp [evalB, combineB, hop]

/-- Splicing same-token children into a binary node does not change the
combined value. -/
theorem combineB_flattenB (mf : String → Bool) (B : String)
    (hB : isBinStr (some B) = true) :
    ∀ l : List ETree,
      combineB B (evalBL mf (flattenB (some B) l)) = combineB B (evalBL mf l)
  | [] => rfl
  | c :: rest => by
    simp only [flattenB, evalBL_append, combineB_append]
    rw [combineB_flattenB mf B hB rest]
    by_cases hc : c.token = some B
    · rw [if_pos hc]
      obtain ⟨tok, cc⟩ := c
      simp only [ETree.token] at hc
      subst hc
      simp only [ETree.children]
      rw [show evalBL mf (ETree.node (some B) cc :: rest) =
            evalB mf (ETree.node (some B) cc) :: evalBL mf rest from rfl,
          combineB_cons, evalB_binNode mf B cc hB]
    · rw [if_neg hc]
      rw [show evalBL mf [c] = [evalB mf c] from rfl, combineB_single,
          show evalBL mf (c :: rest) = evalB mf c :: evalBL mf rest from rfl,
          combineB_cons]

theorem normL_length : ∀ cs : List ETree, (normL cs).length = cs.length
  | [] => rfl
  | c :: rest => by simp [normL, normL_length rest]

theorem isBinStr_not_isUnStr {B : String} (h : isBinStr (some B) = true) :
    isUnStr (some B) = false := by
  rcases isBinStr_mem h with h | h | h <;> subst h <;> decide

theorem isUnStr_mem {s : String} (h : isUnStr (some s) = true) : s = "NOT" := by
  simp only [isUnStr, UNARY_OPERATORS] at h
  simpa using h

theorem isOpStr_split {s : String} (h : isOpStr (some s) = true) :
    isBinStr (some s) = true ∨ isUnStr (some s) = true := by
  simp only [isOpStr, OPERATORS, BINARY_OPERATORS, UNARY_OPERATORS] at h
  simp only [isBinStr, isUnStr, BINARY_OPERATORS, UNARY_OPERATORS]
  simp at *
  tauto

mutual

theorem evalB_normT (mf : String → Bool) : ∀ t : ETree, goodT t = true →
    evalB mf (normT t) = evalB mf t
  | .node none cs => by intro h; simp [goodT] at h
  | .node (some s) cs => by
    intro h
    simp only [goodT] at h
    by_cases hbin : BINARY_OPERATORS.contains s = true
    · rw [if_pos hbin] at h
      simp only [Bool.and_eq_true] at h
      have hB : isBinStr (some s) = true := by simpa [isBinStr] using hbin
      cases cs with
      | nil => simp at h
      | cons c rest =>
        cases rest with
        | nil =>
          have hc : goodT c = true := by
            have := h.2
            simp only [goodChildren, Bool.and_eq_true] at this
            exact this.1.1
          rw [show normT (ETree.node (some s) [c]) = normT c by simp [normT, hB]]
          rw [evalB_normT mf c hc, evalB_binNode mf s [c] hB]
          rw [show evalBL mf [c] = [evalB mf c] from rfl, combineB_single]
        | cons c2 rest' =>
          have hnem : normT (ETree.node (some s) (c :: c2 :: rest')) =
              ETree.node (some s) (flattenB (some s) (normL (c :: c2 :: rest'))) := by
            simp [normT, hB]
          rw [hnem]
          rw [evalB_binNode mf s _ hB, evalB_binNode mf s _ hB,
              combineB_flattenB mf s hB,
              evalBL_normL mf (c :: c2 :: rest') (some s) h.2]
    · rw [if_neg hbin] at h
      have hnb : isBinStr (some s) = false := by simpa [isBinStr] using hbin
      have hnem : normT (ETree.node (some s) cs) = ETree.node (some s) (normL cs) := by
        rw [normT.eq_def]
        simp only [hnb, Bool.false_eq_true, if_false]
      rw [hnem]
      by_cases hun : UNARY_OPERATORS.contains s = true
      · rw [if_pos hun] at h
        simp only [Bool.and_eq_true] at h
        have hs : s = "NOT" := isUnStr_mem (by simpa [isUnStr] using hun)
        subst hs
        simp only [evalB, evalBL_normL mf cs none h.2]
      · rw [if_neg hun] at h
        simp only [Bool.and_eq_true, List.isEmpty_eq_true] at h
        rw [h.2]
        rfl

theorem evalBL_normL (mf : String → Bool) : ∀ (cs : List ETree) (banned : Option String),
    goodChildren banned cs = true → evalBL mf (normL cs) = evalBL mf cs
  | [], _, _ => rfl
  | c :: rest, banned, h => by
    simp only [goodChildren, Bool.and_eq_true] at h
    simp only [normL, evalBL]
    rw [evalB_normT mf c h.1.1, evalBL_normL mf rest banned h.2]

end

/-- `strictT` over a plain list of trees. -/
def strictAllL : List ETree → Bool
  | [] => true
  | c :: rest => strictT c && strictAllL rest

theorem strictChildren_append (banned : Option String) (l1 l2 : List ETree) :
    strictChildren banned (l1 ++ l2) =
      (strictChildren banned l1 && strictChildren banned l2) := by
  induction l1 with
  | nil => simp [strictChildren]
  | cons c rest ih => simp [strictChildren, ih, Bool.and_assoc]

theorem flattenB_strict {B : String} (hB : isBinStr (some B) = true) :
    ∀ l : List ETree, strictAllL l = true →
      strictChildren (some B) (flattenB (some B) l) = true ∧
      l.length ≤ (flattenB (some B) l).length
  | [], _ => by simp [flattenB, strictChildren]
  | c :: rest, h => by
    simp only [strictAllL, Bool.and_eq_true] at h
    have ihr := flattenB_strict hB rest h.2
    simp only [flattenB, strictChildren_append, Bool.and_eq_true, List.length_cons,
      List.length_append]
    by_cases hc : c.token = some B
    · rw [if_pos hc]
      obtain ⟨tok, cc⟩ := c
      simp only [ETree.token] at hc
      subst hc
      simp only [ETree.children]
      have hstrict := h.1
      have hBmem : BINARY_OPERATORS.contains B = true := by simpa [isBinStr] using hB
      simp only [strictT, hBmem, if_pos, Bool.and_eq_true, decide_eq_true_eq] at hstrict
      refine ⟨⟨hstrict.2, ihr.1⟩, ?_⟩
      have := hstrict.1
      omega
    · rw [if_neg hc]
      simp only [strictChildren, Bool.and_eq_true, List.length_singleton]
      exact ⟨⟨⟨⟨h.1, by simp [hc]⟩, trivial⟩, ihr.1⟩, by omega⟩

mutual

theorem strictT_normT : ∀ t : ETree, goodT t = true → strictT (normT t) = true
  | .node none cs => by intro h; simp [goodT] at h
  | .node (some s) cs => by
    intro h
    simp only [goodT] at h
    by_cases hbin : BINARY_OPERATORS.contains s = true
    · rw [if_pos hbin] at h
      simp only [Bool.and_eq_true] at h
      have hB : isBinStr (some s) = true := by simpa [isBinStr] using hbin
      cases cs with
      | nil => simp at h
      | cons c rest =>
        cases rest with
        | nil =>
          have hc : goodT c = true := by
            have := h.2
            simp only [goodChildren, Bool.and_eq_true] at this
            exact this.1.1
          rw [show normT (ETree.node (some s) [c]) = normT c by simp [normT, hB]]
          exact strictT_normT c hc
        | cons c2 rest' =>
          have hnem : normT (ETree.node (some s) (c :: c2 :: rest')) =
              ETree.node (some s) (flattenB (some s) (normL (c :: c2 :: rest'))) := by
            simp [normT, hB]
          rw [hnem]
          have hall := strictAllL_normL (c :: c2 :: rest') (some s) h.2
          have hflat := flattenB_strict hB (normL (c :: c2 :: rest')) hall
          simp only [strictT, hbin, if_pos, Bool.and_eq_true, decide_eq_true_eq]
          refine ⟨?_, hflat.1⟩
          have hlen := hflat.2
          rw [normL_length] at hlen
          simp only [List.length_cons] at hlen
          omega
    · rw [if_neg hbin] at h
      have hnb : isBinStr (some s) = false := by simpa [isBinStr] using hbin
      have hnem : normT (ETree.node (some s) cs) = ETree.node (some s) (normL cs) := by
        rw [normT.eq_def]
        simp only [hnb, Bool.false_eq_true, if_false]
      rw [hnem]
      by_cases hun : UNARY_OPERATORS.contains s = true
      · rw [if_pos hun] at h
        simp only [Bool.and_eq_true, decide_eq_true_eq] at h
        cases cs with
        | nil => simp at h
        | cons c rest =>
          cases rest with
          | nil =>
            have hc : goodT c = true := by
              have := h.2
              simp only [goodChildren, Bool.and_eq_true] at this
              exact this.1.1
            have hs := strictT_normT c hc
            have hb1 : s ∉ BINARY_OPERATORS := by simpa using hbin
            have hu1 : s ∈ UNARY_OPERATORS := by simpa using hun
            simp only [normL]
            simp [strictT, strictChildren, hb1, hu1, hs]
          | cons c2 rest' => simp at h
      · rw [if_neg hun] at h
        simp only [Bool.and_eq_true, decide_eq_true_eq, List.isEmpty_eq_true] at h
        obtain ⟨h1, h2⟩ := h
        subst h2
        have hb1 : s ∉ BINARY_OPERATORS := by simpa using hbin
        have hu1 : s ∉ UNARY_OPERATORS := by simpa using hun
        simp [normL, strictT, hb1, hu1, h1]

theorem strictAllL_normL : ∀ (cs : List ETree) (banned : Option String),
    goodChildren banned cs = true → strictAllL (normL cs) = true
  | [], _, _ => rfl
  | c :: rest, banned, h => by
    simp only [goodChildren, Bool.and_eq_true] at h
    simp only [normL, strictAllL, Bool.and_eq_true]
    exact ⟨strictT_normT c h.1.1, strictAllL_normL rest banned h.2⟩

end

mutual

theorem goodT_evalSafe : ∀ t : ETree, goodT t = true → evalSafeT t = true
  | .node none cs => by intro h; simp [goodT] at h
  | .node (some s) cs => by
    intro h
    simp only [goodT] at h
    simp only [evalSafeT, Bool.and_eq_true]
    by_cases hbin : BINARY_OPERATORS.contains s = true
    · rw [if_pos hbin] at h
      simp only [Bool.and_eq_true] at h
      have hun : UNARY_OPERATORS.contains s = false := by
        have := isBinTk_not_isUnTk (t := .str s) (by simpa [isBinTk] using hbin)
        simpa [isUnTk] using this
      refine ⟨by rw [if_neg (by rw [hun]; simp)], goodChildren_evalSafe cs (some s) h.2⟩
    · rw [if_neg hbin] at h
      by_cases hun : UNARY_OPERATORS.contains s = true
      · rw [if_pos hun] at h
        simp only [Bool.and_eq_true] at h
        exact ⟨by simp [hun, h.1], goodChildren_evalSafe cs none h.2⟩
      · rw [if_neg hun] at h
        simp only [Bool.and_eq_true, List.isEmpty_eq_true] at h
        obtain ⟨h1, h2⟩ := h
        subst h2
        exact ⟨by rw [if_neg hun], rfl⟩

theorem goodChildren_evalSafe : ∀ (cs : List ETree) (banned : Option String),
    goodChildren banned cs = true → evalSafeL cs = true
  | [], _, _ => rfl
  | c :: rest, banned, h => by
    simp only [goodChildren, Bool.and_eq_true] at h
    simp only [evalSafeL, Bool.and_eq_true]
    exact ⟨goodT_evalSafe c h.1.1, goodChildren_evalSafe rest banned h.2⟩

end

mutual

theorem strictT_evalSafe : ∀ t : ETree, strictT t = true → evalSafeT t = true
  | .node none cs => by intro h; simp [strictT] at h
  | .node (some s) cs => by
    intro h
    simp only [strictT] at h
    simp only [evalSafeT, Bool.and_eq_true]
    by_cases hbin : BINARY_OPERATORS.contains s = true
    · rw [if_pos hbin] at h
      simp only [Bool.and_eq_true] at h
      have hun : UNARY_OPERATORS.contains s = false := by
        have := isBinTk_not_isUnTk (t := .str s) (by simpa [isBinTk] using hbin)
        simpa [isUnTk] using this
      refine ⟨by rw [if_neg (by rw [hun]; simp)], strictChildren_evalSafe cs (some s) h.2⟩
    · rw [if_neg hbin] at h
      by_cases hun : UNARY_OPERATORS.contains s = true
      · rw [if_pos hun] at h
        simp only [Bool.and_eq_true] at h
        exact ⟨by simp [hun, h.1], strictChildren_evalSafe cs none h.2⟩
      · rw [if_neg hun] at h
        simp only [Bool.and_eq_true, List.isEmpty_eq_true] at h
        obtain ⟨h1, h2⟩ := h
        subst h2
        exact ⟨by rw [if_neg hun], rfl⟩

theorem strictChildren_evalSafe : ∀ (cs : List ETree) (banned : Option String),
    strictChildren banned cs = true → evalSafeL cs = true
  | [], _, _ => rfl
  | c :: rest, banned, h => by
    simp only [strictChildren, Bool.and_eq_true] at h
    simp only [evalSafeL, Bool.and_eq_true]
    exact ⟨strictT_evalSafe c h.1.1, strictChildren_evalSafe rest banned h.2⟩

end

/-! ## Token classes for the round-trip -/

mutual

/-- Every string inside the token (at any depth) is nonempty — what the
character scan's empty-word filter guarantees about its output. -/
def neTok : Tok → Bool
  | .str s => decide (s ≠ "")
  | .group g => neAll g

/-- `neTok` over a sequence. -/
def neAll : List Tok → Bool
  | [] => true
  | t :: rest => neTok t && neAll rest

end

mutual

/-- The token class `order_operations` preserves: strings are nonempty,
groups are nonempty strictly-alternating sequences.  Unlike `richTok` a
singleton group is allowed — collapsing a whole sequence into one slice
produces one. -/
def ordTok : Tok → Bool
  | .str s => decide (s ≠ "")
  | .group g => decide (g ≠ []) && headNotBin g && chainR g && lastNotUn g && ordAll g

/-- `ordTok` over a sequence. -/
def ordAll : List Tok → Bool
  | [] => true
  | t :: rest => ordTok t && ordAll rest

end

/-- The stream invariant maintained by `order_operations`. -/
def ordList (l : List Tok) : Bool :=
  headNotBin l && chainR l && lastNotUn l && ordAll l

mutual

/-- For one tree: the stream token its rendering contributes to its
parent's token list (first component: a parenthesized group for an
operator node, a plain string for a leaf), and the token list its
rendered string tokenizes to at top level (second component). -/
def tokAndToks : ETree → Tok × List Tok
  | .node none _ => (.str "", [.str ""])
  | .node (some s) cs =>
    let cts := tokList cs
    let l : List Tok :=
      if !OPERATORS.contains s then [.str s]
      else match cts with
        | [] => [.str s]
        | [ct] => [.str s, ct]
        | ct1 :: rest => ct1 :: rest.flatMap (fun ct => [.str s, ct])
    (if OPERATORS.contains s then .group l else .str s, l)

/-- First components of `tokAndToks` over a child list. -/
def tokList : List ETree → List Tok
  | [] => []
  | c :: rest => (tokAndToks c).1 :: tokList rest

end

/-- The token list the rendering of a tree re-tokenizes to. -/
def toksT (t : ETree) : List Tok := (tokAndToks t).2

/-- The single stream token a child's rendering contributes. -/
def tokOf (t : ETree) : Tok := (tokAndToks t).1

mutual

/-- The stream token that the group-resolution loop of `implied_tokens`
leaves in place of a `goodT` tree's rendered token: a leaf keeps its
string; a single-child binary node resolves to its child's resolved
token; a unary or multi-child binary node resolves to the group holding
its resolved stream. -/
def rT : ETree → Tok
  | .node none _ => .str ""
  | .node (some s) cs =>
    if OPERATORS.contains s = true then
      if BINARY_OPERATORS.contains s = true then rbin s cs
      else .group (.str s :: rTl cs)
    else .str s

/-- The resolved token of a binary node with the given children: a
single child resolves in place of the node, otherwise the pair group. -/
def rbin (s : String) : List ETree → Tok
  | [c] => rT c
  | other => .group (pairsL s other)

/-- `rT` over a child list. -/
def rTl : List ETree → List Tok
  | [] => []
  | c :: rest => rT c :: rTl rest

/-- The resolved stream of a binary node's children: the first child's
resolved token, then operator/child pairs. -/
def pairsL (s : String) : List ETree → List Tok
  | [] => []
  | c :: rest => rT c :: pairsTl s rest

/-- The operator/child pair tail of `pairsL`. -/
def pairsTl (s : String) : List ETree → List Tok
  | [] => []
  | c :: rest => .str s :: (rT c :: pairsTl s rest)

end

/-- The output of `implied_tokens` on `toksT t` for a `goodT` tree: the
lone operator of a single-child binary node is dropped and every child
token is replaced by its resolved token. -/
def iT : ETree → List Tok
  | .node none _ => [.str ""]
  | .node (some s) cs =>
    if OPERATORS.contains s = true then
      if BINARY_OPERATORS.contains s = true then pairsL s cs
      else .str s :: rTl cs
    else [.str s]

/-- The raw-token flattening of a nested token list: what the character
scan produces for the rendering that `sublist_tokens` will regroup. -/
def rawOf : List Tok → List RawTok
  | [] => []
  | .str s :: rest => .str s :: rawOf rest
  | .group g :: rest => .parenOpen :: (rawOf g ++ .parenClose :: rawOf rest)

/-! ## Adjacency lemmas for the strict alternation discipline -/

theorem isOpTk_false_not_bin {t : Tok} (h : isOpTk t = false) : isBinTk t = false := by
  cases hb : isBinTk t
  · rfl
  · rw [isBinTk_isOpTk hb] at h
    exact absurd h (by simp)

theorem isOpTk_false_not_un {t : Tok} (h : isOpTk t = false) : isUnTk t = false := by
  cases hu : isUnTk t
  · rfl
  · rw [isUnTk_isOpTk hu] at h
    exact absurd h (by simp)

theorem okPairR_of_bin {x y : Tok} (hx : isBinTk x = true) (hy : isBinTk y = false) :
    okPairR x y = true := by
  simp [okPairR, hx, hy]

theorem okPairR_of_un {x y : Tok} (hx : isUnTk x = true) (hy : isOpTk y = false) :
    okPairR x y = true := by
  simp [okPairR, isUnTk_not_isBinTk hx, hx, hy]

theorem okPairR_of_opnd {x y : Tok} (hx : isOpTk x = false) (hy : isBinTk y = true) :
    okPairR x y = true := by
  simp [okPairR, isOpTk_false_not_bin hx, isOpTk_false_not_un hx, hy]

theorem okPairR_left_of_bin {x y : Tok} (h : okPairR x y = true) (hy : isBinTk y = true) :
    isOpTk x = false := by
  cases hox : isOpTk x
  · rfl
  · rcases isOpTk_cases hox with h1 | h2
    · rw [okPairR, if_pos h1, hy] at h
      exact absurd h (by simp)
    · rw [okPairR, if_neg (by rw [isUnTk_not_isBinTk h2]; simp), if_pos h2,
          isBinTk_isOpTk hy] at h
      exact absurd h (by simp)

theorem okPairR_left_of_un {x y : Tok} (h : okPairR x y = true) (hy : isUnTk y = true) :
    isBinTk x = true := by
  cases hbx : isBinTk x
  · by_cases hux : isUnTk x = true
    · rw [okPairR, if_neg (by rw [hbx]; simp), if_pos hux, isUnTk_isOpTk hy] at h
      exact absurd h (by simp)
    · rw [okPairR, if_neg (by rw [hbx]; simp), if_neg hux, isUnTk_not_isBinTk hy] at h
      exact absurd h (by simp)
  · rfl

theorem okPairR_left_of_opnd {x y : Tok} (h : okPairR x y = true) (hy : isOpTk y = false) :
    isOpTk x = true := by
  cases hox : isOpTk x
  · rw [okPairR, if_neg (by rw [isOpTk_false_not_bin hox]; simp),
        if_neg (by rw [isOpTk_false_not_un hox]; simp), isOpTk_false_not_bin hy] at h
    exact absurd h (by simp)
  · rfl

theorem okPairR_bin_right {x y : Tok} (h : okPairR x y = true) (hx : isBinTk x = true) :
    isBinTk y = false := by
  rw [okPairR, if_pos hx] at h
  simpa using h

theorem okPairR_un_right {x y : Tok} (h : okPairR x y = true) (hx : isUnTk x = true) :
    isOpTk y = false := by
  rw [okPairR, if_neg (by rw [isUnTk_not_isBinTk hx]; simp), if_pos hx] at h
  simpa using h

theorem okPairR_opnd_right {x y : Tok} (h : okPairR x y = true) (hx : isOpTk x = false) :
    isBinTk y = true := by
  rw [okPairR, if_neg (by rw [isOpTk_false_not_bin hx]; simp),
      if_neg (by rw [isOpTk_false_not_un hx]; simp)] at h
  exact h

theorem okPairR_okPair {x y : Tok} (h : okPairR x y = true) : okPair x y = true := by
  cases hy : isOpTk y
  · simp [okPair, hy]
  · rcases isOpTk_cases hy with hb | hu
    · simp [okPair, okPairR_left_of_bin h hb]
    · simp [okPair, okPairR_left_of_un h hu, hu]

theorem chainR_okPairs : ∀ l : List Tok, chainR l = true → okPairs l = true
  | [], _ => rfl
  | [_], _ => rfl
  | x :: y :: rest, h => by
    simp only [chainR, Bool.and_eq_true] at h
    simp only [okPairs, Bool.and_eq_true]
    exact ⟨okPairR_okPair h.1, chainR_okPairs (y :: rest) h.2⟩

/-- The adjacency condition between a token and the head of what
follows it. -/
def okHead (x : Tok) (l : List Tok) : Bool :=
  match l.head? with
  | none => true
  | some y => okPairR x y

theorem chainR_cons (x : Tok) (l : List Tok) :
    chainR (x :: l) = (okHead x l && chainR l) := by
  cases l with
  | nil => rfl
  | cons y rest => rfl

theorem chainR_of_cons {x : Tok} {l : List Tok} (h : chainR (x :: l) = true) :
    chainR l = true := by
  rw [chainR_cons] at h
  simp only [Bool.and_eq_true] at h
  exact h.2

theorem chainR_append (xs ys : List Tok) :
    chainR (xs ++ ys) = true ↔
      chainR xs = true ∧ chainR ys = true ∧
        ∀ x y, xs.getLast? = some x → ys.head? = some y → okPairR x y = true := by
  induction xs with
  | nil => simp [chainR]
  | cons a rest ih =>
    rw [List.cons_append, chainR_cons, chainR_cons (l := rest), Bool.and_eq_true,
        Bool.and_eq_true, ih]
    cases rest with
    | nil =>
      constructor
      · rintro ⟨h1, _, h2, _⟩
        refine ⟨⟨rfl, rfl⟩, h2, ?_⟩
        intro x y hx hy
        rw [List.getLast?_singleton] at hx
        injection hx with hx
        subst hx
        rw [List.nil_append] at h1
        simpa [okHead, hy] using h1
      · rintro ⟨_, h2, h3⟩
        refine ⟨?_, rfl, h2, ?_⟩
        · rw [List.nil_append]
          unfold okHead
          cases hy : ys.head? with
          | none => rfl
          | some y => exact h3 a y (by rw [List.getLast?_singleton]) hy
        · intro x y hx hy
          rw [List.getLast?_nil] at hx
          exact absurd hx (by simp)
    | cons b rest' =>
      have hlast : (a :: b :: rest').getLast? = (b :: rest').getLast? := by
        rw [List.getLast?_cons_cons]
      rw [hlast]
      constructor
      · rintro ⟨h1, h2, h3, h4⟩
        exact ⟨⟨by simpa [okHead] using h1, h2⟩, h3, h4⟩
      · rintro ⟨⟨h1, h2⟩, h3, h4⟩
        exact ⟨by simpa [okHead] using h1, h2, h3, h4⟩

theorem ordAll_append (xs ys : List Tok) : ordAll (xs ++ ys) = (ordAll xs && ordAll ys) := by
  induction xs with
  | nil => simp [ordAll]
  | cons a rest ih => simp [ordAll, ih, Bool.and_assoc]

theorem chainR_take (l : List Tok) (n : Nat) (h : chainR l = true) :
    chainR (l.take n) = true :=
  ((chainR_append (l.take n) (l.drop n)).mp (by rw [List.take_append_drop]; exact h)).1

theorem chainR_drop (l : List Tok) (n : Nat) (h : chainR l = true) :
    chainR (l.drop n) = true :=
  ((chainR_append (l.take n) (l.drop n)).mp (by rw [List.take_append_drop]; exact h)).2.1

theorem ordAll_take (l : List Tok) (n : Nat) (h : ordAll l = true) :
    ordAll (l.take n) = true := by
  have := ordAll_append (l.take n) (l.drop n)
  rw [List.take_append_drop, h] at this
  exact (Bool.and_eq_true_iff.mp this.symm).1

theorem ordAll_drop (l : List Tok) (n : Nat) (h : ordAll l = true) :
    ordAll (l.drop n) = true := by
  have := ordAll_append (l.take n) (l.drop n)
  rw [List.take_append_drop, h] at this
  exact (Bool.and_eq_true_iff.mp this.symm).2

theorem headNotBin_head? {l : List Tok} {x : Tok} (h : headNotBin l = true)
    (hx : l.head? = some x) : isBinTk x = false := by
  cases l with
  | nil => simp at hx
  | cons a rest =>
    injection hx with hx
    subst hx
    simpa [headNotBin] using h

theorem lastNotUn_some {l : List Tok} {x : Tok} (h : lastNotUn l = true)
    (hx : l.getLast? = some x) : isUnTk x = false := by
  unfold lastNotUn at h
  rw [hx] at h
  simpa using h

theorem chainR_get? : ∀ (l : List Tok) (j : Nat) {x y : Tok}, chainR l = true →
    l.get? j = some x → l.get? (j+1) = some y → okPairR x y = true
  | [], _, _, _, _, hx, _ => by simp at hx
  | a :: rest, 0, x, y, h, hx, hy => by
    injection hx with hx
    subst hx
    cases rest with
    | nil => simp at hy
    | cons b rest' =>
      simp only [List.get?_cons_succ, List.get?_cons_zero] at hy
      injection hy with hy
      subst hy
      simp only [chainR, Bool.and_eq_true] at h
      exact h.1
  | a :: rest, j + 1, x, y, h, hx, hy => by
    simp only [List.get?_cons_succ] at hx hy
    exact chainR_get? rest j (chainR_of_cons h) hx hy

theorem pyGetWrap_eq_get? {l : List Tok} {i : Int} (h0 : 0 ≤ i) (h1 : i < l.length) :
    pyGetWrap l i = l.get? i.toNat := by
  have hni : ¬ i < 0 := by omega
  simp only [pyGetWrap, hni, if_false]
  rw [dif_pos (show 0 ≤ i ∧ i < (l.length : Int) from ⟨h0, h1⟩)]
  rw [List.get?_eq_get (show i.toNat < l.length by omega)]

theorem pySliceIdx_of_nonneg {len : Nat} {i : Int} (h0 : 0 ≤ i) (h1 : i ≤ (len : Int)) :
    pySliceIdx len i = i.toNat := by
  simp only [pySliceIdx]
  rw [if_neg (by omega), if_neg (by omega)]
  omega

theorem pySliceGet_eq {l : List Tok} {a b : Int} (h0 : 0 ≤ a) (hab : a ≤ b)
    (hb : b ≤ (l.length : Int)) :
    pySliceGet l a b = (l.drop a.toNat).take (b.toNat - a.toNat) := by
  simp only [pySliceGet]
  rw [pySliceIdx_of_nonneg h0 (by omega), pySliceIdx_of_nonneg (by omega) hb,
      max_eq_right (by omega)]

theorem pySliceSet_eq {l : List Tok} {a b : Int} {x : Tok} (h0 : 0 ≤ a) (hab : a ≤ b)
    (hb : b ≤ (l.length : Int)) :
    pySliceSet l a b x = l.take a.toNat ++ [x] ++ l.drop b.toNat := by
  simp only [pySliceSet]
  rw [pySliceIdx_of_nonneg h0 (by omega), pySliceIdx_of_nonneg (by omega) hb,
      max_eq_right (by omega)]

theorem popWhile_spec (d : Nat) : ∀ (S : List Nat) (i : Int),
    ∃ k, k ≤ S.length ∧ popWhile d S i = (S.drop k, i - k)
  | [], i => ⟨0, by simp [popWhile]⟩
  | p :: rest, i => by
    by_cases hp : p = d
    · obtain ⟨k, hk, he⟩ := popWhile_spec d rest (i - 1)
      refine ⟨k + 1, by simp only [List.length_cons]; omega, ?_⟩
      simp only [popWhile, if_pos hp, he, List.drop_succ_cons]
      refine congrArg _ ?_
      omega
    · exact ⟨0, by simp, by simp [popWhile, hp]⟩

theorem popRun_spec (S : List Nat) (i : Int) :
    ∃ k, k ≤ S.length ∧ popRun S i = (S.drop k, i - k) := by
  cases S with
  | nil => exact ⟨0, by simp [popRun]⟩
  | cons p rest =>
    obtain ⟨k, hk, he⟩ := popWhile_spec p (p :: rest) i
    exact ⟨k, hk, by simpa [popRun] using he⟩

theorem popTwice_spec (S : List Nat) (i : Int) :
    ∃ m, m ≤ S.length ∧ popTwice S i = (S.drop m, i - m) := by
  obtain ⟨k1, hk1, he1⟩ := popRun_spec S i
  obtain ⟨k2, hk2, he2⟩ := popRun_spec (S.drop k1) (i - k1)
  refine ⟨k1 + k2, ?_, ?_⟩
  · rw [List.length_drop] at hk2
    omega
  · simp only [popTwice, he1, he2, List.drop_drop]
    refine congr (congrArg _ (by rw [Nat.add_comm])) (by omega)

theorem tok_head?_eq_get? (l : List Tok) : l.head? = l.get? 0 := by
  cases l <;> rfl

theorem tok_get?_drop : ∀ (l : List Tok) (n m : Nat), (l.drop n).get? m = l.get? (n + m)
  | [], n, m => by simp
  | a :: l, 0, m => by simp
  | a :: l, n + 1, m => by
    rw [show n + 1 + m = (n + m) + 1 by omega]
    simp only [List.drop_succ_cons, List.get?_cons_succ]
    exact tok_get?_drop l n m

theorem tok_head?_drop (l : List Tok) (n : Nat) : (l.drop n).head? = l.get? n := by
  rw [tok_head?_eq_get?, tok_get?_drop, Nat.add_zero]

theorem tok_head?_take {l : List Tok} {n : Nat} (h : 0 < n) : (l.take n).head? = l.head? := by
  cases l with
  | nil => simp
  | cons a rest =>
    cases n with
    | zero => omega
    | succ m => rfl

theorem tok_getLast?_take : ∀ (l : List Tok) (n : Nat), 0 < n → n ≤ l.length →
    (l.take n).getLast? = l.get? (n - 1)
  | [], n, h0, h1 => by simp at h1; omega
  | a :: rest, 1, _, _ => by simp
  | a :: rest, n + 2, _, h1 => by
    have hr2 : n + 1 ≤ rest.length := by
      simp only [List.length_cons] at h1
      omega
    have ih := tok_getLast?_take rest (n + 1) (by omega) hr2
    rw [List.take_succ_cons]
    rw [getLast?_cons_ne_nil a _ (by
      intro hc
      have := congrArg List.length hc
      simp only [List.length_take, List.length_nil] at this
      omega)]
    rw [ih]
    rw [show n + 2 - 1 = n + 1 by omega, List.get?_cons_succ, Nat.add_sub_cancel]

theorem headNotBin_of_head? {l : List Tok}
    (h : ∀ x, l.head? = some x → isBinTk x = false) : headNotBin l = true := by
  cases l with
  | nil => rfl
  | cons a rest => simpa [headNotBin] using h a rfl

theorem headNotBin_take (l : List Tok) (n : Nat) (h : headNotBin l = true) :
    headNotBin (l.take n) = true := by
  cases l with
  | nil => simp [headNotBin]
  | cons a rest =>
    cases n with
    | zero => rfl
    | succ m => simpa [headNotBin] using h

theorem lastNotUn_of_getLast? {l : List Tok}
    (h : ∀ x, l.getLast? = some x → isUnTk x = false) : lastNotUn l = true := by
  unfold lastNotUn
  cases hl : l.getLast? with
  | none => rfl
  | some x => simpa using h x hl

/-! ## The loop invariant of the precedence scan -/

/-- What stays true of the scan state across `order_operations`' token
rewriting loop. -/
structure OInv (st : OSt) : Prop where
  ne : st.tokens ≠ []
  head_ok : headNotBin st.tokens = true
  chain_ok : chainR st.tokens = true
  last_ok : lastNotUn st.tokens = true
  all_ok : ordAll st.tokens = true
  idx_lo : 0 ≤ st.index
  stack_le : (st.stack.length : Int) ≤ st.index
  slice_inv : ∀ v, st.sliceStart = some v →
    st.sliceEnd = none ∧ 0 ≤ v ∧ v + 1 < st.index ∧ v < (st.tokens.length : Int) ∧
      ∃ tk, st.tokens.get? v.toNat = some tk ∧ isOpTk tk = false

/-- Replacing the slice `[a, b)` of a well-formed token sequence by the
sublist it spans preserves all four stream conditions, provided the
slice begins with a non-binary token and ends with an operand (or runs
to the end of the sequence). -/
theorem collapse_tokens_inv {T T' : List Tok} {a b : Nat}
    (hhead : headNotBin T = true) (hchain : chainR T = true)
    (hlast : lastNotUn T = true) (hall : ordAll T = true)
    (hab : a < b) (hbl : b ≤ T.length)
    (ha : ∀ tk, T.get? a = some tk → isBinTk tk = false)
    (hb : b = T.length ∨ ∀ tk, T.get? (b - 1) = some tk → isOpTk tk = false)
    (hT' : T' = T.take a ++ [Tok.group ((T.drop a).take (b - a))] ++ T.drop b) :
    T' ≠ [] ∧ headNotBin T' = true ∧ chainR T' = true ∧ lastNotUn T' = true ∧
      ordAll T' = true := by
  have ha' : a < T.length := by omega
  obtain ⟨ta, hta⟩ : ∃ tk, T.get? a = some tk :=
    ⟨T.get ⟨a, ha'⟩, List.get?_eq_get ha'⟩
  have htanb : isBinTk ta = false := ha ta hta
  obtain ⟨tb1, htb1⟩ : ∃ tk, T.get? (b - 1) = some tk :=
    ⟨T.get ⟨b - 1, by omega⟩, List.get?_eq_get (by omega)⟩
  -- the slice
  have hslen : ((T.drop a).take (b - a)).length = b - a := by
    simp only [List.length_take, List.length_drop]
    omega
  have hsne : (T.drop a).take (b - a) ≠ [] := by
    intro hc
    rw [hc] at hslen
    simp at hslen
    omega
  have hshead : ((T.drop a).take (b - a)).head? = some ta := by
    rw [tok_head?_take (by omega), tok_head?_drop, hta]
  have hslast : ((T.drop a).take (b - a)).getLast? = some tb1 := by
    rw [tok_getLast?_take _ _ (by omega) (by simp only [List.length_drop]; omega),
        tok_get?_drop]
    rw [show a + (b - a - 1) = b - 1 by omega]
    exact htb1
  have hg : ordTok (Tok.group ((T.drop a).take (b - a))) = true := by
    simp only [ordTok, Bool.and_eq_true, decide_eq_true_eq]
    refine ⟨⟨⟨⟨hsne, ?_⟩, chainR_take _ _ (chainR_drop _ _ hchain)⟩, ?_⟩,
      ordAll_take _ _ (ordAll_drop _ _ hall)⟩
    · exact headNotBin_of_head? (fun x hx => by
        rw [hshead] at hx
        injection hx with hx
        subst hx
        exact htanb)
    · refine lastNotUn_of_getLast? (fun x hx => ?_)
      rw [hslast] at hx
      injection hx with hx
      subst hx
      rcases hb with hbl' | hopnd
      · -- the slice runs to the end: its last token is the sequence's last
        have : T.getLast? = some tb1 := by
          rw [List.getLast?_eq_getElem?, ← List.get?_eq_getElem?]
          rw [show T.length - 1 = b - 1 by omega]
          exact htb1
        cases hu : isUnTk tb1
        · rfl
        · rw [lastNotUn_some hlast this] at hu
          exact absurd hu (by simp)
      · exact isOpTk_false_not_un (hopnd tb1 htb1)
  -- facts about what surrounds the slice
  have hleft : ∀ x, (T.take a).getLast? = some x → isOpTk x = true := by
    intro x hx
    have hax : 0 < a := by
      by_contra hc
      have : a = 0 := by omega
      subst this
      simp at hx
    rw [tok_getLast?_take _ _ hax (by omega)] at hx
    have hadj := chainR_get? T (a - 1) hchain hx
      (by rw [show a - 1 + 1 = a by omega]; exact hta)
    cases hu : isUnTk ta
    · have hop : isOpTk ta = false := by
        cases ho : isOpTk ta
        · rfl
        · rcases isOpTk_cases ho with h1 | h2
          · rw [h1] at htanb
            exact absurd htanb (by simp)
          · rw [h2] at hu
            exact absurd hu (by simp)
      exact okPairR_left_of_opnd hadj hop
    · exact isBinTk_isOpTk (okPairR_left_of_un hadj hu)
  have hDlast : T.drop b ≠ [] → (T.drop b).getLast? = T.getLast? := by
    intro hD
    conv_rhs => rw [← List.take_append_drop b T]
    rw [List.getLast?_append_of_ne_nil _ hD]
  have hDbin : ∀ y, (T.drop b).head? = some y → isBinTk y = true := by
    intro y hy
    rw [tok_head?_drop] at hy
    have hblt : b < T.length := by
      by_contra hc
      rw [List.get?_eq_none.mpr (by omega)] at hy
      exact absurd hy (by simp)
    rcases hb with hbeq | hopnd
    · omega
    · have hadj := chainR_get? T (b - 1) hchain htb1
        (by rw [show b - 1 + 1 = b by omega]; exact hy)
      exact okPairR_opnd_right hadj (hopnd tb1 htb1)
  subst hT'
  rw [List.append_assoc]
  refine ⟨by simp, ?_, ?_, ?_, ?_⟩
  · -- headNotBin
    by_cases haz : a = 0
    · subst haz
      simp only [List.take_zero, List.nil_append, List.singleton_append]
      simp [headNotBin, isBinTk]
    · rw [headNotBin_append _ _ (by
        intro hc
        have := congrArg List.length hc
        simp only [List.length_take, List.length_nil] at this
        omega)]
      exact headNotBin_take _ _ hhead
  · -- chainR
    rw [chainR_append]
    refine ⟨chainR_take _ _ hchain, ?_, ?_⟩
    · rw [List.singleton_append, chainR_cons, Bool.and_eq_true]
      refine ⟨?_, chainR_drop _ _ hchain⟩
      unfold okHead
      cases hD : (T.drop b).head? with
      | none => rfl
      | some y => exact okPairR_of_opnd (by simp [isOpTk]) (hDbin y hD)
    · intro x y hx hy
      rw [List.singleton_append, List.head?_cons] at hy
      injection hy with hy
      subst hy
      have hox := hleft x hx
      cases hbx : isBinTk x
      · have hux : isUnTk x = true := by
          rcases isOpTk_cases hox with h1 | h2
          · rw [h1] at hbx
            exact absurd hbx (by simp)
          · exact h2
        exact okPairR_of_un hux (by simp [isOpTk])
      · exact okPairR_of_bin hbx (by simp [isBinTk])
  · -- lastNotUn
    cases hD : T.drop b with
    | nil =>
      simp only [List.append_nil]
      refine lastNotUn_of_getLast? (fun x hx => ?_)
      rw [List.getLast?_append_of_ne_nil _ (by simp), List.getLast?_singleton] at hx
      injection hx with hx
      subst hx
      simp [isUnTk]
    | cons d ds =>
      refine lastNotUn_of_getLast? (fun x hx => ?_)
      rw [List.getLast?_append_of_ne_nil _ (by simp),
          List.getLast?_append_of_ne_nil _ (by simp)] at hx
      rw [← hD] at hx
      rw [hDlast (by rw [hD]; simp)] at hx
      exact lastNotUn_some hlast hx
  · -- ordAll
    rw [ordAll_append, ordAll_append, Bool.and_eq_true, Bool.and_eq_true]
    exact ⟨ordAll_take _ _ hall, by simpa [ordAll] using hg, ordAll_drop _ _ hall⟩

theorem orderLoop_step_exit {fuel : Nat} {st : OSt}
    (hexit : st.index ≥ (st.tokens.length : Int)) :
    orderLoop (fuel + 1) st = some (orderFinish st) := by
  rw [orderLoop, if_pos hexit]

theorem orderLoop_step_opnd {fuel : Nat} {st : OSt} {token : Tok}
    (hexit : ¬ st.index ≥ (st.tokens.length : Int))
    (hget : pyGetWrap st.tokens st.index = some token)
    (hprec : precOf token = none) :
    orderLoop (fuel + 1) st = orderLoop fuel { st with index := st.index + 1 } := by
  rw [orderLoop, if_neg hexit]
  split
  · rename_i heq
    rw [hget] at heq
    exact absurd heq (by simp)
  · rename_i tok' heq
    rw [hget] at heq
    injection heq with heq
    subst heq
    split
    · rfl
    · rename_i prec' heq2
      rw [hprec] at heq2
      exact absurd heq2 (by simp)

theorem orderLoop_step_adv {fuel : Nat} {st : OSt} {prec : Nat} {token : Tok}
    {s0 e0 : Option Int}
    (hexit : ¬ st.index ≥ (st.tokens.length : Int))
    (hget : pyGetWrap st.tokens st.index = some token)
    (hprec : precOf token = some prec)
    (hse : seExpr st prec token = (s0, e0))
    (hno : s0 = none ∨ e0 = none) :
    orderLoop (fuel + 1) st =
      orderLoop fuel ⟨st.tokens, st.index + 1, s0, e0, prec :: st.stack⟩ := by
  rw [orderLoop, if_neg hexit]
  split
  · rename_i heq
    rw [hget] at heq
    exact absurd heq (by simp)
  · rename_i tok' heq
    rw [hget] at heq
    injection heq with heq
    subst heq
    split
    · rename_i heq2
      rw [hprec] at heq2
      exact absurd heq2 (by simp)
    · rename_i prec' heq2
      rw [hprec] at heq2
      injection heq2 with heq2
      subst heq2
      split
      · rename_i ss sEnd heq3
        rw [hse] at heq3
        injection heq3 with h1 h2
        rcases hno with h | h <;> subst h
        · exact absurd h1 (by simp)
        · exact absurd h2 (by simp)
      · rename_i s0' e0' heq3
        rw [hse] at heq3
        injection heq3 with h1 h2
        subst h1
        subst h2
        rfl

theorem orderLoop_step_collapse {fuel : Nat} {st : OSt} {prec : Nat} {token : Tok}
    {v w : Int} {S' : List Nat} {i' : Int}
    (hexit : ¬ st.index ≥ (st.tokens.length : Int))
    (hget : pyGetWrap st.tokens st.index = some token)
    (hprec : precOf token = some prec)
    (hse : seExpr st prec token = (some v, some w))
    (hpop : popTwice (prec :: st.stack) st.index = (S', i')) :
    orderLoop (fuel + 1) st =
      orderLoop fuel ⟨pySliceSet st.tokens v w (.group (pySliceGet st.tokens v w)),
                      i' + 1, none, none, S'⟩ := by
  rw [orderLoop, if_neg hexit]
  split
  · rename_i heq
    rw [hget] at heq
    exact absurd heq (by simp)
  · rename_i tok' heq
    rw [hget] at heq
    injection heq with heq
    subst heq
    split
    · rename_i heq2
      rw [hprec] at heq2
      exact absurd heq2 (by simp)
    · rename_i prec' heq2
      rw [hprec] at heq2
      injection heq2 with heq2
      subst heq2
      split
      · rename_i ss sEnd heq3
        rw [hse] at heq3
        injection heq3 with h1 h2
        injection h1 with h1
        injection h2 with h2
        subst h1
        subst h2
        rw [hpop]
      · rename_i s0' e0' hnf heq3
        rw [hse] at heq3
        injection heq3 with h1 h2
        exact (hnf v w h1.symm h2.symm).elim

theorem precOf_group (g : List Tok) : precOf (.group g) = none := rfl

theorem precOf_str_class {s : String} {p : Nat} (h : precOf (.str s) = some p) :
    s = "NOT" ∨ s = "AND" ∨ s = "XOR" ∨ s = "OR" := by
  by_cases h1 : s = "NOT"
  · exact Or.inl h1
  by_cases h2 : s = "AND"
  · exact Or.inr (Or.inl h2)
  by_cases h3 : s = "XOR"
  · exact Or.inr (Or.inr (Or.inl h3))
  by_cases h4 : s = "OR"
  · exact Or.inr (Or.inr (Or.inr h4))
  exfalso
  have h1' : ¬ ("NOT" = s) := fun hc => h1 hc.symm
  have h2' : ¬ ("AND" = s) := fun hc => h2 hc.symm
  have h3' : ¬ ("XOR" = s) := fun hc => h3 hc.symm
  have h4' : ¬ ("OR" = s) := fun hc => h4 hc.symm
  simp [precOf, PRECEDENCE, List.findIdx?_cons, h1', h2', h3', h4'] at h

theorem precOf_not_un_bin {token : Tok} {p : Nat} (h : precOf token = some p)
    (hu : isUnTk token = false) : isBinTk token = true := by
  cases token with
  | group g => rw [precOf_group] at h; exact absurd h (by simp)
  | str s =>
    rcases precOf_str_class h with h1 | h1 | h1 | h1 <;> subst h1
    · exact absurd hu (by decide)
    all_goals decide

theorem precOf_none_opnd {token : Tok} (h : precOf token = none) : isOpTk token = false := by
  cases token with
  | group g => simp [isOpTk]
  | str s =>
    cases ho : isOpTk (.str s)
    · rfl
    · exfalso
      simp [isOpTk, OPERATORS, BINARY_OPERATORS, UNARY_OPERATORS] at ho
      rcases ho with h1 | h1 | h1 | h1 <;> subst h1 <;> exact absurd h (by decide)

theorem precOf_un {token : Tok} (h : isUnTk token = true) : precOf token = some 0 := by
  cases token with
  | group g => simp [isUnTk] at h
  | str s =>
    simp only [isUnTk, UNARY_OPERATORS, List.contains_cons, List.contains_nil,
      Bool.or_false, beq_iff_eq] at h
    rw [show s = "NOT" from by simpa using h]
    decide

theorem oinv_advance {st : OSt} (prec : Nat) (hinv : OInv st) (s0 e0 : Option Int)
    (hslice : ∀ v, s0 = some v → e0 = none ∧ 0 ≤ v ∧ v + 1 < st.index + 1 ∧
      v < (st.tokens.length : Int) ∧
      ∃ tk, st.tokens.get? v.toNat = some tk ∧ isOpTk tk = false) :
    OInv ⟨st.tokens, st.index + 1, s0, e0, prec :: st.stack⟩ := by
  refine ⟨hinv.ne, hinv.head_ok, hinv.chain_ok, hinv.last_ok, hinv.all_ok, ?_, ?_, hslice⟩
  · show 0 ≤ st.index + 1
    have := hinv.idx_lo
    omega
  · show ((prec :: st.stack).length : Int) ≤ st.index + 1
    have := hinv.stack_le
    simp only [List.length_cons]
    omega

theorem popTwice_bounds {st : OSt} (hinv : OInv st) {prec : Nat} {S' : List Nat} {i' : Int}
    (hpop : popTwice (prec :: st.stack) st.index = (S', i')) :
    0 ≤ i' + 1 ∧ ((S'.length : Int)) ≤ i' + 1 := by
  obtain ⟨m, hm, hpop'⟩ := popTwice_spec (prec :: st.stack) st.index
  rw [hpop] at hpop'
  injection hpop' with h1 h2
  subst h1
  subst h2
  have hst := hinv.stack_le
  have hid := hinv.idx_lo
  simp only [List.length_cons] at hm
  constructor
  · omega
  · rw [List.length_drop]
    simp only [List.length_cons]
    omega

theorem orderLoop_ord : ∀ (fuel : Nat) (st : OSt) (out : List Tok), OInv st →
    orderLoop fuel st = some out →
    out ≠ [] ∧ headNotBin out = true ∧ chainR out = true ∧ lastNotUn out = true ∧
      ordAll out = true := by
  intro fuel
  induction fuel with
  | zero =>
    intro st out _ h
    simp [orderLoop] at h
  | succ fuel ih =>
    intro st out hinv hrun
    by_cases hexit : st.index ≥ (st.tokens.length : Int)
    · rw [orderLoop_step_exit hexit] at hrun
      injection hrun with hrun
      subst hrun
      cases hss : st.sliceStart with
      | none =>
        have hfe : orderFinish st = st.tokens := by
          simp [orderFinish, hss]
        rw [hfe]
        exact ⟨hinv.ne, hinv.head_ok, hinv.chain_ok, hinv.last_ok, hinv.all_ok⟩
      | some v =>
        obtain ⟨hseN, hv0, hvi, hvlen, tk, htk, htkop⟩ := hinv.slice_inv v hss
        have hfin : orderFinish st =
            st.tokens.take v.toNat ++
              [Tok.group ((st.tokens.drop v.toNat).take (st.tokens.length - v.toNat))] ++
              st.tokens.drop st.tokens.length := by
          simp only [orderFinish, hss]
          rw [pySliceGet_eq hv0 (by omega) (by omega),
              pySliceSet_eq hv0 (by omega) (by omega)]
          rw [show ((st.tokens.length : Int)).toNat = st.tokens.length by omega]
        rw [hfin]
        exact collapse_tokens_inv hinv.head_ok hinv.chain_ok hinv.last_ok hinv.all_ok
          (by omega) (by omega)
          (fun tk' htk' => by
            rw [htk] at htk'
            injection htk' with htk'
            subst htk'
            exact isOpTk_false_not_bin htkop)
          (Or.inl rfl) rfl
    · have hil : st.index < (st.tokens.length : Int) := by omega
      have hi0 := hinv.idx_lo
      have hitl : st.index.toNat < st.tokens.length := by omega
      obtain ⟨token, hget'⟩ : ∃ t, st.tokens.get? st.index.toNat = some t :=
        ⟨_, List.get?_eq_get hitl⟩
      have hget : pyGetWrap st.tokens st.index = some token := by
        rw [pyGetWrap_eq_get? hi0 hil]
        exact hget'
      cases hprec : precOf token with
      | none =>
        rw [orderLoop_step_opnd hexit hget hprec] at hrun
        refine ih ⟨st.tokens, st.index + 1, st.sliceStart, st.sliceEnd, st.stack⟩ out
          ⟨hinv.ne, hinv.head_ok, hinv.chain_ok, hinv.last_ok, hinv.all_ok,
           ?_, ?_, ?_⟩ hrun
        · show 0 ≤ st.index + 1
          omega
        · show ((st.stack.length : Int)) ≤ st.index + 1
          have := hinv.stack_le
          omega
        · intro v hv
          obtain ⟨h1, h2, h3, h4, h5⟩ := hinv.slice_inv v hv
          refine ⟨h1, h2, ?_, h4, h5⟩
          show v + 1 < st.index + 1
          omega
      | some prec =>
        cases hun : isUnTk token with
        | true =>
          have hbinN : isBinTk token = false := isUnTk_not_isBinTk hun
          have hnotlast : st.index.toNat + 1 < st.tokens.length := by
            by_contra hc
            have hlen : st.index.toNat = st.tokens.length - 1 := by omega
            have hlast : st.tokens.getLast? = some token := by
              rw [List.getLast?_eq_getElem?, ← List.get?_eq_getElem?, ← hlen]
              exact hget'
            rw [lastNotUn_some hinv.last_ok hlast] at hun
            exact absurd hun (by simp)
          obtain ⟨t1, ht1⟩ : ∃ t1, st.tokens.get? (st.index.toNat + 1) = some t1 :=
            ⟨_, List.get?_eq_get (by omega)⟩
          have hopnd1 : isOpTk t1 = false :=
            okPairR_un_right (chainR_get? _ _ hinv.chain_ok hget' ht1) hun
          obtain ⟨S', i', hpop⟩ : ∃ S' i', popTwice (prec :: st.stack) st.index = (S', i') :=
            ⟨_, _, rfl⟩
          rw [orderLoop_step_collapse (v := st.index) (w := st.index + 2)
            hexit hget hprec (by simp [seExpr, hun]) hpop] at hrun
          have hTeq : pySliceSet st.tokens st.index (st.index + 2)
              (.group (pySliceGet st.tokens st.index (st.index + 2))) =
              st.tokens.take st.index.toNat ++
                [Tok.group ((st.tokens.drop st.index.toNat).take
                  ((st.index + 2).toNat - st.index.toNat))] ++
              st.tokens.drop (st.index + 2).toNat := by
            rw [pySliceGet_eq hi0 (by omega) (by omega),
                pySliceSet_eq hi0 (by omega) (by omega)]
          rw [hTeq] at hrun
          have hcol := collapse_tokens_inv (T := st.tokens) (a := st.index.toNat)
            (b := (st.index + 2).toNat)
            hinv.head_ok hinv.chain_ok hinv.last_ok hinv.all_ok (by omega) (by omega)
            (fun tk' htk' => by
              rw [hget'] at htk'
              injection htk' with htk'
              subst htk'
              exact hbinN)
            (Or.inr (fun tk' htk' => by
              rw [show (st.index + 2).toNat - 1 = st.index.toNat + 1 by omega, ht1] at htk'
              injection htk' with htk'
              subst htk'
              exact hopnd1))
            rfl
          have hb := popTwice_bounds hinv hpop
          exact ih _ out ⟨hcol.1, hcol.2.1, hcol.2.2.1, hcol.2.2.2.1, hcol.2.2.2.2,
            hb.1, hb.2, fun v hv => absurd hv (by simp)⟩ hrun
        | false =>
          have hbin : isBinTk token = true := precOf_not_un_bin hprec hun
          have hi1 : 1 ≤ st.index.toNat := by
            by_contra hc
            have h0 : st.index.toNat = 0 := by omega
            have hh : st.tokens.head? = some token := by
              rw [tok_head?_eq_get?, ← h0]
              exact hget'
            rw [headNotBin_head? hinv.head_ok hh] at hbin
            exact absurd hbin (by simp)
          obtain ⟨t0, ht0⟩ : ∃ t0, st.tokens.get? (st.index.toNat - 1) = some t0 :=
            ⟨_, List.get?_eq_get (by omega)⟩
          have hadj0 := chainR_get? st.tokens (st.index.toNat - 1) hinv.chain_ok ht0
            (by rw [show st.index.toNat - 1 + 1 = st.index.toNat by omega]; exact hget')
          have ht0op : isOpTk t0 = false := okPairR_left_of_bin hadj0 hbin
          have hkeep : seExpr st prec token = (st.sliceStart, st.sliceEnd) →
              orderLoop (fuel + 1) st = some out →
              out ≠ [] ∧ headNotBin out = true ∧ chainR out = true ∧ lastNotUn out = true ∧
                ordAll out = true := by
            intro hse hrun0
            have hno : st.sliceStart = none ∨ st.sliceEnd = none := by
              cases hss : st.sliceStart with
              | none => exact Or.inl rfl
              | some v => exact Or.inr (hinv.slice_inv v hss).1
            rw [orderLoop_step_adv hexit hget hprec hse hno] at hrun0
            refine ih _ out (oinv_advance prec hinv _ _ ?_) hrun0
            intro v hv
            obtain ⟨h1, h2, h3, h4, h5⟩ := hinv.slice_inv v hv
            exact ⟨h1, h2, by omega, h4, h5⟩
          cases hS : st.stack with
          | nil =>
            have hse : seExpr st prec token = (st.sliceStart, st.sliceEnd) := by
              simp [seExpr, hun, hS]
            exact hkeep hse hrun
          | cons q S2 =>
            by_cases hlt : prec < q
            · have hse : seExpr st prec token = (some (st.index - 1), none) := by
                simp [seExpr, hun, hS, hlt]
              rw [orderLoop_step_adv hexit hget hprec hse (Or.inr rfl)] at hrun
              refine ih _ out (oinv_advance prec hinv _ _ ?_) hrun
              intro v hv
              injection hv with hv
              subst hv
              refine ⟨rfl, by omega, by omega, by omega, ⟨t0, ?_, ht0op⟩⟩
              rw [show (st.index - 1).toNat = st.index.toNat - 1 by omega]
              exact ht0
            · by_cases hgt : q < prec
              · cases hss : st.sliceStart with
                | none =>
                  have hse : seExpr st prec token = (none, some st.index) := by
                    simp [seExpr, hun, hS, hlt, hgt, hss]
                  rw [orderLoop_step_adv hexit hget hprec hse (Or.inl rfl)] at hrun
                  refine ih _ out (oinv_advance prec hinv _ _ ?_) hrun
                  intro v hv
                  exact absurd hv (by simp)
                | some v =>
                  obtain ⟨hseN, hv0, hvi, hvlen, tkv, htkv, htkvop⟩ := hinv.slice_inv v hss
                  have hse : seExpr st prec token = (some v, some st.index) := by
                    simp [seExpr, hun, hS, hlt, hgt, hss]
                  obtain ⟨S', i', hpop⟩ :
                      ∃ S' i', popTwice (prec :: st.stack) st.index = (S', i') := ⟨_, _, rfl⟩
                  rw [orderLoop_step_collapse hexit hget hprec hse hpop] at hrun
                  have hTeq : pySliceSet st.tokens v st.index
                      (.group (pySliceGet st.tokens v st.index)) =
                      st.tokens.take v.toNat ++
                        [Tok.group ((st.tokens.drop v.toNat).take
                          (st.index.toNat - v.toNat))] ++
                      st.tokens.drop st.index.toNat := by
                    rw [pySliceGet_eq hv0 (by omega) (by omega),
                        pySliceSet_eq hv0 (by omega) (by omega)]
                  rw [hTeq] at hrun
                  have hcol := collapse_tokens_inv (T := st.tokens) (a := v.toNat)
                    (b := st.index.toNat)
                    hinv.head_ok hinv.chain_ok hinv.last_ok hinv.all_ok (by omega) (by omega)
                    (fun tk' htk' => by
                      rw [htkv] at htk'
                      injection htk' with htk'
                      subst htk'
                      exact isOpTk_false_not_bin htkvop)
                    (Or.inr (fun tk' htk' => by
                      rw [ht0] at htk'
                      injection htk' with htk'
                      subst htk'
                      exact ht0op))
                    rfl
                  have hb := popTwice_bounds hinv hpop
                  exact ih _ out ⟨hcol.1, hcol.2.1, hcol.2.2.1, hcol.2.2.2.1, hcol.2.2.2.2,
                    hb.1, hb.2, fun v' hv' => absurd hv' (by simp)⟩ hrun
              · have hse : seExpr st prec token = (st.sliceStart, st.sliceEnd) := by
                  simp [seExpr, hun, hS, hlt, hgt]
                exact hkeep hse hrun

/-- Two tokens of the same syntactic class: the three class predicates
agree.  `order_operations`' recursion into sublists replaces a group by
a group and leaves strings unchanged, so it relates input and output
pointwise by this relation. -/
def clsEq (a b : Tok) : Prop :=
  isBinTk a = isBinTk b ∧ isUnTk a = isUnTk b ∧ isOpTk a = isOpTk b

theorem okPairR_clsEq {a b a' b' : Tok} (ha : clsEq a a') (hb : clsEq b b') :
    okPairR a b = okPairR a' b' := by
  simp [okPairR, ha.1, ha.2.1, hb.1, hb.2.1, hb.2.2]

theorem chainR_clsEq : ∀ {l l' : List Tok}, List.Forall₂ clsEq l l' → chainR l = chainR l'
  | _, _, .nil => rfl
  | _, _, .cons ha h => by
    rename_i a a' l l'
    cases h with
    | nil => rfl
    | cons hb h' =>
      rename_i b b' r r'
      have ih := chainR_clsEq (List.Forall₂.cons hb h')
      simp only [chainR] at ih ⊢
      rw [okPairR_clsEq ha hb, ih]

theorem headNotBin_clsEq : ∀ {l l' : List Tok}, List.Forall₂ clsEq l l' →
    headNotBin l = headNotBin l'
  | _, _, .nil => rfl
  | _, _, .cons ha _ => by
    simp only [headNotBin]
    rw [ha.1]

theorem lastNotUn_clsEq : ∀ {l l' : List Tok}, List.Forall₂ clsEq l l' →
    lastNotUn l = lastNotUn l'
  | _, _, .nil => rfl
  | _, _, .cons ha h => by
    rename_i a a' l l'
    cases h with
    | nil =>
      simp only [lastNotUn, List.getLast?_singleton]
      rw [ha.2.1]
    | cons hb h' =>
      rename_i b b' r r'
      have ih := lastNotUn_clsEq (List.Forall₂.cons hb h')
      simp only [lastNotUn] at ih ⊢
      rw [getLast?_cons_ne_nil a _ (by simp), getLast?_cons_ne_nil a' _ (by simp)]
      exact ih

theorem orderRecGo_classes (f : List Tok → Option (List Tok))
    (hf : ∀ g g', (g ≠ [] ∧ headNotBin g = true ∧ chainR g = true ∧ lastNotUn g = true ∧
            ordAll g = true) → f g = some g' →
          g' ≠ [] ∧ headNotBin g' = true ∧ chainR g' = true ∧ lastNotUn g' = true ∧
            ordAll g' = true) :
    ∀ ts ts', ordAll ts = true → orderRecGo f ts = some ts' →
      ordAll ts' = true ∧ List.Forall₂ clsEq ts ts'
  | [], ts', _, hrun => by
    simp only [orderRecGo] at hrun
    injection hrun with hrun
    subst hrun
    exact ⟨rfl, .nil⟩
  | .str s :: rest, ts', hall, hrun => by
    simp only [ordAll, Bool.and_eq_true] at hall
    simp only [orderRecGo] at hrun
    split at hrun
    · exact absurd hrun (by simp)
    · rename_i rest' hrest
      injection hrun with hrun
      subst hrun
      obtain ⟨h1, h2⟩ := orderRecGo_classes f hf rest rest' hall.2 hrest
      exact ⟨by simp [ordAll, hall.1, h1], .cons ⟨rfl, rfl, rfl⟩ h2⟩
  | .group g :: rest, ts', hall, hrun => by
    simp only [ordAll, Bool.and_eq_true] at hall
    simp only [orderRecGo] at hrun
    split at hrun
    · exact absurd hrun (by simp)
    · rename_i g' hg
      split at hrun
      · exact absurd hrun (by simp)
      · rename_i rest' hrest
        injection hrun with hrun
        subst hrun
        have hgin := hall.1
        simp only [ordTok, Bool.and_eq_true, decide_eq_true_eq] at hgin
        have hg' := hf g g' ⟨hgin.1.1.1.1, hgin.1.1.1.2, hgin.1.1.2, hgin.1.2, hgin.2⟩ hg
        obtain ⟨h1, h2⟩ := orderRecGo_classes f hf rest rest' hall.2 hrest
        refine ⟨?_, .cons (by simp [clsEq, isBinTk, isUnTk, isOpTk]) h2⟩
        simp only [ordAll, Bool.and_eq_true]
        refine ⟨?_, h1⟩
        simp only [ordTok, Bool.and_eq_true, decide_eq_true_eq]
        exact ⟨⟨⟨⟨hg'.1, hg'.2.1⟩, hg'.2.2.1⟩, hg'.2.2.2.1⟩, hg'.2.2.2.2⟩

theorem orderOperations_ord : ∀ (fuel : Nat) (ts out : List Tok),
    ts ≠ [] → headNotBin ts = true → chainR ts = true → lastNotUn ts = true →
    ordAll ts = true → orderOperations fuel ts = some out →
    out ≠ [] ∧ headNotBin out = true ∧ chainR out = true ∧ lastNotUn out = true ∧
      ordAll out = true := by
  intro fuel
  induction fuel with
  | zero =>
    intro ts out _ _ _ _ _ h
    simp [orderOperations] at h
  | succ fuel ih =>
    intro ts out hne hh hc hl ha hrun
    rw [orderOperations] at hrun
    split at hrun
    · exact absurd hrun (by simp)
    · rename_i ts1 hrec
      obtain ⟨hall1, hcls⟩ := orderRecGo_classes (orderOperations fuel)
        (fun g g' hg hr => ih g g' hg.1 hg.2.1 hg.2.2.1 hg.2.2.2.1 hg.2.2.2.2 hr)
        ts ts1 ha hrec
      have hne1 : ts1 ≠ [] := by
        intro hcon
        subst hcon
        have hlen := hcls.length_eq
        simp only [List.length_nil] at hlen
        exact hne (List.length_eq_zero.mp hlen)
      have hh1 : headNotBin ts1 = true := by rw [← headNotBin_clsEq hcls]; exact hh
      have hc1 : chainR ts1 = true := by rw [← chainR_clsEq hcls]; exact hc
      have hl1 : lastNotUn ts1 = true := by rw [← lastNotUn_clsEq hcls]; exact hl
      split at hrun
      · injection hrun with hrun
        subst hrun
        exact ⟨hne1, hh1, hc1, hl1, hall1⟩
      · exact orderLoop_ord (fuel + 1) ⟨ts1, 0, none, none, []⟩ out
          ⟨hne1, hh1, hc1, hl1, hall1, by norm_num, by simp,
           fun v hv => absurd hv (by simp)⟩ hrun

/-! ## The rich output invariant of `implied_tokens` -/

theorem richAll_append (xs ys : List Tok) : richAll (xs ++ ys) = (richAll xs && richAll ys) := by
  induction xs with
  | nil => simp [richAll]
  | cons a rest ih => simp [richAll, ih, Bool.and_assoc]

theorem neAll_append (xs ys : List Tok) : neAll (xs ++ ys) = (neAll xs && neAll ys) := by
  induction xs with
  | nil => simp [neAll]
  | cons a rest ih => simp [neAll, ih, Bool.and_assoc]

mutual

theorem richTok_neTok : ∀ t : Tok, richTok t = true → neTok t = true
  | .str s => by
    intro h
    simpa [richTok, neTok] using h
  | .group g => by
    intro h
    simp only [richTok, Bool.and_eq_true] at h
    simp only [neTok]
    exact richAll_neAll g h.2

theorem richAll_neAll : ∀ l : List Tok, richAll l = true → neAll l = true
  | [] => by intro _; rfl
  | t :: rest => by
    intro h
    simp only [richAll, Bool.and_eq_true] at h
    simp only [neAll, Bool.and_eq_true]
    exact ⟨richTok_neTok t h.1, richAll_neAll rest h.2⟩

end

mutual

theorem richTok_ordTok : ∀ t : Tok, richTok t = true → ordTok t = true
  | .str s => by
    intro h
    simpa [richTok, ordTok] using h
  | .group g => by
    intro h
    simp only [richTok, Bool.and_eq_true, decide_eq_true_eq] at h
    simp only [ordTok, Bool.and_eq_true, decide_eq_true_eq]
    refine ⟨⟨⟨⟨?_, h.1.1.1.2⟩, h.1.1.2⟩, h.1.2⟩, richAll_ordAll g h.2⟩
    intro hc
    subst hc
    simp at h

theorem richAll_ordAll : ∀ l : List Tok, richAll l = true → ordAll l = true
  | [] => by intro _; rfl
  | t :: rest => by
    intro h
    simp only [richAll, Bool.and_eq_true] at h
    simp only [ordAll, Bool.and_eq_true]
    exact ⟨richTok_ordTok t h.1, richAll_ordAll rest h.2⟩

end

theorem chainR_dropLast (l : List Tok) (h : chainR l = true) : chainR l.dropLast = true := by
  rw [List.dropLast_eq_take]
  exact chainR_take _ _ h

theorem richAll_dropLast (l : List Tok) (h : richAll l = true) : richAll l.dropLast = true := by
  rw [List.dropLast_eq_take]
  have := richAll_append (l.take (l.length - 1)) (l.drop (l.length - 1))
  rw [List.take_append_drop, h] at this
  exact (Bool.and_eq_true_iff.mp this.symm).1

/-- The rich invariant carried through `implied_tokens`' scan: the
accumulated sequence alternates strictly, and the three flags describe
its last token. -/
structure RInv (st : IState) : Prop where
  all_rich : richAll st.final = true
  head_ok : headNotBin st.final = true
  chain_ok : chainR st.final = true
  empty_flags : st.final = [] →
    st.hasOperand = false ∧ st.hasBinary = false ∧ st.hasUnary = false
  nonempty_flag : st.final ≠ [] → (st.hasOperand || st.hasBinary || st.hasUnary) = true
  bin_last : st.hasBinary = true → ∃ x, st.final.getLast? = some x ∧ isBinTk x = true
  un_last : st.hasUnary = true → ∃ x, st.final.getLast? = some x ∧ isUnTk x = true
  opnd_last : st.hasOperand = true → ∃ x, st.final.getLast? = some x ∧ isOpTk x = false

theorem rstInv_init : RInv ⟨[], false, false, false⟩ := by
  constructor <;> simp [richAll, headNotBin, chainR]

theorem rstInv_snoc {l : List Tok} {x : Tok}
    (hall : richAll l = true) (hhead : headNotBin l = true) (hchain : chainR l = true)
    (hx : richTok x = true)
    (hcompat : match l.getLast? with
               | none => isBinTk x = false
               | some y => okPairR y x = true) :
    richAll (l ++ [x]) = true ∧ headNotBin (l ++ [x]) = true ∧
      chainR (l ++ [x]) = true := by
  refine ⟨?_, ?_, ?_⟩
  · rw [richAll_append]
    simp [hall, richAll, hx]
  · cases l with
    | nil =>
      simp only [List.nil_append, headNotBin]
      simpa using hcompat
    | cons a rest =>
      rw [headNotBin_append _ _ (by simp)]
      exact hhead
  · rw [chainR_append]
    refine ⟨hchain, rfl, ?_⟩
    intro y z hy hz
    injection hz with hz
    subst hz
    rw [hy] at hcompat
    exact hcompat

theorem rscanStep_inv {st : IState} (h : RInv st) {tok : Tok} (htok : richTok tok = true) :
    RInv (scanStep st tok) := by
  obtain ⟨final, hasOp, hasBin, hasUn⟩ := st
  obtain ⟨all_rich, head_ok, chain_ok, empty_flags, nonempty_flag,
          bin_last, un_last, opnd_last⟩ := h
  simp only at all_rich head_ok chain_ok empty_flags nonempty_flag bin_last un_last opnd_last
  by_cases hop : isOpTk tok = true
  · by_cases hbin : isBinTk tok = true
    · -- a binary operator token
      cases hB : hasBin with
      | true =>
        subst hB
        simp only [scanStep, hop, hbin, if_true, Bool.true_or, Bool.or_true,
          Bool.and_true, Bool.true_and, Bool.not_true, Bool.false_and, if_true]
        exact ⟨all_rich, head_ok, chain_ok, empty_flags, nonempty_flag,
               bin_last, un_last, opnd_last⟩
      | false =>
        subst hB
        cases hU : hasUn with
        | true =>
          subst hU
          simp only [scanStep, hop, hbin, if_true, Bool.or_true, Bool.and_true,
            Bool.true_and]
          exact ⟨all_rich, head_ok, chain_ok, empty_flags, nonempty_flag,
                 bin_last, un_last, opnd_last⟩
        | false =>
          subst hU
          cases hO : hasOp with
          | false =>
            subst hO
            simp only [scanStep, hop, hbin, if_true, Bool.or_false, Bool.and_false,
              Bool.false_or, Bool.and_true, Bool.not_false, Bool.true_and,
              Bool.not_true, Bool.false_and, if_false, Bool.and_self]
            exact ⟨all_rich, head_ok, chain_ok, empty_flags, nonempty_flag,
                   bin_last, un_last, opnd_last⟩
          | true =>
            subst hO
            obtain ⟨y, hy, hyop⟩ := opnd_last rfl
            have hsn := rstInv_snoc all_rich head_ok chain_ok htok
              (by rw [hy]; exact okPairR_of_opnd hyop hbin)
            simp only [scanStep, hop, hbin, if_true, Bool.or_false, Bool.and_false,
              Bool.false_or, Bool.not_true, Bool.false_and, if_false, Bool.and_true,
              Bool.not_false, Bool.and_self]
            exact ⟨hsn.1, hsn.2.1, hsn.2.2, by simp, by simp,
                   fun _ => ⟨tok, by simp, hbin⟩,
                   by simp [isBinTk_not_isUnTk hbin],
                   by simp⟩
    · -- a unary operator token
      have hun : isUnTk tok = true := (isOpTk_cases hop).resolve_left hbin
      have hbin' : isBinTk tok = false := isUnTk_not_isBinTk hun
      cases hU : hasUn with
      | true =>
        subst hU
        simp only [scanStep, hop, hbin', if_true, Bool.false_and, Bool.not_false,
          Bool.true_and, if_false, if_true, Bool.false_eq_true]
        exact ⟨all_rich, head_ok, chain_ok, empty_flags, nonempty_flag,
               bin_last, un_last, opnd_last⟩
      | false =>
        subst hU
        cases hO : hasOp with
        | true =>
          subst hO
          obtain ⟨y, hy, hyop⟩ := opnd_last rfl
          have hband : isBinTk (Tok.str "AND") = true := by decide
          have hsn1 := rstInv_snoc (x := Tok.str "AND") all_rich head_ok chain_ok (by decide)
            (by rw [hy]; exact okPairR_of_opnd hyop hband)
          have hsn2 := rstInv_snoc (l := final ++ [Tok.str "AND"]) hsn1.1 hsn1.2.1 hsn1.2.2
            htok
            (by rw [getLast?_append_one]
                exact okPairR_of_bin hband hbin')
          simp only [scanStep, hop, hbin', if_true, Bool.false_and, Bool.not_false,
            Bool.true_and, if_false, Bool.false_or, Bool.or_false, Bool.and_true,
            Bool.and_false, Bool.and_self, Bool.false_eq_true]
          exact ⟨hsn2.1, hsn2.2.1, hsn2.2.2, by simp, by simp,
                 by simp, fun _ => ⟨tok, by simp, hun⟩, by simp⟩
        | false =>
          subst hO
          have hcompat : (match final.getLast? with
              | none => isBinTk tok = false
              | some y => okPairR y tok = true) := by
            cases hB : hasBin with
            | true =>
              obtain ⟨y, hy, hybin⟩ := bin_last hB
              rw [hy]
              exact okPairR_of_bin hybin hbin'
            | false =>
              have hfe : final = [] := by
                by_contra hne
                have := nonempty_flag hne
                rw [hB] at this
                simp at this
              rw [hfe]
              simpa using hbin'
          have hsn := rstInv_snoc all_rich head_ok chain_ok htok hcompat
          simp only [scanStep, hop, hbin', if_true, Bool.false_and, Bool.not_false,
            Bool.true_and, if_false, Bool.or_false, Bool.and_false, Bool.and_true,
            Bool.and_self, Bool.false_eq_true, Bool.false_or]
          exact ⟨hsn.1, hsn.2.1, hsn.2.2, by simp, by simp,
                 by simp, fun _ => ⟨tok, by simp, hun⟩, by simp⟩
  · -- an operand (a non-operator string or a sublist)
    have hop' : isOpTk tok = false := by simpa using hop
    have hnb : isBinTk tok = false := isOpTk_false_not_bin hop'
    cases hO : hasOp with
    | true =>
      subst hO
      obtain ⟨y, hy, hyop⟩ := opnd_last rfl
      have hband : isBinTk (Tok.str "AND") = true := by decide
      have hsn1 := rstInv_snoc (x := Tok.str "AND") all_rich head_ok chain_ok (by decide)
        (by rw [hy]; exact okPairR_of_opnd hyop hband)
      have hsn2 := rstInv_snoc (l := final ++ [Tok.str "AND"]) hsn1.1 hsn1.2.1 hsn1.2.2 htok
        (by rw [getLast?_append_one]
            exact okPairR_of_bin hband hnb)
      simp only [scanStep, hop', Bool.false_eq_true, if_false, if_true]
      exact ⟨hsn2.1, hsn2.2.1, hsn2.2.2, by simp, by simp,
             by simp, by simp, fun _ => ⟨tok, by simp, hop'⟩⟩
    | false =>
      subst hO
      have hcompat : (match final.getLast? with
          | none => isBinTk tok = false
          | some y => okPairR y tok = true) := by
        cases hl : final.getLast? with
        | none => exact hnb
        | some y =>
          have hne : final ≠ [] := by
            intro hc
            rw [hc] at hl
            simp at hl
          have hflags := nonempty_flag hne
          cases hB : hasBin with
          | true =>
            obtain ⟨y', hy', hybin⟩ := bin_last hB
            rw [hl] at hy'
            injection hy' with hy'
            subst hy'
            exact okPairR_of_bin hybin hnb
          | false =>
            cases hUn : hasUn with
            | true =>
              obtain ⟨y', hy', hyun⟩ := un_last hUn
              rw [hl] at hy'
              injection hy' with hy'
              subst hy'
              exact okPairR_of_un hyun hop'
            | false =>
              rw [hB, hUn] at hflags
              simp at hflags
      have hsn := rstInv_snoc all_rich head_ok chain_ok htok hcompat
      simp only [scanStep, hop', Bool.false_eq_true, if_false]
      exact ⟨hsn.1, hsn.2.1, hsn.2.2, by simp, by simp,
             by simp, by simp, fun _ => ⟨tok, by simp, hop'⟩⟩

theorem neAll_unwrapTop {ts : List Tok} (h : neAll ts = true) :
    neAll (unwrapTop ts) = true := by
  match ts with
  | [] => exact h
  | [Tok.str s] => exact h
  | [Tok.group g] =>
    simp only [neAll, neTok, Bool.and_true] at h
    exact h
  | t1 :: t2 :: rest => cases t1 <;> exact h

theorem impliedRichGo_inv (resolve : Tok → Option (Option Tok))
    (hres : ∀ t tok, neTok t = true → resolve t = some (some tok) → richTok tok = true) :
    ∀ (ts : List Tok) (st st' : IState), neAll ts = true → RInv st →
      impliedScanGo resolve ts st = some st' → RInv st' := by
  intro ts
  induction ts with
  | nil =>
    intro st st' _ hinv hrun
    simp only [impliedScanGo] at hrun
    injection hrun with h
    exact h ▸ hinv
  | cons t rest ih =>
    intro st st' hne hinv hrun
    simp only [neAll, Bool.and_eq_true] at hne
    simp only [impliedScanGo] at hrun
    cases hr : resolve t with
    | none => rw [hr] at hrun; exact absurd hrun (by simp)
    | some o =>
      rw [hr] at hrun
      cases o with
      | none => exact ih st st' hne.2 hinv hrun
      | some tok =>
        exact ih _ st' hne.2 (rscanStep_inv hinv (hres t tok hne.1 hr)) hrun

/-- The rich analogue of `impliedPair_inv`: on nonempty-string inputs,
the group-resolution loop yields rich tokens and `implied_tokens` yields
strictly-alternating rich sequences. -/
theorem impliedPair_rich : ∀ fuel : Nat,
    (∀ t tok, neTok t = true → (impliedPair fuel).1 t = some (some tok) →
      richTok tok = true) ∧
    (∀ ts out, neAll ts = true → (impliedPair fuel).2 ts = some out →
      richList out = true) := by
  intro fuel
  induction fuel with
  | zero =>
    constructor
    · intro t tok _ h
      simp [impliedPair] at h
    · intro ts out _ h
      simp [impliedPair] at h
  | succ fuel ih =>
    constructor
    · intro t tok hne h
      cases t with
      | str s =>
        simp only [impliedPair] at h
        injection h with h
        injection h with h
        subst h
        simpa [richTok, neTok] using hne
      | group g =>
        cases g with
        | nil =>
          simp only [impliedPair] at h
          injection h with h
          exact absurd h (by simp)
        | cons t1 grest =>
          simp only [neTok, neAll, Bool.and_eq_true] at hne
          cases grest with
          | nil =>
            simp only [impliedPair] at h
            exact ih.1 t1 tok hne.1 h
          | cons t2 grest' =>
            simp only [neAll, Bool.and_eq_true] at hne
            have hneg : neAll (t1 :: t2 :: grest') = true := by
              simp only [neAll, Bool.and_eq_true]
              exact ⟨hne.1, hne.2.1, hne.2.2⟩
            simp only [impliedPair] at h
            split at h
            · exact absurd h (by simp)
            · rename_i g' hg
              have hrich := ih.2 _ _ hneg hg
              split at h
              · rename_i heq
                injection h with h
                injection h with h
                subst h
                rw [heq] at hrich
                simp only [richList, Bool.and_eq_true] at hrich
                simp only [richTok, Bool.and_eq_true, decide_eq_true_eq]
                exact ⟨⟨⟨⟨by simp, hrich.1.1.1⟩, hrich.1.1.2⟩, hrich.1.2⟩, hrich.2⟩
              · simp only [richList, Bool.and_eq_true] at hrich
                exact ih.1 _ tok (show neTok (.group g') = true by
                  simp only [neTok]
                  exact richAll_neAll g' hrich.2) h
    · intro ts out hne h
      simp only [impliedPair] at h
      split at h
      · exact absurd h (by simp)
      · rename_i st hscan
        have hinv : RInv st :=
          impliedRichGo_inv (impliedPair fuel).1 ih.1 _ _ st (neAll_unwrapTop hne)
            rstInv_init hscan
        split at h
        · rename_i hflag
          split at h
          · exact absurd h (by simp)
          · rename_i f frest hfin
            injection h with h
            have hlastop : ∃ x, st.final.getLast? = some x ∧ isOpTk x = true := by
              rcases Bool.or_eq_true_iff.mp hflag with hb | hu
              · obtain ⟨x, hx, hxb⟩ := hinv.bin_last hb
                exact ⟨x, hx, isBinTk_isOpTk hxb⟩
              · obtain ⟨x, hx, hxu⟩ := hinv.un_last hu
                exact ⟨x, hx, isUnTk_isOpTk hxu⟩
            subst h
            simp only [richList, Bool.and_eq_true]
            refine ⟨⟨⟨headNotBin_dropLast _ hinv.head_ok,
                      chainR_dropLast _ hinv.chain_ok⟩,
                     lastNotUn_dropLast _ (chainR_okPairs _ hinv.chain_ok) hlastop⟩,
                    richAll_dropLast _ hinv.all_rich⟩
        · rename_i hflag
          rw [Bool.not_eq_true] at hflag
          injection h with h
          subst h
          have hlast : lastNotUn st.final = true := by
            cases hfin : st.final with
            | nil => simp [lastNotUn]
            | cons f frest =>
              have hnef : st.final ≠ [] := by rw [hfin]; simp
              have hor := hinv.nonempty_flag hnef
              have hOp : st.hasOperand = true := by
                rcases Bool.or_eq_true_iff.mp hor with h1 | h2
                · rcases Bool.or_eq_true_iff.mp h1 with h3 | h4
                  · exact h3
                  · exact absurd h4
                      (by simp [Bool.or_eq_true_iff] at hflag; simp [hflag.1])
                · exact absurd h2
                    (by simp [Bool.or_eq_true_iff] at hflag; simp [hflag.2])
              obtain ⟨x, hx, hxop⟩ := hinv.opnd_last hOp
              rw [← hfin, lastNotUn, hx]
              cases hu : isUnTk x
              · simp [hu]
              · rw [isUnTk_isOpTk hu] at hxop
                simp at hxop
          simp only [richList, Bool.and_eq_true]
          exact ⟨⟨⟨hinv.head_ok, hinv.chain_ok⟩, hlast⟩, hinv.all_rich⟩

/-- The rich invariant of `implied_tokens` at the list level. -/
theorem impliedTokens_rich {fuel : Nat} {ts out : List Tok} (hne : neAll ts = true)
    (h : impliedTokens fuel ts = some out) : richList out = true :=
  (impliedPair_rich fuel).2 ts out hne h

/-! ## The tokenizer feeds nonempty strings to the normalizer -/

/-- The character scan's output property: every string raw token is
nonempty (empty words are filtered out). -/
def rawNE (r : RawTok) : Prop :=
  match r with
  | RawTok.str w => w ≠ ""
  | _ => True

theorem rawTokenize_ne (s : String) : ∀ r ∈ rawTokenize s, rawNE r := by
  intro r hr
  unfold rawTokenize at hr
  have hmem := List.of_mem_filter hr
  cases r with
  | str w =>
    simp only [rawNE]
    simpa using hmem
  | parenOpen => trivial
  | parenClose => trivial

theorem sublistAux_ne : ∀ (fuel : Nat) (raw : List RawTok) (out : List Tok)
    (rest : List RawTok), (∀ r ∈ raw, rawNE r) →
    sublistAux fuel raw = some (out, rest) →
    neAll out = true ∧ ∀ r ∈ rest, rawNE r
  | 0, _, _, _, _, h => by simp [sublistAux] at h
  | fuel + 1, [], out, rest, _, h => by
    simp only [sublistAux] at h
    injection h with h
    injection h with h1 h2
    subst h1
    subst h2
    exact ⟨rfl, by simp⟩
  | fuel + 1, .parenClose :: raw', out, rest, hne, h => by
    simp only [sublistAux] at h
    injection h with h
    injection h with h1 h2
    subst h1
    subst h2
    exact ⟨rfl, fun r hr => hne r (by simp [hr])⟩
  | fuel + 1, .parenOpen :: raw', out, rest, hne, h => by
    simp only [sublistAux] at h
    split at h
    · exact absurd h (by simp)
    · rename_i g rest' hg
      split at h
      · exact absurd h (by simp)
      · rename_i out' rest'' hout
        injection h with h
        injection h with h1 h2
        subst h1
        subst h2
        have h1 := sublistAux_ne fuel raw' g rest' (fun r hr => hne r (by simp [hr])) hg
        have h2 := sublistAux_ne fuel rest' out' rest'' h1.2 hout
        refine ⟨?_, h2.2⟩
        simp only [neAll, neTok, Bool.and_eq_true]
        exact ⟨h1.1, h2.1⟩
  | fuel + 1, .str s :: raw', out, rest, hne, h => by
    simp only [sublistAux] at h
    split at h
    · exact absurd h (by simp)
    · rename_i out' rest' hout
      injection h with h
      injection h with h1 h2
      subst h1
      subst h2
      have h1 := sublistAux_ne fuel raw' out' rest' (fun r hr => hne r (by simp [hr])) hout
      refine ⟨?_, h1.2⟩
      simp only [neAll, neTok, Bool.and_eq_true, decide_eq_true_eq]
      exact ⟨hne (.str s) (by simp), h1.1⟩

theorem sublistTokens_ne {fuel : Nat} {raw : List RawTok} {out : List Tok}
    (hne : ∀ r ∈ raw, rawNE r) (h : sublistTokens fuel raw = some out) :
    neAll out = true := by
  unfold sublistTokens at h
  split at h
  · exact absurd h (by simp)
  · rename_i o rest hp
    injection h with h
    subst h
    exact (sublistAux_ne fuel raw o rest hne hp).1

/-! ## Fuel monotonicity -/

theorem sublistAux_mono : ∀ (fuel fuel' : Nat) (raw : List RawTok)
    (res : List Tok × List RawTok), fuel ≤ fuel' →
    sublistAux fuel raw = some res → sublistAux fuel' raw = some res
  | 0, _, _, _, _, h => by simp [sublistAux] at h
  | fuel + 1, 0, _, _, hle, _ => by omega
  | fuel + 1, fuel' + 1, [], res, _, h => h
  | fuel + 1, fuel' + 1, .parenClose :: raw', res, _, h => h
  | fuel + 1, fuel' + 1, .parenOpen :: raw', res, hle, h => by
    simp only [sublistAux] at h ⊢
    split at h
    · exact absurd h (by simp)
    · rename_i g rest' hg
      split at h
      · exact absurd h (by simp)
      · rename_i out' rest'' hout
        rw [sublistAux_mono fuel fuel' raw' _ (by omega) hg]
        show (match sublistAux fuel' rest' with
              | none => none
              | some (out, rest'') => some (Tok.group g :: out, rest'')) = some res
        rw [sublistAux_mono fuel fuel' rest' _ (by omega) hout]
        exact h
  | fuel + 1, fuel' + 1, .str s :: raw', res, hle, h => by
    simp only [sublistAux] at h ⊢
    split at h
    · exact absurd h (by simp)
    · rename_i out' rest' hout
      rw [sublistAux_mono fuel fuel' raw' _ (by omega) hout]
      exact h

theorem impliedScanGo_mono {res res' : Tok → Option (Option Tok)}
    (hsub : ∀ t r, res t = some r → res' t = some r) :
    ∀ (ts : List Tok) (st st' : IState), impliedScanGo res ts st = some st' →
      impliedScanGo res' ts st = some st' := by
  intro ts
  induction ts with
  | nil => intro st st' h; exact h
  | cons t rest ih =>
    intro st st' h
    simp only [impliedScanGo] at h ⊢
    cases hr : res t with
    | none => rw [hr] at h; exact absurd h (by simp)
    | some o =>
      rw [hr] at h
      rw [hsub t o hr]
      cases o with
      | none => exact ih st st' h
      | some tok => exact ih _ st' h

theorem impliedPair_succ : ∀ fuel : Nat,
    (∀ t r, (impliedPair fuel).1 t = some r → (impliedPair (fuel + 1)).1 t = some r) ∧
    (∀ ts r, (impliedPair fuel).2 ts = some r → (impliedPair (fuel + 1)).2 ts = some r) := by
  intro fuel
  induction fuel with
  | zero =>
    constructor
    · intro t r h
      simp [impliedPair] at h
    · intro ts r h
      simp [impliedPair] at h
  | succ fuel ih =>
    constructor
    · intro t r h
      cases t with
      | str s => exact h
      | group g =>
        cases g with
        | nil => exact h
        | cons t1 grest =>
          cases grest with
          | nil =>
            simp only [impliedPair] at h ⊢
            exact ih.1 t1 r h
          | cons t2 grest' =>
            simp only [impliedPair] at h
            show (match (impliedPair (fuel + 1)).2 (t1 :: t2 :: grest') with
                  | none => none
                  | some g' => if g' = t1 :: t2 :: grest'
                      then some (some (Tok.group (t1 :: t2 :: grest')))
                      else (impliedPair (fuel + 1)).1 (Tok.group g')) = some r
            split at h
            · exact absurd h (by simp)
            · rename_i g' hg
              rw [ih.2 _ _ hg]
              show (if g' = t1 :: t2 :: grest'
                    then some (some (Tok.group (t1 :: t2 :: grest')))
                    else (impliedPair (fuel + 1)).1 (Tok.group g')) = some r
              split at h
              · rename_i heq
                rw [if_pos heq]
                exact h
              · rename_i heq
                rw [if_neg heq]
                exact ih.1 _ r h
    · intro ts r h
      simp only [impliedPair] at h
      show (match impliedScanGo (impliedPair (fuel + 1)).1 (unwrapTop ts)
              ⟨[], false, false, false⟩ with
            | none => none
            | some st =>
              if st.hasBinary || st.hasUnary then
                match st.final with
                | [] => none
                | _ => some st.final.dropLast
              else some st.final) = some r
      split at h
      · exact absurd h (by simp)
      · rename_i st hscan
        rw [impliedScanGo_mono ih.1 _ _ st hscan]
        exact h

theorem impliedPair_mono : ∀ (fuel fuel' : Nat), fuel ≤ fuel' →
    (∀ t r, (impliedPair fuel).1 t = some r → (impliedPair fuel').1 t = some r) ∧
    (∀ ts r, (impliedPair fuel).2 ts = some r → (impliedPair fuel').2 ts = some r) := by
  intro fuel fuel' hle
  induction fuel' with
  | zero =>
    have : fuel = 0 := by omega
    subst this
    exact ⟨fun _ _ h => h, fun _ _ h => h⟩
  | succ fuel' ih =>
    by_cases heq : fuel = fuel' + 1
    · subst heq
      exact ⟨fun _ _ h => h, fun _ _ h => h⟩
    · have hle' : fuel ≤ fuel' := by omega
      exact ⟨fun t r h => (impliedPair_succ fuel').1 t r ((ih hle').1 t r h),
             fun ts r h => (impliedPair_succ fuel').2 ts r ((ih hle').2 ts r h)⟩

theorem orderLoop_mono : ∀ (fuel : Nat) (st : OSt) (out : List Tok),
    orderLoop fuel st = some out → orderLoop (fuel + 1) st = some out := by
  intro fuel
  induction fuel with
  | zero =>
    intro st out h
    simp [orderLoop] at h
  | succ fuel ih =>
    intro st out h
    by_cases hexit : st.index ≥ (st.tokens.length : Int)
    · rw [orderLoop_step_exit hexit] at h ⊢
      exact h
    · cases hget : pyGetWrap st.tokens st.index with
      | none =>
        rw [orderLoop, if_neg hexit] at h
        split at h
        · exact absurd h (by simp)
        · rename_i tok heq
          rw [hget] at heq
          exact absurd heq (by simp)
      | some token =>
        cases hprec : precOf token with
        | none =>
          rw [orderLoop_step_opnd hexit hget hprec] at h ⊢
          exact ih _ out h
        | some prec =>
          obtain ⟨s0, e0, hse⟩ : ∃ s0 e0, seExpr st prec token = (s0, e0) := ⟨_, _, rfl⟩
          cases s0 with
          | some v =>
            cases e0 with
            | some w =>
              obtain ⟨S', i', hpop⟩ :
                  ∃ S' i', popTwice (prec :: st.stack) st.index = (S', i') := ⟨_, _, rfl⟩
              rw [orderLoop_step_collapse hexit hget hprec hse hpop] at h ⊢
              exact ih _ out h
            | none =>
              rw [orderLoop_step_adv hexit hget hprec hse (Or.inr rfl)] at h ⊢
              exact ih _ out h
          | none =>
            rw [orderLoop_step_adv hexit hget hprec hse (Or.inl rfl)] at h ⊢
            exact ih _ out h

theorem orderRecGo_mono {f f' : List Tok → Option (List Tok)}
    (hsub : ∀ g r, f g = some r → f' g = some r) :
    ∀ ts r, orderRecGo f ts = some r → orderRecGo f' ts = some r
  | [], r, h => h
  | .str s :: rest, r, h => by
    simp only [orderRecGo] at h ⊢
    split at h
    · exact absurd h (by simp)
    · rename_i rest' hrest
      rw [orderRecGo_mono hsub rest rest' hrest]
      exact h
  | .group g :: rest, r, h => by
    simp only [orderRecGo] at h ⊢
    split at h
    · exact absurd h (by simp)
    · rename_i g' hg
      rw [hsub g g' hg]
      show (match orderRecGo f' rest with
            | none => none
            | some rest' => some (Tok.group g' :: rest')) = some r
      split at h
      · exact absurd h (by simp)
      · rename_i rest' hrest
        rw [orderRecGo_mono hsub rest rest' hrest]
        exact h

theorem orderOperations_mono : ∀ (fuel : Nat) (ts out : List Tok),
    orderOperations fuel ts = some out → orderOperations (fuel + 1) ts = some out := by
  intro fuel
  induction fuel with
  | zero =>
    intro ts out h
    simp [orderOperations] at h
  | succ fuel ih =>
    intro ts out h
    rw [orderOperations] at h ⊢
    split at h
    · exact absurd h (by simp)
    · rename_i ts1 hrec
      rw [orderRecGo_mono (fun g r hg => ih g r hg) ts ts1 hrec]
      show (if ts1.length < 5 then some ts1
            else orderLoop (fuel + 1 + 1) ⟨ts1, 0, none, none, []⟩) = some out
      split at h
      · rename_i hlen
        rw [if_pos hlen]
        exact h
      · rename_i hlen
        rw [if_neg hlen]
        exact orderLoop_mono (fuel + 1) _ out h

theorem orderOperations_mono_le {fuel fuel' : Nat} (hle : fuel ≤ fuel') :
    ∀ {ts out : List Tok}, orderOperations fuel ts = some out →
      orderOperations fuel' ts = some out := by
  induction fuel' with
  | zero =>
    intro ts out h
    have : fuel = 0 := by omega
    subst this
    exact h
  | succ fuel' ih =>
    intro ts out h
    by_cases heq : fuel = fuel' + 1
    · subst heq
      exact h
    · exact orderOperations_mono fuel' ts out (ih (by omega) h)

/-! ## The shape of trees parsed from ordered streams -/

theorem isBinTk_exists_str {y : Tok} (h : isBinTk y = true) :
    ∃ s, y = .str s ∧ isBinStr (some s) = true := by
  cases y with
  | group g => simp [isBinTk] at h
  | str s => exact ⟨s, rfl, h⟩

theorem isUnTk_exists_str {y : Tok} (h : isUnTk y = true) :
    ∃ s, y = .str s ∧ s = "NOT" := by
  cases y with
  | group g => simp [isUnTk] at h
  | str s =>
    refine ⟨s, rfl, ?_⟩
    simpa [isUnTk, UNARY_OPERATORS] using h

theorem isOpStr_of_isUnStr {s : String} (h : isUnStr (some s) = true) :
    isOpStr (some s) = true := by
  rw [isUnStr_mem h]
  decide

theorem goodChildren_append (banned : Option String) (l1 l2 : List ETree) :
    goodChildren banned (l1 ++ l2) =
      (goodChildren banned l1 && goodChildren banned l2) := by
  induction l1 with
  | nil => simp [goodChildren]
  | cons c rest ih => simp [goodChildren, ih, Bool.and_assoc]

theorem goodT_bin {B : String} {cs : List ETree} (hB : isBinStr (some B) = true) :
    goodT (.node (some B) cs) = (decide (1 ≤ cs.length) && goodChildren (some B) cs) := by
  simp only [isBinStr] at hB
  simp only [goodT]
  rw [if_pos hB]

theorem goodT_un {s : String} {cs : List ETree} (hu : isUnStr (some s) = true) :
    goodT (.node (some s) cs) = (decide (cs.length = 1) && goodChildren none cs) := by
  have hs := isUnStr_mem hu
  subst hs
  simp only [goodT]
  rw [if_neg (by decide), if_pos (by decide)]

/-- The invariant relating the parse state to the class of the last
consumed stream token: after an operand the state is a finished good
tree; after a binary operator the state root carries exactly that
operator; after `NOT` the state is the transient childless-`NOT`
configuration (at the root, or as the pending last child of a binary
root). -/
def PInv : PState → Tok → Prop
  | .top t, x =>
    (isOpTk x = false ∧ goodT t = true) ∨
    (∃ B, x = .str B ∧ isBinStr (some B) = true ∧ t.token = some B ∧ goodT t = true) ∨
    (isUnTk x = true ∧ ∃ s, t = .node (some s) [] ∧ isUnStr (some s) = true)
  | .deep rootTok sibs notTok, x =>
    isUnTk x = true ∧ ∃ B, rootTok = some B ∧ isBinStr (some B) = true ∧
      goodT (.node (some B) sibs) = true ∧ notTok = some "NOT"

theorem stepParse_pinv {st : PState} {x y : Tok} {new : ETree} {st2 : PState}
    (hinv : PInv st x) (hok : okPairR x y = true)
    (hnew : parseTok y = .ok new)
    (hgood : isOpTk y = false → goodT new = true)
    (hstep : stepParse st new = .ok st2) : PInv st2 y := by
  cases st with
  | deep rootTok sibs notTok =>
    -- after `NOT` below a binary root: the next token is an operand and
    -- the state climbs back to the root
    obtain ⟨hxun, B, hroot, hBbin, hgoodroot, hnot⟩ := hinv
    subst hroot
    subst hnot
    have hyop : isOpTk y = false := okPairR_un_right hok hxun
    have hgnew := hgood hyop
    simp only [stepParse] at hstep
    injection hstep with hstep
    subst hstep
    left
    refine ⟨hyop, ?_⟩
    rw [goodT_bin hBbin] at hgoodroot ⊢
    simp only [Bool.and_eq_true, decide_eq_true_eq] at hgoodroot ⊢
    refine ⟨by simp, ?_⟩
    rw [goodChildren_append]
    simp only [Bool.and_eq_true]
    refine ⟨hgoodroot.2, ?_⟩
    simp only [goodChildren, Bool.and_eq_true, decide_eq_true_eq]
    refine ⟨⟨?_, ?_⟩, trivial⟩
    · rw [goodT_un (by decide)]
      simp [goodChildren, hgnew]
    · right
      intro hc
      simp only [ETree.token, Option.some.injEq] at hc
      rw [← hc] at hBbin
      simp [isBinStr, BINARY_OPERATORS] at hBbin
  | top t =>
    obtain ⟨tok, cs⟩ := t
    obtain ⟨newTok, newCh⟩ := new
    rcases hinv with ⟨hxop, hgt⟩ | ⟨B, hxs, hBbin, htok, hgt⟩ | ⟨hxun, s, hts, hsu⟩
    · -- the state is a finished tree: the next token is a binary operator
      have hybin : isBinTk y = true := okPairR_opnd_right hok hxop
      obtain ⟨B', hy, hB'⟩ := isBinTk_exists_str hybin
      subst hy
      simp only [parseTok] at hnew
      injection hnew with hnew
      injection hnew with h1 h2
      subst h1
      subst h2
      simp only [stepParse] at hstep
      by_cases hcop : isOpStr tok = true
      · rw [if_neg (by rw [hcop]; simp)] at hstep
        by_cases hcbin : isBinStr tok = true
        · rw [if_pos hcbin] at hstep
          rw [if_pos hB'] at hstep
          by_cases heq : (some B' : Option String) = tok
          · rw [if_pos heq] at hstep
            injection hstep with hstep
            subst hstep
            right
            left
            refine ⟨B', rfl, hB', by simp [ETree.token, heq], ?_⟩
            simpa using hgt
          · rw [if_neg heq] at hstep
            rw [if_pos (by simp)] at hstep
            injection hstep with hstep
            subst hstep
            right
            left
            refine ⟨B', rfl, hB', rfl, ?_⟩
            rw [goodT_bin hB']
            simp only [Bool.and_eq_true, decide_eq_true_eq]
            refine ⟨by simp, ?_⟩
            simp only [goodChildren, Bool.and_eq_true, decide_eq_true_eq]
            refine ⟨⟨hgt, ?_⟩, trivial⟩
            right
            simp only [ETree.token]
            intro hc
            exact heq hc.symm
        · -- the finished tree is rooted in `NOT`
          rw [if_neg hcbin] at hstep
          have hcun : isUnStr tok = true := by
            cases tok with
            | none => simp [isOpStr] at hcop
            | some s' =>
              rcases isOpStr_split hcop with h | h
              · rw [h] at hcbin
                exact absurd rfl hcbin
              · exact h
          have hcs1 : cs.length = 1 := by
            cases tok with
            | none => simp [isOpStr] at hcop
            | some s' =>
              rw [goodT_un hcun] at hgt
              simp only [Bool.and_eq_true, decide_eq_true_eq] at hgt
              exact hgt.1
          rw [if_neg (by
            intro hc
            rw [List.isEmpty_eq_true] at hc
            rw [hc] at hcs1
            simp at hcs1)] at hstep
          rw [if_pos hB', if_pos (by simp)] at hstep
          injection hstep with hstep
          subst hstep
          right
          left
          refine ⟨B', rfl, hB', rfl, ?_⟩
          rw [goodT_bin hB']
          simp only [Bool.and_eq_true, decide_eq_true_eq]
          refine ⟨by simp, ?_⟩
          simp only [goodChildren, Bool.and_eq_true, decide_eq_true_eq]
          refine ⟨⟨hgt, ?_⟩, trivial⟩
          right
          simp only [ETree.token]
          intro hc
          rw [hc] at hcun
          rw [isUnStr_mem hcun] at hB'
          exact absurd hB' (by decide)
      · -- the finished tree is an operand leaf
        have hcop' : isOpStr tok = false := by simpa using hcop
        rw [if_pos (show (!isOpStr tok) = true by rw [hcop']; rfl)] at hstep
        rw [if_pos hB', if_pos (by simp)] at hstep
        injection hstep with hstep
        subst hstep
        right
        left
        refine ⟨B', rfl, hB', rfl, ?_⟩
        rw [goodT_bin hB']
        simp only [Bool.and_eq_true, decide_eq_true_eq]
        refine ⟨by simp, ?_⟩
        simp only [goodChildren, Bool.and_eq_true, decide_eq_true_eq]
        refine ⟨⟨hgt, ?_⟩, trivial⟩
        right
        simp only [ETree.token]
        intro hc
        rw [hc, isOpStr_of_isBinStr hB'] at hcop'
        exact absurd hcop' (by simp)
    · -- the state root carries the binary operator `B`
      subst hxs
      have hynb : isBinTk y = false :=
        okPairR_bin_right hok (show isBinTk (.str B) = true from hBbin)
      simp only [ETree.token] at htok
      subst htok
      have hcopS : isOpStr (some B) = true := isOpStr_of_isBinStr hBbin
      rw [goodT_bin hBbin] at hgt
      simp only [Bool.and_eq_true, decide_eq_true_eq] at hgt
      simp only [stepParse] at hstep
      rw [if_neg (by rw [hcopS]; simp), if_pos hBbin] at hstep
      cases hyun : isUnTk y with
      | true =>
        -- `NOT` after the binary operator: descend
        obtain ⟨s', hy, hs'⟩ := isUnTk_exists_str hyun
        subst hy
        subst hs'
        simp only [parseTok] at hnew
        injection hnew with hnew
        injection hnew with h1 h2
        subst h1
        subst h2
        rw [if_neg (by simp [isBinStr, BINARY_OPERATORS]), if_pos (by decide),
            if_pos (by simp)] at hstep
        injection hstep with hstep
        subst hstep
        exact ⟨by decide, B, rfl, hBbin, by
          rw [goodT_bin hBbin]
          simp only [Bool.and_eq_true, decide_eq_true_eq]
          exact hgt, rfl⟩
      | false =>
        -- an operand after the binary operator: append or merge
        have hyop : isOpTk y = false := by
          cases ho : isOpTk y
          · rfl
          · rcases isOpTk_cases ho with h | h
            · rw [h] at hynb
              exact absurd hynb (by simp)
            · rw [h] at hyun
              exact absurd hyun (by simp)
        have hgnew := hgood hyop
        by_cases hnb : isBinStr newTok = true
        · rw [if_pos hnb] at hstep
          obtain ⟨B2, hB2⟩ : ∃ B2, newTok = some B2 := by
            cases newTok with
            | none => simp [isBinStr] at hnb
            | some b2 => exact ⟨b2, rfl⟩
          subst hB2
          rw [goodT_bin hnb] at hgnew
          simp only [Bool.and_eq_true, decide_eq_true_eq] at hgnew
          by_cases heq : (some B2 : Option String) = some B
          · rw [if_pos heq] at hstep
            injection heq with heq
            subst heq
            injection hstep with hstep
            subst hstep
            left
            refine ⟨hyop, ?_⟩
            rw [goodT_bin hBbin]
            simp only [Bool.and_eq_true, decide_eq_true_eq]
            rw [goodChildren_append]
            simp only [Bool.and_eq_true, List.length_append]
            exact ⟨by omega, hgt.2, hgnew.2⟩
          · rw [if_neg heq] at hstep
            rw [if_neg (by
              intro hc
              rw [List.isEmpty_eq_true] at hc
              rw [hc] at hgnew
              simp at hgnew)] at hstep
            injection hstep with hstep
            subst hstep
            left
            refine ⟨hyop, ?_⟩
            rw [goodT_bin hBbin]
            simp only [Bool.and_eq_true, decide_eq_true_eq]
            rw [goodChildren_append]
            simp only [Bool.and_eq_true, List.length_append]
            refine ⟨by omega, hgt.2, ?_⟩
            simp only [goodChildren, Bool.and_eq_true, decide_eq_true_eq]
            refine ⟨⟨?_, ?_⟩, trivial⟩
            · rw [goodT_bin hnb]
              simp only [Bool.and_eq_true, decide_eq_true_eq]
              exact hgnew
            · right
              simp only [ETree.token]
              exact heq
        · rw [if_neg hnb] at hstep
          by_cases hnu : isUnStr newTok = true
          · rw [if_pos hnu] at hstep
            obtain ⟨s2, hs2⟩ : ∃ s2, newTok = some s2 := by
              cases newTok with
              | none => simp [isUnStr] at hnu
              | some b2 => exact ⟨b2, rfl⟩
            subst hs2
            rw [goodT_un hnu] at hgnew
            simp only [Bool.and_eq_true, decide_eq_true_eq] at hgnew
            rw [if_neg (by
              intro hc
              rw [List.isEmpty_eq_true] at hc
              rw [hc] at hgnew
              simp at hgnew)] at hstep
            injection hstep with hstep
            subst hstep
            left
            refine ⟨hyop, ?_⟩
            rw [goodT_bin hBbin]
            simp only [Bool.and_eq_true, decide_eq_true_eq]
            rw [goodChildren_append]
            simp only [Bool.and_eq_true, List.length_append]
            refine ⟨by omega, hgt.2, ?_⟩
            simp only [goodChildren, Bool.and_eq_true, decide_eq_true_eq]
            refine ⟨⟨?_, ?_⟩, trivial⟩
            · rw [goodT_un hnu]
              simp only [Bool.and_eq_true, decide_eq_true_eq]
              exact hgnew
            · right
              simp only [ETree.token]
              intro hc
              rw [isUnStr_mem hnu] at hc
              injection hc with hc
              rw [← hc] at hBbin
              simp [isBinStr, BINARY_OPERATORS] at hBbin
          · rw [if_neg hnu] at hstep
            rw [if_neg (by
              intro hc
              rw [List.isEmpty_eq_true] at hc
              rw [hc] at hgt
              simp at hgt)] at hstep
            injection hstep with hstep
            subst hstep
            left
            refine ⟨hyop, ?_⟩
            rw [goodT_bin hBbin]
            simp only [Bool.and_eq_true, decide_eq_true_eq]
            rw [goodChildren_append]
            simp only [Bool.and_eq_true, List.length_append]
            refine ⟨by omega, hgt.2, ?_⟩
            simp only [goodChildren, Bool.and_eq_true, decide_eq_true_eq]
            refine ⟨⟨hgnew, ?_⟩, trivial⟩
            right
            simp only [ETree.token]
            intro hc
            rw [hc] at hnb
            exact hnb hBbin
    · -- the transient childless `NOT` at the root
      injection hts with hts1 hts2
      subst hts1
      subst hts2
      have hyop : isOpTk y = false := okPairR_un_right hok hxun
      have hgnew := hgood hyop
      have hcop : isOpStr (some s) = true := isOpStr_of_isUnStr hsu
      have hcnb : isBinStr (some s) = false := by
        rw [isUnStr_mem hsu]
        simp [isBinStr, BINARY_OPERATORS]
      simp only [stepParse] at hstep
      rw [if_neg (by rw [hcop]; simp), if_neg (by rw [hcnb]; simp),
          if_pos (by simp)] at hstep
      injection hstep with hstep
      subst hstep
      left
      refine ⟨hyop, ?_⟩
      rw [goodT_un hsu]
      simp only [Bool.and_eq_true, decide_eq_true_eq]
      simp [goodChildren, hgnew]

theorem lastNotUn_cons_cons (x y : Tok) (rest : List Tok) :
    lastNotUn (x :: y :: rest) = lastNotUn (y :: rest) := by
  unfold lastNotUn
  rw [getLast?_cons_ne_nil x _ (by simp)]

mutual

theorem parseTok_good : ∀ (x : Tok), ordTok x = true → isOpTk x = false →
    ∀ t, parseTok x = .ok t → goodT t = true
  | .str s, hord, hop, t, h => by
    simp only [parseTok] at h
    injection h with h
    subst h
    have hnb : isBinTk (.str s) = false := isOpTk_false_not_bin hop
    have hnu : isUnTk (.str s) = false := isOpTk_false_not_un hop
    simp only [goodT]
    rw [if_neg (by rw [show BINARY_OPERATORS.contains s = false from hnb]; simp),
        if_neg (by rw [show UNARY_OPERATORS.contains s = false from hnu]; simp)]
    simpa [ordTok] using hord
  | .group g, hord, _, t, h => by
    simp only [parseTok] at h
    simp only [ordTok, Bool.and_eq_true, decide_eq_true_eq] at hord
    exact parseList_good g hord.1.1.1.1 hord.1.1.1.2 hord.1.1.2 hord.1.2 hord.2 t h

theorem parseList_good : ∀ (N : List Tok), N ≠ [] → headNotBin N = true →
    chainR N = true → lastNotUn N = true → ordAll N = true →
    ∀ t, parseList N = .ok t → goodT t = true
  | [], hne, _, _, _, _, _, _ => absurd rfl hne
  | x1 :: rest, _, hh, hc, hl, ha, t, h => by
    simp only [ordAll, Bool.and_eq_true] at ha
    simp only [parseList] at h
    split at h
    · exact absurd h (by simp)
    · rename_i c0 hpt
      split at h
      · exact absurd h (by simp)
      · rename_i st' hrest
        injection h with h
        subst h
        have hx1nb : isBinTk x1 = false := by simpa [headNotBin] using hh
        have hinv : PInv (.top c0) x1 := by
          cases hop : isOpTk x1 with
          | false => exact Or.inl ⟨hop, parseTok_good x1 ha.1 hop c0 hpt⟩
          | true =>
            have hun : isUnTk x1 = true :=
              (isOpTk_cases hop).resolve_left (by rw [hx1nb]; simp)
            obtain ⟨s, hxs, hs⟩ := isUnTk_exists_str hun
            subst hxs
            refine Or.inr (Or.inr ⟨hun, s, ?_, ?_⟩)
            · simp only [parseTok] at hpt
              injection hpt with hpt
              exact hpt.symm
            · subst hs
              decide
        exact parseRest_good rest (.top c0) x1 st' hinv hc hl ha.2 hrest

theorem parseRest_good : ∀ (ts : List Tok) (st : PState) (x : Tok) (st' : PState),
    PInv st x → chainR (x :: ts) = true → lastNotUn (x :: ts) = true →
    ordAll ts = true → parseRest st ts = .ok st' → goodT st'.root = true
  | [], st, x, st', hinv, _, hl, _, h => by
    simp only [parseRest] at h
    injection h with h
    subst h
    have hxnu : isUnTk x = false := by simpa [lastNotUn] using hl
    cases st with
    | top t =>
      rcases hinv with ⟨_, hgt⟩ | ⟨B, _, _, _, hgt⟩ | ⟨hxu, _⟩
      · exact hgt
      · exact hgt
      · rw [hxu] at hxnu
        exact absurd hxnu (by simp)
    | deep a b c =>
      obtain ⟨hxu, _⟩ := hinv
      rw [hxu] at hxnu
      exact absurd hxnu (by simp)
  | y :: rest, st, x, st', hinv, hc, hl, ha, h => by
    simp only [parseRest] at h
    split at h
    · exact absurd h (by simp)
    · rename_i new hpt
      split at h
      · exact absurd h (by simp)
      · rename_i st2 hsp
        simp only [ordAll, Bool.and_eq_true] at ha
        have hc' := hc
        simp only [chainR, Bool.and_eq_true] at hc'
        have hinv2 := stepParse_pinv hinv hc'.1 hpt
          (fun hyop => parseTok_good y ha.1 hyop new hpt) hsp
        exact parseRest_good rest st2 y st' hinv2 hc'.2
          (by rw [← lastNotUn_cons_cons x y rest]; exact hl) ha.2 h

end

/-- Any tree the full pipeline produces is `goodT`: the tokenizer emits
nonempty strings, `implied_tokens` emits a rich stream,
`order_operations` preserves the ordered-stream class, and `parse` maps
ordered streams to good trees. -/
theorem parseString_good {fuel : Nat} {s : String} {t : ETree}
    (h : parseString fuel s = some (.ok t)) : goodT t = true := by
  unfold parseString at h
  split at h
  · exact absurd h (by simp)
  · rename_i N htok
    injection h with h
    unfold tokenizePy at htok
    split at htok
    · exact absurd htok (by simp)
    · rename_i ts hsub
      split at htok
      · exact absurd htok (by simp)
      · rename_i M himp
        have hneTs : neAll ts = true := sublistTokens_ne (rawTokenize_ne s) hsub
        have hrich : richList M = true := impliedTokens_rich hneTs himp
        simp only [richList, Bool.and_eq_true] at hrich
        by_cases hM : M = []
        · subst hM
          cases fuel with
          | zero => exact absurd htok (by simp [orderOperations])
          | succ fuel =>
            rw [orderOperations] at htok
            have hN : N = [] := by
              simp only [orderRecGo] at htok
              simp at htok
              exact htok
            subst hN
            simp only [parseList] at h
            exact absurd h (by simp)
        · have hord := orderOperations_ord fuel M N hM hrich.1.1.1 hrich.1.1.2
            hrich.1.2 (richAll_ordAll M hrich.2) htok
          exact parseList_good N hord.1 hord.2.1 hord.2.2.1 hord.2.2.2.1
            hord.2.2.2.2 t h

/-! ## Re-parsing the rendered token stream -/

theorem flattenB_append (b : Option String) (l1 l2 : List ETree) :
    flattenB b (l1 ++ l2) = flattenB b l1 ++ flattenB b l2 := by
  induction l1 with
  | nil => simp [flattenB]
  | cons c rest ih => simp [flattenB, ih]

theorem flattenB_of_ne (b : Option String) : ∀ ds : List ETree,
    (∀ d ∈ ds, d.token ≠ b) → flattenB b ds = ds
  | [], _ => rfl
  | d :: rest, h => by
    simp only [flattenB]
    rw [if_neg (h d (by simp))]
    rw [flattenB_of_ne b rest (fun d' hd' => h d' (by simp [hd']))]
    rfl

theorem tokList_flatMap (B : String) : ∀ ds : List ETree,
    (tokList ds).flatMap (fun ct => [Tok.str B, ct]) =
      ds.flatMap (fun d => [Tok.str B, tokOf d])
  | [] => rfl
  | d :: rest => by
    simp only [tokList, List.flatMap_cons]
    rw [tokList_flatMap B rest]
    rfl

theorem strictT_node_bin {B : String} {cs : List ETree} (hB : isBinStr (some B) = true)
    (h : strictT (.node (some B) cs) = true) :
    2 ≤ cs.length ∧ strictChildren (some B) cs = true := by
  simp only [isBinStr] at hB
  simp only [strictT] at h
  rw [if_pos hB] at h
  simpa using h

theorem strictT_node_un {s : String} {cs : List ETree} (hu : isUnStr (some s) = true)
    (h : strictT (.node (some s) cs) = true) :
    cs.length = 1 ∧ strictChildren none cs = true := by
  have hs := isUnStr_mem hu
  subst hs
  simp only [strictT] at h
  rw [if_neg (by decide), if_pos (by decide)] at h
  simpa using h

theorem strictT_node_leaf {s : String} {cs : List ETree}
    (hb : isBinStr (some s) = false) (hu : isUnStr (some s) = false)
    (h : strictT (.node (some s) cs) = true) : s ≠ "" ∧ cs = [] := by
  simp only [isBinStr] at hb
  simp only [isUnStr] at hu
  simp only [strictT] at h
  rw [if_neg (by rw [hb]; simp), if_neg (by rw [hu]; simp)] at h
  simpa using h

theorem stepParse_binop {B : String} (hB : isBinStr (some B) = true) (t : ETree)
    (hst : strictT t = true) :
    stepParse (.top t) (.node (some B) []) =
      if t.token = some B then .ok (.top (.node (some B) t.children))
      else .ok (.top (.node (some B) [t])) := by
  obtain ⟨tok, cs⟩ := t
  cases tok with
  | none => simp [strictT] at hst
  | some s =>
    simp only [ETree.token, ETree.children]
    by_cases hsb : isBinStr (some s) = true
    · have hop : isOpStr (some s) = true := isOpStr_of_isBinStr hsb
      simp only [stepParse]
      rw [if_neg (by rw [hop]; simp), if_pos hsb, if_pos hB]
      by_cases heq : (some B : Option String) = some s
      · injection heq with heq
        subst heq
        rw [if_pos rfl, if_pos rfl, List.append_nil]
      · rw [if_neg heq, if_pos (by simp),
            if_neg (by intro hc; injection hc with hc; exact heq (by rw [hc]))]
    · by_cases hsu : isUnStr (some s) = true
      · have hop : isOpStr (some s) = true := isOpStr_of_isUnStr hsu
        have hlen := (strictT_node_un hsu hst).1
        simp only [stepParse]
        rw [if_neg (by rw [hop]; simp), if_neg hsb]
        rw [if_neg (by
          intro hc
          rw [List.isEmpty_eq_true] at hc
          rw [hc] at hlen
          simp at hlen)]
        rw [if_pos hB, if_pos (by simp)]
        rw [if_neg (by
          intro hc
          injection hc with hc
          rw [isUnStr_mem hsu] at hc
          rw [← hc] at hB
          exact absurd hB (by decide))]
      · have hop : isOpStr (some s) = false := by
          cases ho : isOpStr (some s)
          · rfl
          · rcases isOpStr_split ho with h | h
            · rw [h] at hsb
              exact absurd rfl hsb
            · rw [h] at hsu
              exact absurd rfl hsu
        simp only [stepParse]
        rw [if_pos (by rw [hop]; rfl), if_pos hB, if_pos (by simp)]
        rw [if_neg (by
          intro hc
          injection hc with hc
          rw [hc] at hop
          rw [isOpStr_of_isBinStr hB] at hop
          exact absurd hop (by simp))]

theorem stepParse_operand {B : String} (hB : isBinStr (some B) = true) (acc : List ETree)
    (hacc : acc ≠ []) (d : ETree) (hd : strictT d = true) :
    stepParse (.top (.node (some B) acc)) d =
      .ok (.top (.node (some B) (acc ++ (if d.token = some B then d.children else [d])))) := by
  obtain ⟨dTok, dCh⟩ := d
  have hop : isOpStr (some B) = true := isOpStr_of_isBinStr hB
  simp only [stepParse, ETree.token, ETree.children]
  rw [if_neg (by rw [hop]; simp), if_pos hB]
  by_cases hdb : isBinStr dTok = true
  · rw [if_pos hdb]
    by_cases heq : dTok = some B
    · subst heq
      rw [if_pos rfl, if_pos rfl]
    · obtain ⟨B2, hB2⟩ : ∃ B2, dTok = some B2 := by
        cases dTok with
        | none => simp [isBinStr] at hdb
        | some b2 => exact ⟨b2, rfl⟩
      subst hB2
      have hlen := (strictT_node_bin hdb hd).1
      rw [if_neg heq]
      rw [if_neg (by
        intro hc
        rw [List.isEmpty_eq_true] at hc
        rw [hc] at hlen
        simp at hlen)]
      rw [if_neg heq]
  · rw [if_neg hdb]
    by_cases hdu : isUnStr dTok = true
    · rw [if_pos hdu]
      obtain ⟨s2, hs2⟩ : ∃ s2, dTok = some s2 := by
        cases dTok with
        | none => simp [isUnStr] at hdu
        | some b2 => exact ⟨b2, rfl⟩
      subst hs2
      have hlen := (strictT_node_un hdu hd).1
      rw [if_neg (by
        intro hc
        rw [List.isEmpty_eq_true] at hc
        rw [hc] at hlen
        simp at hlen)]
      rw [if_neg (by
        intro hc
        injection hc with hc
        rw [isUnStr_mem hdu] at hc
        rw [← hc] at hB
        exact absurd hB (by decide))]
    · rw [if_neg hdu]
      rw [if_neg (by
        intro hc
        rw [List.isEmpty_eq_true] at hc
        exact hacc hc)]
      rw [if_neg (by
        intro hc
        cases dTok with
        | none => exact Option.noConfusion hc
        | some s2 =>
          injection hc with hc
          subst hc
          exact hdb hB)]

theorem strictChildren_mem {banned : Option String} : ∀ {cs : List ETree} {c : ETree},
    strictChildren banned cs = true → c ∈ cs →
    strictT c = true ∧ (banned = none ∨ c.token ≠ banned)
  | c0 :: rest, c, h, hm => by
    simp only [strictChildren, Bool.and_eq_true, decide_eq_true_eq] at h
    rcases List.mem_cons.mp hm with h1 | h1
    · subst h1
      exact ⟨h.1.1, h.1.2⟩
    · exact strictChildren_mem h.2 h1

theorem goodChildren_mem {banned : Option String} : ∀ {cs : List ETree} {c : ETree},
    goodChildren banned cs = true → c ∈ cs →
    goodT c = true ∧ (banned = none ∨ c.token ≠ banned)
  | c0 :: rest, c, h, hm => by
    simp only [goodChildren, Bool.and_eq_true, decide_eq_true_eq] at h
    rcases List.mem_cons.mp hm with h1 | h1
    · subst h1
      exact ⟨h.1.1, h.1.2⟩
    · exact goodChildren_mem h.2 h1

theorem tokOf_op {s : String} {cs : List ETree} (hop : OPERATORS.contains s = true) :
    tokOf (.node (some s) cs) = .group (toksT (.node (some s) cs)) := by
  simp only [tokOf, toksT, tokAndToks]
  rw [if_pos hop]

theorem tokOf_nonop {s : String} {cs : List ETree} (hop : OPERATORS.contains s = false) :
    tokOf (.node (some s) cs) = .str s := by
  simp only [tokOf, tokAndToks]
  rw [if_neg (by rw [hop]; simp)]

theorem contains_op_false {s : String} (h : OPERATORS.contains s = false) :
    isBinStr (some s) = false ∧ isUnStr (some s) = false := by
  constructor
  · cases hb : isBinStr (some s)
    · rfl
    · have hx := isOpStr_of_isBinStr hb
      simp only [isOpStr] at hx
      rw [h] at hx
      exact absurd hx (by simp)
  · cases hu : isUnStr (some s)
    · rfl
    · have hx := isOpStr_of_isUnStr hu
      simp only [isOpStr] at hx
      rw [h] at hx
      exact absurd hx (by simp)

theorem toksT_un {s : String} {c : ETree} (hop : OPERATORS.contains s = true) :
    toksT (.node (some s) [c]) = [.str s, tokOf c] := by
  simp only [toksT, tokAndToks, tokList]
  rw [if_neg (by rw [hop]; simp)]
  rfl

theorem toksT_bin {s : String} {c1 c2 : ETree} {rest : List ETree}
    (hop : OPERATORS.contains s = true) :
    toksT (.node (some s) (c1 :: c2 :: rest)) =
      tokOf c1 :: (c2 :: rest).flatMap (fun d => [Tok.str s, tokOf d]) := by
  rw [← tokList_flatMap]
  simp only [toksT, tokAndToks, tokList]
  rw [if_neg (by rw [hop]; simp)]
  rfl

theorem stepParse_bin_same (B : String) (hB : isBinStr (some B) = true) (acc : List ETree) :
    stepParse (.top (.node (some B) acc)) (.node (some B) []) =
      .ok (.top (.node (some B) acc)) := by
  have hop : isOpStr (some B) = true := isOpStr_of_isBinStr hB
  simp [stepParse, hop, hB]

theorem parseRest_nil (st : PState) : parseRest st [] = .ok st := by
  simp only [parseRest]

theorem parseRest_cons_ok {st : PState} {t : Tok} {rest : List Tok} {new : ETree}
    {st2 : PState} (h1 : parseTok t = .ok new) (h2 : stepParse st new = .ok st2) :
    parseRest st (t :: rest) = parseRest st2 rest := by
  simp only [parseRest]
  rw [h1]
  show (match stepParse st new with
        | Except.error e => Except.error e
        | Except.ok st' => parseRest st' rest) = parseRest st2 rest
  rw [h2]

theorem parseList_eq_root {t : Tok} {rest : List Tok} {c0 : ETree} {st : PState}
    (h1 : parseTok t = .ok c0) (h2 : parseRest (.top c0) rest = .ok st) :
    parseList (t :: rest) = .ok st.root := by
  simp only [parseList]
  rw [h1]
  show (match parseRest (.top c0) rest with
        | Except.error e => Except.error e
        | Except.ok st' => Except.ok st'.root) = Except.ok st.root
  rw [h2]

theorem stepParse_un_first (s : String) (hu : isUnStr (some s) = true) (d : ETree) :
    stepParse (.top (.node (some s) [])) d = .ok (.top (.node (some s) [d])) := by
  have hop : isOpStr (some s) = true := isOpStr_of_isUnStr hu
  have hb : isBinStr (some s) = false := by
    rw [isUnStr_mem hu]
    decide
  obtain ⟨dTok, dCh⟩ := d
  simp only [stepParse]
  rw [if_neg (by rw [hop]; simp), if_neg (by rw [hb]; simp), if_pos (by simp)]

mutual

theorem parseTok_tokOf : ∀ u : ETree, strictT u = true → parseTok (tokOf u) = .ok u
  | .node none _, h => by simp [strictT] at h
  | .node (some s) cs, h => by
    cases hop : OPERATORS.contains s with
    | false =>
      rw [tokOf_nonop hop]
      obtain ⟨hb, hu⟩ := contains_op_false hop
      obtain ⟨-, hnil⟩ := strictT_node_leaf hb hu h
      subst hnil
      simp only [parseTok]
    | true =>
      rw [tokOf_op hop]
      simp only [parseTok]
      exact parseList_toksT (.node (some s) cs) h
        (by simp only [isOpStr, ETree.token]; exact hop)
termination_by u _ => (sizeOf u, 1)

theorem parseList_toksT : ∀ u : ETree, strictT u = true → isOpStr u.token = true →
    parseList (toksT u) = .ok u
  | .node none _, h, _ => by simp [strictT] at h
  | .node (some s) cs, h, hop => by
    have hops : OPERATORS.contains s = true := by
      simpa only [isOpStr, ETree.token] using hop
    rcases isOpStr_split (show isOpStr (some s) = true by
        simp only [isOpStr]; exact hops) with hB | hU
    · obtain ⟨hlen, hch⟩ := strictT_node_bin hB h
      match cs, hlen, hch with
      | c1 :: c2 :: rest, _, hch =>
        rw [toksT_bin hops]
        have hc1 := strictChildren_mem hch (List.mem_cons_self _ _)
        have hc2 := strictChildren_mem hch
          (List.mem_cons.mpr (Or.inr (List.mem_cons_self _ _)))
        have hsb := stepParse_binop hB c1 hc1.1
        rw [if_neg (hc1.2.resolve_left (by simp))] at hsb
        have hso := stepParse_operand hB [c1] (by simp) c2 hc2.1
        rw [if_neg (hc2.2.resolve_left (by simp))] at hso
        have hrest : parseRest (.top c1)
            ((c2 :: rest).flatMap (fun d => [Tok.str s, tokOf d])) =
            .ok (.top (.node (some s) (([c1] ++ [c2]) ++ flattenB (some s) rest))) := by
          simp only [List.flatMap_cons, List.cons_append, List.nil_append]
          rw [parseRest_cons_ok (by simp only [parseTok]) hsb]
          rw [parseRest_cons_ok (parseTok_tokOf c2 hc2.1) hso]
          exact parseRest_chain s hB rest ([c1] ++ [c2]) (by simp)
            (fun d hd => (strictChildren_mem hch (by simp [hd])).1)
        rw [parseList_eq_root (parseTok_tokOf c1 hc1.1) hrest]
        rw [flattenB_of_ne (some s) rest
          (fun d hd => (strictChildren_mem hch (by simp [hd])).2.resolve_left (by simp))]
        simp [PState.root]
    · obtain ⟨hlen, hch⟩ := strictT_node_un hU h
      match cs, hlen, hch with
      | [c], _, hch =>
        rw [toksT_un hops]
        have hc := strictChildren_mem hch (List.mem_cons_self _ _)
        have hrest : parseRest (.top (.node (some s) [])) [tokOf c] =
            .ok (.top (.node (some s) [c])) := by
          rw [parseRest_cons_ok (parseTok_tokOf c hc.1) (stepParse_un_first s hU c)]
          exact parseRest_nil _
        rw [parseList_eq_root (by simp only [parseTok]) hrest]
        rfl
termination_by u _ _ => (sizeOf u, 0)

theorem parseRest_chain : ∀ (B : String), isBinStr (some B) = true →
    ∀ (ds : List ETree) (acc : List ETree), acc ≠ [] →
    (∀ d ∈ ds, strictT d = true) →
    parseRest (.top (.node (some B) acc)) (ds.flatMap (fun d => [Tok.str B, tokOf d])) =
      .ok (.top (.node (some B) (acc ++ flattenB (some B) ds)))
  | B, hB, [], acc, _, _ => by
    simp [parseRest_nil, flattenB]
  | B, hB, d :: ds, acc, hacc, hds => by
    have hd := hds d (List.mem_cons_self _ _)
    simp only [List.flatMap_cons, List.cons_append, List.nil_append]
    rw [parseRest_cons_ok (by simp only [parseTok]) (stepParse_bin_same B hB acc)]
    rw [parseRest_cons_ok (parseTok_tokOf d hd) (stepParse_operand hB acc hacc d hd)]
    rw [parseRest_chain B hB ds
      (acc ++ (if d.token = some B then d.children else [d]))
      (by simp [hacc])
      (fun d' hd' => hds d' (List.mem_cons.mpr (Or.inr hd')))]
    simp only [flattenB]
    rw [List.append_assoc]
termination_by B _ ds acc _ _ => (sizeOf ds, 2)

end

theorem goodT_node_bin {B : String} {cs : List ETree} (hB : isBinStr (some B) = true)
    (h : goodT (.node (some B) cs) = true) :
    1 ≤ cs.length ∧ goodChildren (some B) cs = true := by
  simp only [isBinStr] at hB
  simp only [goodT] at h
  rw [if_pos hB] at h
  simpa using h

theorem goodT_node_un {s : String} {cs : List ETree} (hu : isUnStr (some s) = true)
    (h : goodT (.node (some s) cs) = true) :
    cs.length = 1 ∧ goodChildren none cs = true := by
  have hs := isUnStr_mem hu
  subst hs
  simp only [goodT] at h
  rw [if_neg (by decide), if_pos (by decide)] at h
  simpa using h

theorem goodT_node_leaf {s : String} {cs : List ETree}
    (hb : isBinStr (some s) = false) (hu : isUnStr (some s) = false)
    (h : goodT (.node (some s) cs) = true) : s ≠ "" ∧ cs = [] := by
  simp only [isBinStr] at hb
  simp only [isUnStr] at hu
  simp only [goodT] at h
  rw [if_neg (by rw [hb]; simp), if_neg (by rw [hu]; simp)] at h
  simpa using h

theorem strictAllL_mem : ∀ {l : List ETree} {d : ETree},
    strictAllL l = true → d ∈ l → strictT d = true
  | c :: rest, d, h, hm => by
    simp only [strictAllL, Bool.and_eq_true] at h
    rcases List.mem_cons.mp hm with h1 | h1
    · subst h1
      exact h.1
    · exact strictAllL_mem h.2 h1

theorem stepParse_binop_flat {B : String} (hB : isBinStr (some B) = true) (t : ETree)
    (hst : strictT t = true) :
    stepParse (.top t) (.node (some B) []) =
      .ok (.top (.node (some B) (if t.token = some B then t.children else [t]))) := by
  rw [stepParse_binop hB t hst]
  split <;> rfl

theorem strict_flat_ne {B : String} (hB : isBinStr (some B) = true) {t : ETree}
    (hst : strictT t = true) :
    (if t.token = some B then t.children else [t]) ≠ [] := by
  split
  · rename_i heq
    obtain ⟨tok, cs⟩ := t
    simp only [ETree.token] at heq
    subst heq
    obtain ⟨hlen, -⟩ := strictT_node_bin hB hst
    simp only [ETree.children]
    intro hc
    rw [hc] at hlen
    simp at hlen
  · simp

theorem rT_leaf {s : String} {cs : List ETree} (hops : OPERATORS.contains s = false) :
    rT (.node (some s) cs) = .str s := by
  simp only [rT]
  rw [if_neg (by rw [hops]; simp)]

theorem rT_bin1 {s : String} {c : ETree} (hops : OPERATORS.contains s = true)
    (hbin : BINARY_OPERATORS.contains s = true) :
    rT (.node (some s) [c]) = rT c := by
  simp only [rT]
  rw [if_pos hops, if_pos hbin]
  simp only [rbin]

theorem rT_bin2 {s : String} {c1 c2 : ETree} {rest : List ETree}
    (hops : OPERATORS.contains s = true) (hbin : BINARY_OPERATORS.contains s = true) :
    rT (.node (some s) (c1 :: c2 :: rest)) = .group (iT (.node (some s) (c1 :: c2 :: rest))) := by
  simp only [rT, iT]
  rw [if_pos hops, if_pos hbin, if_pos hops, if_pos hbin]
  simp only [rbin]

theorem rT_un {s : String} {cs : List ETree} (hops : OPERATORS.contains s = true)
    (hbin : BINARY_OPERATORS.contains s = false) :
    rT (.node (some s) cs) = .group (iT (.node (some s) cs)) := by
  simp only [rT, iT]
  rw [if_pos hops, if_neg (by rw [hbin]; simp), if_pos hops, if_neg (by rw [hbin]; simp)]

theorem iT_bin {s : String} {cs : List ETree} (hops : OPERATORS.contains s = true)
    (hbin : BINARY_OPERATORS.contains s = true) :
    iT (.node (some s) cs) = pairsL s cs := by
  simp only [iT]
  rw [if_pos hops, if_pos hbin]

theorem iT_un {s : String} {cs : List ETree} (hops : OPERATORS.contains s = true)
    (hbin : BINARY_OPERATORS.contains s = false) :
    iT (.node (some s) cs) = .str s :: rTl cs := by
  simp only [iT]
  rw [if_pos hops, if_neg (by rw [hbin]; simp)]

theorem iT_leaf {s : String} {cs : List ETree} (hops : OPERATORS.contains s = false) :
    iT (.node (some s) cs) = [.str s] := by
  simp only [iT]
  rw [if_neg (by rw [hops]; simp)]

mutual

/-- The resolved token of a good tree parses to the normalized tree. -/
theorem parseTok_rT : ∀ t : ETree, goodT t = true → parseTok (rT t) = .ok (normT t)
  | .node none _, h => by simp [goodT] at h
  | .node (some s) cs, h => by
    cases hops : OPERATORS.contains s with
    | false =>
      obtain ⟨hb, hu⟩ := contains_op_false hops
      obtain ⟨-, hnil⟩ := goodT_node_leaf hb hu h
      subst hnil
      rw [rT_leaf hops]
      simp only [parseTok, normT, normL]
      rw [if_neg (by rw [hb]; simp)]
    | true =>
      rcases isOpStr_split (show isOpStr (some s) = true by
          simp only [isOpStr]; exact hops) with hB | hU
      · have hbin : BINARY_OPERATORS.contains s = true := by
          simpa only [isBinStr] using hB
        obtain ⟨hlen, hch⟩ := goodT_node_bin hB h
        match cs, hlen, hch with
        | [c], _, hch =>
          have hc := goodChildren_mem hch (List.mem_cons_self _ _)
          rw [rT_bin1 hops hbin]
          rw [parseTok_rT c hc.1]
          simp only [normT]
          rw [if_pos hB]
        | c1 :: c2 :: rest, _, hch =>
          rw [rT_bin2 hops hbin]
          simp only [parseTok]
          exact parseList_iT_op (.node (some s) (c1 :: c2 :: rest)) h
            (by simp only [isOpStr, ETree.token]; exact hops)
      · have hbin : BINARY_OPERATORS.contains s = false := by
          rw [isUnStr_mem hU]
          decide
        rw [rT_un hops hbin]
        simp only [parseTok]
        exact parseList_iT_op (.node (some s) cs) h
          (by simp only [isOpStr, ETree.token]; exact hops)
termination_by t _ => (sizeOf t, 1)

/-- The resolved stream of a good operator node parses to the
normalized tree. -/
theorem parseList_iT_op : ∀ t : ETree, goodT t = true → isOpStr t.token = true →
    parseList (iT t) = .ok (normT t)
  | .node none _, h, _ => by simp [goodT] at h
  | .node (some s) cs, h, hop => by
    have hops : OPERATORS.contains s = true := by
      simpa only [isOpStr, ETree.token] using hop
    rcases isOpStr_split (show isOpStr (some s) = true by
        simp only [isOpStr]; exact hops) with hB | hU
    · have hbin : BINARY_OPERATORS.contains s = true := by
        simpa only [isBinStr] using hB
      obtain ⟨hlen, hch⟩ := goodT_node_bin hB h
      match cs, hlen, hch with
      | [c], _, hch =>
        have hc := goodChildren_mem hch (List.mem_cons_self _ _)
        rw [iT_bin hops hbin]
        simp only [pairsL, pairsTl]
        rw [parseList_eq_root (parseTok_rT c hc.1) (parseRest_nil _)]
        simp only [normT]
        rw [if_pos hB]
        rfl
      | c1 :: c2 :: rest, _, hch =>
        have hc1 := goodChildren_mem hch (List.mem_cons_self _ _)
        have hc2 := goodChildren_mem hch
          (List.mem_cons.mpr (Or.inr (List.mem_cons_self _ _)))
        have hs1 := strictT_normT c1 hc1.1
        have hs2 := strictT_normT c2 hc2.1
        have hrest2 : goodChildren (some s) rest = true := by
          have hx := hch
          simp only [goodChildren, Bool.and_eq_true] at hx
          exact hx.2.2
        rw [iT_bin hops hbin]
        simp only [pairsL, pairsTl]
        have hrest : parseRest (.top (normT c1))
            (.str s :: rT c2 :: pairsTl s rest) =
            .ok (.top (.node (some s)
              ((if (normT c1).token = some s then (normT c1).children else [normT c1]) ++
                flattenB (some s) (normL (c2 :: rest))))) := by
          rw [parseRest_cons_ok (show parseTok (.str s) = .ok (.node (some s) []) by
                simp only [parseTok]) (stepParse_binop_flat hB (normT c1) hs1)]
          rw [parseRest_cons_ok (parseTok_rT c2 hc2.1)
            (stepParse_operand hB _ (strict_flat_ne hB hs1) (normT c2) hs2)]
          rw [parseRest_chainP s hB rest _
            (by
              intro hc
              have hx := List.append_eq_nil.mp hc
              exact strict_flat_ne hB hs1 hx.1)
            hrest2]
          simp only [normL, flattenB]
          rw [List.append_assoc]
        rw [parseList_eq_root (parseTok_rT c1 hc1.1) hrest]
        simp only [normT]
        rw [if_pos hB]
        simp only [PState.root, normL, flattenB]
    · have hbin : BINARY_OPERATORS.contains s = false := by
        rw [isUnStr_mem hU]
        decide
      obtain ⟨hlen, hch⟩ := goodT_node_un hU h
      match cs, hlen, hch with
      | [c], _, hch =>
        have hc := goodChildren_mem hch (List.mem_cons_self _ _)
        rw [iT_un hops hbin]
        simp only [rTl]
        have hrest : parseRest (.top (.node (some s) [])) [rT c] =
            .ok (.top (.node (some s) [normT c])) := by
          rw [parseRest_cons_ok (parseTok_rT c hc.1)
            (stepParse_un_first s hU (normT c))]
          exact parseRest_nil _
        rw [parseList_eq_root (show parseTok (.str s) = .ok (.node (some s) []) by
              simp only [parseTok]) hrest]
        simp only [normT]
        rw [if_neg (by rw [show isBinStr (some s) = false from hbin]; simp)]
        rfl
termination_by t _ _ => (sizeOf t, 0)

/-- Consuming the operator/resolved-child pairs of good children from a
binary node appends the normalized, same-token-flattened children. -/
theorem parseRest_chainP : ∀ (B : String), isBinStr (some B) = true →
    ∀ (l : List ETree) (acc : List ETree), acc ≠ [] →
    goodChildren (some B) l = true →
    parseRest (.top (.node (some B) acc)) (pairsTl B l) =
      .ok (.top (.node (some B) (acc ++ flattenB (some B) (normL l))))
  | B, hB, [], acc, _, _ => by
    simp [pairsTl, parseRest_nil, normL, flattenB]
  | B, hB, c :: rest, acc, hacc, hch => by
    have hc := goodChildren_mem hch (List.mem_cons_self _ _)
    have hsc := strictT_normT c hc.1
    have hrest : goodChildren (some B) rest = true := by
      have hx := hch
      simp only [goodChildren, Bool.and_eq_true] at hx
      exact hx.2
    simp only [pairsTl]
    rw [parseRest_cons_ok (show parseTok (.str B) = .ok (.node (some B) []) by
          simp only [parseTok]) (stepParse_bin_same B hB acc)]
    rw [parseRest_cons_ok (parseTok_rT c hc.1)
      (stepParse_operand hB acc hacc (normT c) hsc)]
    rw [parseRest_chainP B hB rest
      (acc ++ (if (normT c).token = some B then (normT c).children else [normT c]))
      (by simp [hacc]) hrest]
    simp only [normL, flattenB]
    rw [List.append_assoc]
termination_by B _ l acc _ _ => (sizeOf l, 2)

end

/-- `parse` applied to the `implied_tokens` output of a good tree's
rendered stream rebuilds exactly the normalized tree. -/
theorem parseList_iT (t : ETree) (h : goodT t = true) :
    parseList (iT t) = .ok (normT t) := by
  obtain ⟨tok, cs⟩ := t
  cases tok with
  | none => simp [goodT] at h
  | some s =>
    cases hops : OPERATORS.contains s with
    | false =>
      obtain ⟨hb, hu⟩ := contains_op_false hops
      obtain ⟨-, hnil⟩ := goodT_node_leaf hb hu h
      subst hnil
      rw [iT_leaf hops]
      rw [parseList_eq_root (show parseTok (.str s) = .ok (.node (some s) []) by
            simp only [parseTok]) (parseRest_nil _)]
      simp only [normT, normL]
      rw [if_neg (by rw [hb]; simp)]
      rfl
    | true =>
      exact parseList_iT_op (.node (some s) cs) h
        (by simp only [isOpStr, ETree.token]; exact hops)

/-! ## `implied_tokens` on the rendered stream of a good tree -/

theorem scanStep_operand {F : List Tok} {b u : Bool} {r : Tok} (hr : isOpTk r = false) :
    scanStep ⟨F, false, b, u⟩ r = ⟨F ++ [r], true, false, false⟩ := by
  simp only [scanStep]
  rw [if_neg (by rw [hr]; simp)]
  simp

theorem scanStep_binary {F : List Tok} {B : String} (hB : isBinTk (.str B) = true) :
    scanStep ⟨F, true, false, false⟩ (.str B) = ⟨F ++ [.str B], false, true, false⟩ := by
  have hop := isBinTk_isOpTk hB
  simp only [scanStep]
  rw [if_pos (by rw [hop])]
  simp [hB]

theorem scanStep_unary_clean {F : List Tok} {s : String} (hu : isUnTk (.str s) = true) :
    scanStep ⟨F, false, false, false⟩ (.str s) = ⟨F ++ [.str s], false, false, true⟩ := by
  have hop := isUnTk_isOpTk hu
  have hb := isUnTk_not_isBinTk hu
  simp only [scanStep]
  rw [if_pos (by rw [hop])]
  simp [hb]

theorem scanStep_bin_skip {F : List Tok} {B : String} (hB : isBinTk (.str B) = true) :
    scanStep ⟨F, false, false, false⟩ (.str B) = ⟨F, false, false, false⟩ := by
  have hop := isBinTk_isOpTk hB
  simp only [scanStep]
  rw [if_pos (by rw [hop])]
  simp [hB]

theorem resolveTok_str {fuel : Nat} (hfuel : 1 ≤ fuel) (s : String) :
    resolveTok fuel (.str s) = some (some (.str s)) := by
  obtain ⟨f, rfl⟩ : ∃ f, fuel = f + 1 := ⟨fuel - 1, by omega⟩
  simp only [resolveTok, impliedPair]

theorem unwrapTop_str (s : String) : unwrapTop [.str s] = [.str s] := rfl

theorem unwrapTop_cons2 (x y : Tok) (rest : List Tok) :
    unwrapTop (x :: y :: rest) = x :: y :: rest := by
  cases x <;> rfl

theorem rT_not_op : ∀ t : ETree, goodT t = true → isOpTk (rT t) = false
  | .node none _, h => by simp [goodT] at h
  | .node (some s) cs, h => by
    cases hops : OPERATORS.contains s with
    | false =>
      rw [rT_leaf hops]
      simp only [isOpTk]
      exact hops
    | true =>
      rcases isOpStr_split (show isOpStr (some s) = true by
          simp only [isOpStr]; exact hops) with hB | hU
      · have hbin : BINARY_OPERATORS.contains s = true := by
          simpa only [isBinStr] using hB
        obtain ⟨hlen, hch⟩ := goodT_node_bin hB h
        match cs, hlen, hch with
        | [c], _, hch =>
          rw [rT_bin1 hops hbin]
          exact rT_not_op c (goodChildren_mem hch (List.mem_cons_self _ _)).1
        | c1 :: c2 :: rest, _, hch =>
          rw [rT_bin2 hops hbin]
          rfl
      · have hbin : BINARY_OPERATORS.contains s = false := by
          rw [isUnStr_mem hU]
          decide
        rw [rT_un hops hbin]
        rfl

theorem impliedScanGo_nil (res : Tok → Option (Option Tok)) (st : IState) :
    impliedScanGo res [] st = some st := rfl

theorem impliedScanGo_cons_ok {res : Tok → Option (Option Tok)} {t : Tok} {rest : List Tok}
    {st : IState} {tok : Tok} (h : res t = some (some tok)) :
    impliedScanGo res (t :: rest) st = impliedScanGo res rest (scanStep st tok) := by
  simp only [impliedScanGo]
  rw [h]

theorem toksT_leaf {s : String} {cs : List ETree} (hops : OPERATORS.contains s = false) :
    toksT (.node (some s) cs) = [.str s] := by
  simp only [toksT, tokAndToks]
  rw [if_pos (by rw [hops]; rfl)]

theorem pairsTl_flatMap (B : String) : ∀ l : List ETree,
    pairsTl B l = l.flatMap (fun c => [Tok.str B, rT c])
  | [] => by simp [pairsTl]
  | c :: rest => by
    simp only [pairsTl, List.flatMap_cons]
    rw [pairsTl_flatMap B rest]
    rfl

theorem resolve_group_step {f : Nat} {g g' : List Tok} (hlen : 2 ≤ g.length)
    (himp : impliedTokens f g = some g') :
    resolveTok (f + 1) (.group g) =
      if g' = g then some (some (.group g)) else resolveTok f (.group g') := by
  match g, hlen, himp with
  | t1 :: t2 :: grest, _, himp =>
    simp only [resolveTok, impliedPair]
    show (match impliedTokens f (t1 :: t2 :: grest) with
          | none => none
          | some g2 => if g2 = t1 :: t2 :: grest
              then some (some (Tok.group (t1 :: t2 :: grest)))
              else resolveTok f (Tok.group g2)) =
        if g' = t1 :: t2 :: grest then some (some (Tok.group (t1 :: t2 :: grest)))
        else resolveTok f (Tok.group g')
    rw [himp]

theorem resolve_group_single {f : Nat} {t : Tok} :
    resolveTok (f + 1) (.group [t]) = resolveTok f t := by
  simp only [resolveTok, impliedPair]

theorem tokOf_flatMap (B : String) : ∀ l : List ETree,
    (tokList l).flatMap (fun ct => [Tok.str B, ct]) =
      l.flatMap (fun c => [Tok.str B, tokOf c]) := tokList_flatMap B

theorem impliedTokens_succ_eq {f : Nat} {ts : List Tok} {st : IState}
    (hscan : impliedScanGo (resolveTok f) (unwrapTop ts) ⟨[], false, false, false⟩ = some st)
    (hb : st.hasBinary = false) (hu : st.hasUnary = false) :
    impliedTokens (f + 1) ts = some st.final := by
  simp only [impliedTokens, impliedPair]
  show (match impliedScanGo (resolveTok f) (unwrapTop ts) ⟨[], false, false, false⟩ with
        | none => none
        | some st2 =>
          if st2.hasBinary || st2.hasUnary then
            match st2.final with
            | [] => none
            | _ => some st2.final.dropLast
          else some st2.final) = some st.final
  rw [hscan]
  show (if st.hasBinary || st.hasUnary then
          match st.final with
          | [] => none
          | _ => some st.final.dropLast
        else some st.final) = some st.final
  rw [hb, hu]
  rfl

mutual

/-- The group-resolution loop of `implied_tokens` maps the rendered
token of a good tree to its resolved token. -/
theorem resolve_tokOf : ∀ (t : ETree) (fuel : Nat), goodT t = true →
    2 * sizeOf t + 2 ≤ fuel → resolveTok fuel (tokOf t) = some (some (rT t))
  | .node none _, fuel, h, _ => by simp [goodT] at h
  | .node (some s) [], fuel, h, hfuel => by
    cases hops : OPERATORS.contains s with
    | false =>
      rw [tokOf_nonop hops, rT_leaf hops]
      exact resolveTok_str (by omega) s
    | true =>
      rcases isOpStr_split (show isOpStr (some s) = true by
          simp only [isOpStr]; exact hops) with hB | hU
      · obtain ⟨hlen, -⟩ := goodT_node_bin hB h
        simp at hlen
      · obtain ⟨hlen, -⟩ := goodT_node_un hU h
        simp at hlen
  | .node (some s) [c], fuel, h, hfuel => by
    have hsz : sizeOf (ETree.node (some s) [c]) =
        1 + (1 + sizeOf s) + (1 + sizeOf c + 1) := by simp
    cases hops : OPERATORS.contains s with
    | false =>
      obtain ⟨-, hnil⟩ :=
        goodT_node_leaf (contains_op_false hops).1 (contains_op_false hops).2 h
      exact absurd hnil (by simp)
    | true =>
      rw [tokOf_op hops]
      obtain ⟨f, rfl⟩ : ∃ f, fuel = f + 1 := ⟨fuel - 1, by omega⟩
      have himp : impliedTokens f (toksT (.node (some s) [c])) =
          some (iT (.node (some s) [c])) :=
        implied_toksT (.node (some s) [c]) f h (by omega)
      rcases isOpStr_split (show isOpStr (some s) = true by
          simp only [isOpStr]; exact hops) with hB | hU
      · have hbin : BINARY_OPERATORS.contains s = true := by
          simpa only [isBinStr] using hB
        obtain ⟨-, hch⟩ := goodT_node_bin hB h
        have hc := goodChildren_mem hch (List.mem_cons_self _ _)
        have hiT : iT (.node (some s) [c]) = [rT c] := by
          rw [iT_bin hops hbin]
          simp only [pairsL, pairsTl]
        rw [toksT_un hops, hiT] at himp
        rw [toksT_un hops]
        rw [resolve_group_step (by simp) himp]
        rw [if_neg (by simp)]
        obtain ⟨f2, rfl⟩ : ∃ f2, f = f2 + 1 := ⟨f - 1, by omega⟩
        rw [resolve_group_single]
        rw [rT_bin1 hops hbin]
        exact resolve_rT c f2 hc.1 (by omega)
      · have hbin : BINARY_OPERATORS.contains s = false := by
          rw [isUnStr_mem hU]
          decide
        have hiT : iT (.node (some s) [c]) = [.str s, rT c] := by
          rw [iT_un hops hbin]
          simp only [rTl]
        rw [toksT_un hops, hiT] at himp
        rw [toksT_un hops]
        rw [resolve_group_step (by simp) himp]
        rw [rT_un hops hbin, hiT]
        by_cases heq : ([Tok.str s, rT c] : List Tok) = [Tok.str s, tokOf c]
        · rw [if_pos heq, heq]
        · rw [if_neg heq]
          obtain ⟨f2, rfl⟩ : ∃ f2, f = f2 + 1 := ⟨f - 1, by omega⟩
          have hd : impliedTokens f2 (iT (.node (some s) [c])) =
              some (iT (.node (some s) [c])) :=
            implied_iT (.node (some s) [c]) f2 h
              (Or.inl (by simp only [ETree.token]; exact hU))
              (by omega)
          rw [hiT] at hd
          rw [resolve_group_step (by simp) hd]
          rw [if_pos rfl]
  | .node (some s) (c1 :: c2 :: rest), fuel, h, hfuel => by
    have hsz : sizeOf (ETree.node (some s) (c1 :: c2 :: rest)) =
        1 + (1 + sizeOf s) + (1 + sizeOf c1 + (1 + sizeOf c2 + sizeOf rest)) := by simp
    cases hops : OPERATORS.contains s with
    | false =>
      obtain ⟨-, hnil⟩ :=
        goodT_node_leaf (contains_op_false hops).1 (contains_op_false hops).2 h
      exact absurd hnil (by simp)
    | true =>
      rw [tokOf_op hops]
      obtain ⟨f, rfl⟩ : ∃ f, fuel = f + 1 := ⟨fuel - 1, by omega⟩
      have himp : impliedTokens f (toksT (.node (some s) (c1 :: c2 :: rest))) =
          some (iT (.node (some s) (c1 :: c2 :: rest))) :=
        implied_toksT (.node (some s) (c1 :: c2 :: rest)) f h (by omega)
      rcases isOpStr_split (show isOpStr (some s) = true by
          simp only [isOpStr]; exact hops) with hB | hU
      · have hbin : BINARY_OPERATORS.contains s = true := by
          simpa only [isBinStr] using hB
        have hiT : iT (.node (some s) (c1 :: c2 :: rest)) =
            rT c1 :: pairsTl s (c2 :: rest) := by
          rw [iT_bin hops hbin]
          simp only [pairsL]
        rw [toksT_bin hops, hiT] at himp
        rw [toksT_bin hops]
        have hlen2 : 2 ≤ (tokOf c1 ::
            (c2 :: rest).flatMap (fun d => [Tok.str s, tokOf d])).length := by
          simp only [List.flatMap_cons, List.cons_append, List.nil_append,
            List.length_cons]
          omega
        rw [resolve_group_step hlen2 himp]
        rw [rT_bin2 hops hbin, hiT]
        by_cases heq : rT c1 :: pairsTl s (c2 :: rest) =
            tokOf c1 :: (c2 :: rest).flatMap (fun d => [Tok.str s, tokOf d])
        · rw [if_pos heq, heq]
        · rw [if_neg heq]
          obtain ⟨f2, rfl⟩ : ∃ f2, f = f2 + 1 := ⟨f - 1, by omega⟩
          have hd : impliedTokens f2 (iT (.node (some s) (c1 :: c2 :: rest))) =
              some (iT (.node (some s) (c1 :: c2 :: rest))) :=
            implied_iT (.node (some s) (c1 :: c2 :: rest)) f2 h
              (Or.inr ⟨hB, by simp only [ETree.children, List.length_cons]; omega⟩)
              (by omega)
          rw [hiT] at hd
          have hlen3 : 2 ≤ (rT c1 :: pairsTl s (c2 :: rest)).length := by
            simp only [pairsTl, List.length_cons]
            omega
          rw [resolve_group_step hlen3 hd]
          rw [if_pos rfl]
      · obtain ⟨hlen, -⟩ := goodT_node_un hU h
        simp only [List.length_cons] at hlen
        omega
termination_by t fuel _ _ => (sizeOf t, 1)

/-- The group-resolution loop fixes the resolved token of a good tree. -/
theorem resolve_rT : ∀ (t : ETree) (fuel : Nat), goodT t = true →
    2 * sizeOf t + 2 ≤ fuel → resolveTok fuel (rT t) = some (some (rT t))
  | .node none _, fuel, h, _ => by simp [goodT] at h
  | .node (some s) [], fuel, h, hfuel => by
    cases hops : OPERATORS.contains s with
    | false =>
      rw [rT_leaf hops]
      exact resolveTok_str (by omega) s
    | true =>
      rcases isOpStr_split (show isOpStr (some s) = true by
          simp only [isOpStr]; exact hops) with hB | hU
      · obtain ⟨hlen, -⟩ := goodT_node_bin hB h
        simp at hlen
      · obtain ⟨hlen, -⟩ := goodT_node_un hU h
        simp at hlen
  | .node (some s) [c], fuel, h, hfuel => by
    have hsz : sizeOf (ETree.node (some s) [c]) =
        1 + (1 + sizeOf s) + (1 + sizeOf c + 1) := by simp
    cases hops : OPERATORS.contains s with
    | false =>
      rw [rT_leaf hops]
      exact resolveTok_str (by omega) s
    | true =>
      rcases isOpStr_split (show isOpStr (some s) = true by
          simp only [isOpStr]; exact hops) with hB | hU
      · have hbin : BINARY_OPERATORS.contains s = true := by
          simpa only [isBinStr] using hB
        obtain ⟨-, hch⟩ := goodT_node_bin hB h
        have hc := goodChildren_mem hch (List.mem_cons_self _ _)
        rw [rT_bin1 hops hbin]
        exact resolve_rT c fuel hc.1 (by omega)
      · have hbin : BINARY_OPERATORS.contains s = false := by
          rw [isUnStr_mem hU]
          decide
        have hiT : iT (.node (some s) [c]) = [.str s, rT c] := by
          rw [iT_un hops hbin]
          simp only [rTl]
        rw [rT_un hops hbin, hiT]
        obtain ⟨f, rfl⟩ : ∃ f, fuel = f + 1 := ⟨fuel - 1, by omega⟩
        have hd : impliedTokens f (iT (.node (some s) [c])) =
            some (iT (.node (some s) [c])) :=
          implied_iT (.node (some s) [c]) f h
            (Or.inl (by simp only [ETree.token]; exact hU))
            (by omega)
        rw [hiT] at hd
        rw [resolve_group_step (by simp) hd]
        rw [if_pos rfl]
  | .node (some s) (c1 :: c2 :: rest), fuel, h, hfuel => by
    have hsz : sizeOf (ETree.node (some s) (c1 :: c2 :: rest)) =
        1 + (1 + sizeOf s) + (1 + sizeOf c1 + (1 + sizeOf c2 + sizeOf rest)) := by simp
    cases hops : OPERATORS.contains s with
    | false =>
      rw [rT_leaf hops]
      exact resolveTok_str (by omega) s
    | true =>
      rcases isOpStr_split (show isOpStr (some s) = true by
          simp only [isOpStr]; exact hops) with hB | hU
      · have hbin : BINARY_OPERATORS.contains s = true := by
          simpa only [isBinStr] using hB
        have hiT : iT (.node (some s) (c1 :: c2 :: rest)) =
            rT c1 :: pairsTl s (c2 :: rest) := by
          rw [iT_bin hops hbin]
          simp only [pairsL]
        rw [rT_bin2 hops hbin, hiT]
        obtain ⟨f, rfl⟩ : ∃ f, fuel = f + 1 := ⟨fuel - 1, by omega⟩
        have hd : impliedTokens f (iT (.node (some s) (c1 :: c2 :: rest))) =
            some (iT (.node (some s) (c1 :: c2 :: rest))) :=
          implied_iT (.node (some s) (c1 :: c2 :: rest)) f h
            (Or.inr ⟨hB, by simp only [ETree.children, List.length_cons]; omega⟩)
            (by omega)
        rw [hiT] at hd
        have hlen3 : 2 ≤ (rT c1 :: pairsTl s (c2 :: rest)).length := by
          simp only [pairsTl, List.length_cons]
          omega
        rw [resolve_group_step hlen3 hd]
        rw [if_pos rfl]
      · obtain ⟨hlen, -⟩ := goodT_node_un hU h
        simp only [List.length_cons] at hlen
        omega
termination_by t fuel _ _ => (sizeOf t, 2)

/-- `implied_tokens` on the rendered stream of a good tree yields the
resolved stream. -/
theorem implied_toksT : ∀ (t : ETree) (fuel : Nat), goodT t = true →
    2 * sizeOf t ≤ fuel → impliedTokens fuel (toksT t) = some (iT t)
  | .node none _, fuel, h, _ => by simp [goodT] at h
  | .node (some s) [], fuel, h, hfuel => by
    have hsz : sizeOf (ETree.node (some s) ([] : List ETree)) =
        1 + (1 + sizeOf s) + 1 := by simp
    obtain ⟨f, rfl⟩ : ∃ f, fuel = f + 1 := ⟨fuel - 1, by omega⟩
    cases hops : OPERATORS.contains s with
    | false =>
      rw [toksT_leaf hops, iT_leaf hops]
      have hscan : impliedScanGo (resolveTok f) (unwrapTop [Tok.str s])
          ⟨[], false, false, false⟩ =
          some ⟨[] ++ [Tok.str s], true, false, false⟩ := by
        rw [unwrapTop_str]
        rw [impliedScanGo_cons_ok (resolveTok_str (by omega) s)]
        rw [scanStep_operand (by simp only [isOpTk]; exact hops)]
        exact impliedScanGo_nil _ _
      rw [impliedTokens_succ_eq hscan rfl rfl]
      simp
    | true =>
      rcases isOpStr_split (show isOpStr (some s) = true by
          simp only [isOpStr]; exact hops) with hB | hU
      · obtain ⟨hlen, -⟩ := goodT_node_bin hB h
        simp at hlen
      · obtain ⟨hlen, -⟩ := goodT_node_un hU h
        simp at hlen
  | .node (some s) [c], fuel, h, hfuel => by
    have hsz : sizeOf (ETree.node (some s) [c]) =
        1 + (1 + sizeOf s) + (1 + sizeOf c + 1) := by simp
    obtain ⟨f, rfl⟩ : ∃ f, fuel = f + 1 := ⟨fuel - 1, by omega⟩
    cases hops : OPERATORS.contains s with
    | false =>
      obtain ⟨-, hnil⟩ :=
        goodT_node_leaf (contains_op_false hops).1 (contains_op_false hops).2 h
      exact absurd hnil (by simp)
    | true =>
      rcases isOpStr_split (show isOpStr (some s) = true by
          simp only [isOpStr]; exact hops) with hB | hU
      · have hbin : BINARY_OPERATORS.contains s = true := by
          simpa only [isBinStr] using hB
        obtain ⟨-, hch⟩ := goodT_node_bin hB h
        have hc := goodChildren_mem hch (List.mem_cons_self _ _)
        rw [toksT_un hops, iT_bin hops hbin]
        simp only [pairsL, pairsTl]
        have hscan : impliedScanGo (resolveTok f) (unwrapTop [Tok.str s, tokOf c])
            ⟨[], false, false, false⟩ =
            some ⟨[] ++ [rT c], true, false, false⟩ := by
          rw [unwrapTop_cons2]
          rw [impliedScanGo_cons_ok (resolveTok_str (by omega) s)]
          rw [scanStep_bin_skip (show isBinTk (.str s) = true by
                simp only [isBinTk]; exact hbin)]
          rw [impliedScanGo_cons_ok (resolve_tokOf c f hc.1 (by omega))]
          rw [scanStep_operand (rT_not_op c hc.1)]
          exact impliedScanGo_nil _ _
        rw [impliedTokens_succ_eq hscan rfl rfl]
        simp
      · have hbin : BINARY_OPERATORS.contains s = false := by
          rw [isUnStr_mem hU]
          decide
        obtain ⟨-, hch⟩ := goodT_node_un hU h
        have hc := goodChildren_mem hch (List.mem_cons_self _ _)
        rw [toksT_un hops, iT_un hops hbin]
        simp only [rTl]
        have hscan : impliedScanGo (resolveTok f) (unwrapTop [Tok.str s, tokOf c])
            ⟨[], false, false, false⟩ =
            some ⟨([] ++ [Tok.str s]) ++ [rT c], true, false, false⟩ := by
          rw [unwrapTop_cons2]
          rw [impliedScanGo_cons_ok (resolveTok_str (by omega) s)]
          rw [scanStep_unary_clean (show isUnTk (.str s) = true by
                simp only [isUnTk]; rw [isUnStr_mem hU]; decide)]
          rw [impliedScanGo_cons_ok (resolve_tokOf c f hc.1 (by omega))]
          rw [scanStep_operand (rT_not_op c hc.1)]
          exact impliedScanGo_nil _ _
        rw [impliedTokens_succ_eq hscan rfl rfl]
        simp
  | .node (some s) (c1 :: c2 :: rest), fuel, h, hfuel => by
    have hsz : sizeOf (ETree.node (some s) (c1 :: c2 :: rest)) =
        1 + (1 + sizeOf s) + (1 + sizeOf c1 + (1 + sizeOf c2 + sizeOf rest)) := by simp
    have hszc2 : sizeOf (c2 :: rest : List ETree) = 1 + sizeOf c2 + sizeOf rest := by simp
    obtain ⟨f, rfl⟩ : ∃ f, fuel = f + 1 := ⟨fuel - 1, by omega⟩
    cases hops : OPERATORS.contains s with
    | false =>
      obtain ⟨-, hnil⟩ :=
        goodT_node_leaf (contains_op_false hops).1 (contains_op_false hops).2 h
      exact absurd hnil (by simp)
    | true =>
      rcases isOpStr_split (show isOpStr (some s) = true by
          simp only [isOpStr]; exact hops) with hB | hU
      · have hbin : BINARY_OPERATORS.contains s = true := by
          simpa only [isBinStr] using hB
        obtain ⟨-, hch⟩ := goodT_node_bin hB h
        have hc1 := goodChildren_mem hch (List.mem_cons_self _ _)
        have hrest2 : goodChildren (some s) (c2 :: rest) = true := by
          have hx := hch
          simp only [goodChildren, Bool.and_eq_true] at hx
          simp only [goodChildren, Bool.and_eq_true]
          exact ⟨hx.2.1, hx.2.2⟩
        rw [toksT_bin hops, iT_bin hops hbin]
        simp only [pairsL]
        have hscan : impliedScanGo (resolveTok f)
            (unwrapTop (tokOf c1 :: (c2 :: rest).flatMap (fun d => [Tok.str s, tokOf d])))
            ⟨[], false, false, false⟩ =
            some ⟨([] ++ [rT c1]) ++
              (c2 :: rest).flatMap (fun d => [Tok.str s, rT d]), true, false, false⟩ := by
          rw [show unwrapTop (tokOf c1 ::
                (c2 :: rest).flatMap (fun d => [Tok.str s, tokOf d])) =
              tokOf c1 :: (c2 :: rest).flatMap (fun d => [Tok.str s, tokOf d]) by
            simp only [List.flatMap_cons, List.cons_append, List.nil_append]
            exact unwrapTop_cons2 _ _ _]
          rw [impliedScanGo_cons_ok (resolve_tokOf c1 f hc1.1 (by omega))]
          rw [scanStep_operand (rT_not_op c1 hc1.1)]
          exact scan_pairs_tokOf (c2 :: rest) (some s) s ([] ++ [rT c1]) f hrest2
            (show isBinTk (.str s) = true by simp only [isBinTk]; exact hbin)
            (by omega)
        rw [impliedTokens_succ_eq hscan rfl rfl]
        rw [pairsTl_flatMap]
        simp
      · obtain ⟨hlen, -⟩ := goodT_node_un hU h
        simp only [List.length_cons] at hlen
        omega
termination_by t fuel _ _ => (sizeOf t, 0)

/-- `implied_tokens` fixes the resolved stream of a good unary or
multi-child binary tree. -/
theorem implied_iT : ∀ (t : ETree) (fuel : Nat), goodT t = true →
    (isUnStr t.token = true ∨ (isBinStr t.token = true ∧ 2 ≤ t.children.length)) →
    2 * sizeOf t ≤ fuel → impliedTokens fuel (iT t) = some (iT t)
  | .node none _, fuel, h, _, _ => by simp [goodT] at h
  | .node (some s) [], fuel, h, hshape, hfuel => by
    rcases hshape with hU | ⟨hB, hlen⟩
    · have hU' : isUnStr (some s) = true := by simpa [ETree.token] using hU
      obtain ⟨hlen, -⟩ := goodT_node_un hU' h
      simp at hlen
    · simp only [ETree.children] at hlen
      simp at hlen
  | .node (some s) [c], fuel, h, hshape, hfuel => by
    have hsz : sizeOf (ETree.node (some s) [c]) =
        1 + (1 + sizeOf s) + (1 + sizeOf c + 1) := by simp
    obtain ⟨f, rfl⟩ : ∃ f, fuel = f + 1 := ⟨fuel - 1, by omega⟩
    rcases hshape with hU | ⟨hB, hlen⟩
    · have hU' : isUnStr (some s) = true := by simpa [ETree.token] using hU
      have hops : OPERATORS.contains s = true := by
        have hx := isOpStr_of_isUnStr hU'
        simpa only [isOpStr] using hx
      have hbin : BINARY_OPERATORS.contains s = false := by
        rw [isUnStr_mem hU']
        decide
      obtain ⟨-, hch⟩ := goodT_node_un hU' h
      have hc := goodChildren_mem hch (List.mem_cons_self _ _)
      rw [iT_un hops hbin]
      simp only [rTl]
      have hscan : impliedScanGo (resolveTok f) (unwrapTop [Tok.str s, rT c])
          ⟨[], false, false, false⟩ =
          some ⟨([] ++ [Tok.str s]) ++ [rT c], true, false, false⟩ := by
        rw [unwrapTop_cons2]
        rw [impliedScanGo_cons_ok (resolveTok_str (by omega) s)]
        rw [scanStep_unary_clean (show isUnTk (.str s) = true by
              simp only [isUnTk]; rw [isUnStr_mem hU']; decide)]
        rw [impliedScanGo_cons_ok (resolve_rT c f hc.1 (by omega))]
        rw [scanStep_operand (rT_not_op c hc.1)]
        exact impliedScanGo_nil _ _
      rw [impliedTokens_succ_eq hscan rfl rfl]
      simp
    · simp only [ETree.children, List.length_cons, List.length_nil] at hlen
      omega
  | .node (some s) (c1 :: c2 :: rest), fuel, h, hshape, hfuel => by
    have hsz : sizeOf (ETree.node (some s) (c1 :: c2 :: rest)) =
        1 + (1 + sizeOf s) + (1 + sizeOf c1 + (1 + sizeOf c2 + sizeOf rest)) := by simp
    have hszc2 : sizeOf (c2 :: rest : List ETree) = 1 + sizeOf c2 + sizeOf rest := by simp
    obtain ⟨f, rfl⟩ : ∃ f, fuel = f + 1 := ⟨fuel - 1, by omega⟩
    rcases hshape with hU | ⟨hB, hlen⟩
    · have hU' : isUnStr (some s) = true := by simpa [ETree.token] using hU
      obtain ⟨hlen, -⟩ := goodT_node_un hU' h
      simp only [List.length_cons] at hlen
      omega
    · have hB' : isBinStr (some s) = true := by simpa [ETree.token] using hB
      have hbin : BINARY_OPERATORS.contains s = true := by
        simpa only [isBinStr] using hB'
      have hops : OPERATORS.contains s = true := by
        have hx := isOpStr_of_isBinStr hB'
        simpa only [isOpStr] using hx
      obtain ⟨-, hch⟩ := goodT_node_bin hB' h
      have hc1 := goodChildren_mem hch (List.mem_cons_self _ _)
      have hrest2 : goodChildren (some s) (c2 :: rest) = true := by
        have hx := hch
        simp only [goodChildren, Bool.and_eq_true] at hx
        simp only [goodChildren, Bool.and_eq_true]
        exact ⟨hx.2.1, hx.2.2⟩
      rw [iT_bin hops hbin]
      simp only [pairsL]
      have hscan : impliedScanGo (resolveTok f)
          (unwrapTop (rT c1 :: pairsTl s (c2 :: rest)))
          ⟨[], false, false, false⟩ =
          some ⟨([] ++ [rT c1]) ++ pairsTl s (c2 :: rest), true, false, false⟩ := by
        rw [show unwrapTop (rT c1 :: pairsTl s (c2 :: rest)) =
              rT c1 :: pairsTl s (c2 :: rest) by
          simp only [pairsTl]
          exact unwrapTop_cons2 _ _ _]
        rw [impliedScanGo_cons_ok (resolve_rT c1 f hc1.1 (by omega))]
        rw [scanStep_operand (rT_not_op c1 hc1.1)]
        exact scan_pairs_rT (c2 :: rest) (some s) s ([] ++ [rT c1]) f hrest2
          (show isBinTk (.str s) = true by simp only [isBinTk]; exact hbin)
          (by omega)
      rw [impliedTokens_succ_eq hscan rfl rfl]
      simp
termination_by t fuel _ _ _ => (sizeOf t, 0)


/-- Scanning the operator/rendered-child pairs of good children from an
operand state appends the operator/resolved-child pairs. -/
theorem scan_pairs_tokOf : ∀ (l : List ETree) (banned : Option String) (B : String)
    (F : List Tok) (fuel : Nat), goodChildren banned l = true →
    isBinTk (.str B) = true → 2 * sizeOf l ≤ fuel →
    impliedScanGo (resolveTok fuel) (l.flatMap (fun c => [Tok.str B, tokOf c]))
        ⟨F, true, false, false⟩ =
      some ⟨F ++ l.flatMap (fun c => [Tok.str B, rT c]), true, false, false⟩
  | [], _, B, F, fuel, _, _, _ => by
    simp only [List.flatMap_nil, List.append_nil]
    exact impliedScanGo_nil _ _
  | c :: rest, banned, B, F, fuel, hch, hB, hfuel => by
    have hc := goodChildren_mem hch (List.mem_cons_self _ _)
    have hrest : goodChildren banned rest = true := by
      have hx := hch
      simp only [goodChildren, Bool.and_eq_true] at hx
      exact hx.2
    have hszc : sizeOf (c :: rest : List ETree) = 1 + sizeOf c + sizeOf rest := by simp
    simp only [List.flatMap_cons, List.cons_append, List.nil_append]
    rw [impliedScanGo_cons_ok (resolveTok_str (by omega) B)]
    rw [scanStep_binary hB]
    rw [impliedScanGo_cons_ok (resolve_tokOf c fuel hc.1 (by omega))]
    rw [scanStep_operand (rT_not_op c hc.1)]
    rw [scan_pairs_tokOf rest banned B (F ++ [Tok.str B] ++ [rT c]) fuel hrest hB (by omega)]
    simp
termination_by l _ _ _ fuel _ _ _ => (sizeOf l, 3)

/-- Scanning the operator/resolved-child pairs of good children from an
operand state leaves them unchanged. -/
theorem scan_pairs_rT : ∀ (l : List ETree) (banned : Option String) (B : String)
    (F : List Tok) (fuel : Nat), goodChildren banned l = true →
    isBinTk (.str B) = true → 2 * sizeOf l ≤ fuel →
    impliedScanGo (resolveTok fuel) (pairsTl B l) ⟨F, true, false, false⟩ =
      some ⟨F ++ pairsTl B l, true, false, false⟩
  | [], _, B, F, fuel, _, _, _ => by
    simp only [pairsTl, List.append_nil]
    exact impliedScanGo_nil _ _
  | c :: rest, banned, B, F, fuel, hch, hB, hfuel => by
    have hc := goodChildren_mem hch (List.mem_cons_self _ _)
    have hrest : goodChildren banned rest = true := by
      have hx := hch
      simp only [goodChildren, Bool.and_eq_true] at hx
      exact hx.2
    have hszc : sizeOf (c :: rest : List ETree) = 1 + sizeOf c + sizeOf rest := by simp
    simp only [pairsTl]
    rw [impliedScanGo_cons_ok (resolveTok_str (by omega) B)]
    rw [scanStep_binary hB]
    rw [impliedScanGo_cons_ok (resolve_rT c fuel hc.1 (by omega))]
    rw [scanStep_operand (rT_not_op c hc.1)]
    rw [scan_pairs_rT rest banned B (F ++ [Tok.str B] ++ [rT c]) fuel hrest hB (by omega)]
    simp
termination_by l _ _ _ fuel _ _ _ => (sizeOf l, 3)

end

/-! ## `order_operations` fixes the resolved stream -/

theorem precOf_nonop_str {s : String} (hops : OPERATORS.contains s = false) :
    precOf (.str s) = none := by
  cases hp : precOf (.str s) with
  | none => rfl
  | some p =>
    rcases precOf_str_class hp with h1 | h1 | h1 | h1 <;> subst h1 <;>
      exact absurd hops (by decide)

theorem precOf_of_not_op {tk : Tok} (h : isOpTk tk = false) : precOf tk = none := by
  cases tk with
  | group g => exact precOf_group g
  | str s => exact precOf_nonop_str (by simpa [isOpTk] using h)

theorem etree_sizeOf_ge : ∀ c : ETree, 3 ≤ sizeOf c
  | .node tok cs => by
    have h1 : sizeOf (ETree.node tok cs) = 1 + sizeOf tok + sizeOf cs := by simp
    have h2 : 1 ≤ sizeOf tok := by cases tok <;> simp <;> omega
    have h3 : 1 ≤ sizeOf cs := by cases cs <;> simp <;> omega
    omega

theorem elist_sizeOf_ge : ∀ l : List ETree, 2 * l.length + 1 ≤ sizeOf l
  | [] => by simp
  | c :: rest => by
    have h1 := elist_sizeOf_ge rest
    have h2 := etree_sizeOf_ge c
    have h3 : sizeOf (c :: rest) = 1 + sizeOf c + sizeOf rest := by simp
    simp only [List.length_cons]
    omega

theorem pairsTl_length (B : String) : ∀ l : List ETree,
    (pairsTl B l).length = 2 * l.length
  | [] => by simp [pairsTl]
  | c :: rest => by
    simp only [pairsTl, List.length_cons, pairsTl_length B rest]
    omega

theorem pairsTl_get_even (B : String) : ∀ (l : List ETree) (k : Nat),
    2 * k < (pairsTl B l).length → (pairsTl B l).get? (2 * k) = some (.str B)
  | [], k, h => by simp [pairsTl] at h
  | c :: rest, 0, _ => by simp [pairsTl]
  | c :: rest, k + 1, h => by
    simp only [pairsTl]
    rw [show 2 * (k + 1) = 2 * k + 1 + 1 from by ring]
    simp only [List.get?_cons_succ]
    exact pairsTl_get_even B rest k (by
      simp only [pairsTl, List.length_cons] at h
      omega)

theorem pairsTl_get_odd (B : String) : ∀ (l : List ETree) (k : Nat),
    2 * k + 1 < (pairsTl B l).length →
    ∃ c, c ∈ l ∧ (pairsTl B l).get? (2 * k + 1) = some (rT c)
  | [], k, h => by simp [pairsTl] at h
  | c :: rest, 0, _ => ⟨c, by simp, by simp [pairsTl]⟩
  | c :: rest, k + 1, h => by
    obtain ⟨c', hm, hg⟩ := pairsTl_get_odd B rest k (by
      simp only [pairsTl, List.length_cons] at h
      omega)
    refine ⟨c', by simp [hm], ?_⟩
    simp only [pairsTl]
    rw [show 2 * (k + 1) + 1 = 2 * k + 1 + 1 + 1 from by ring]
    simp only [List.get?_cons_succ]
    exact hg

theorem orderRecGo_nil (f : List Tok → Option (List Tok)) : orderRecGo f [] = some [] := rfl

theorem orderRecGo_cons_str {f : List Tok → Option (List Tok)} {s : String}
    {rest out : List Tok} (h : orderRecGo f rest = some out) :
    orderRecGo f (.str s :: rest) = some (.str s :: out) := by
  simp only [orderRecGo]
  rw [h]

theorem orderRecGo_cons_group {f : List Tok → Option (List Tok)} {g g' : List Tok}
    {rest out : List Tok} (hg : f g = some g') (h : orderRecGo f rest = some out) :
    orderRecGo f (.group g :: rest) = some (.group g' :: out) := by
  simp only [orderRecGo]
  rw [hg]
  show (match orderRecGo f rest with
        | none => none
        | some rest' => some (Tok.group g' :: rest')) = some (Tok.group g' :: out)
  rw [h]

theorem orderOps_succ_eq {f : Nat} {ts ts1 : List Tok}
    (hrec : orderRecGo (orderOperations f) ts = some ts1) :
    orderOperations (f + 1) ts =
      if ts1.length < 5 then some ts1
      else orderLoop (f + 1) ⟨ts1, 0, none, none, []⟩ := by
  simp only [orderOperations]
  rw [hrec]

theorem seExpr_eq_prec {L : List Tok} {idx : Int} {p : Nat} {tk : Tok}
    (hun : isUnTk tk = false) :
    ∀ (stack : List Nat), (∀ q ∈ stack, q = p) →
    seExpr ⟨L, idx, none, none, stack⟩ p tk = (none, none)
  | [], _ => by
    simp only [seExpr]
    rw [if_neg (by rw [hun]; simp)]
    rw [if_neg (by simp)]
  | q :: rest, hq => by
    have hqp : q = p := hq q (by simp)
    subst hqp
    simp only [seExpr]
    rw [if_neg (by rw [hun]; simp)]
    rw [if_pos (by simp only [List.length_cons]; omega)]
    simp only [List.head?_cons]
    rw [if_neg (by omega), if_neg (by omega)]

theorem orderLoop_uniform : ∀ (fuel : Nat) (L : List Tok) (p : Nat) (j : Nat),
    (∀ i, 2 * i < L.length → ∃ tk, L.get? (2 * i) = some tk ∧ precOf tk = none) →
    (∀ i, 2 * i + 1 < L.length → ∃ tk, L.get? (2 * i + 1) = some tk ∧
      precOf tk = some p ∧ isUnTk tk = false) →
    L.length % 2 = 1 → 2 * j ≤ L.length → L.length + 1 ≤ fuel + 2 * j →
    orderLoop fuel ⟨L, ((2 * j : Nat) : Int), none, none, List.replicate j p⟩ = some L
  | 0, L, p, j, _, _, hpar, hj, hfuel => by omega
  | fuel + 1, L, p, j, heven, hodd, hpar, hj, hfuel => by
    have hjlt : 2 * j < L.length := by omega
    obtain ⟨tk, hget, hprec⟩ := heven j hjlt
    have hgetW : pyGetWrap L ((2 * j : Nat) : Int) = some tk := by
      rw [pyGetWrap_eq_get? (by omega) (by exact_mod_cast hjlt)]
      rw [show ((2 * j : Nat) : Int).toNat = 2 * j from by omega]
      exact hget
    rw [orderLoop_step_opnd (show ¬ ((2 * j : Nat) : Int) ≥ (L.length : Int) by
        simp only [ge_iff_le, not_le]
        exact_mod_cast hjlt) hgetW hprec]
    by_cases hend : 2 * j + 1 = L.length
    · obtain ⟨f2, rfl⟩ : ∃ f2, fuel = f2 + 1 := ⟨fuel - 1, by omega⟩
      rw [orderLoop_step_exit (show ((2 * j : Nat) : Int) + 1 ≥ (L.length : Int) by omega)]
      simp [orderFinish]
    · have hjlt2 : 2 * j + 1 < L.length := by omega
      obtain ⟨tk2, hget2, hprec2, hun2⟩ := hodd j hjlt2
      obtain ⟨f2, rfl⟩ : ∃ f2, fuel = f2 + 1 := ⟨fuel - 1, by omega⟩
      have hgetW2 : pyGetWrap L (((2 * j : Nat) : Int) + 1) = some tk2 := by
        rw [pyGetWrap_eq_get? (by omega) (by
          show ((2 * j : Nat) : Int) + 1 < (L.length : Int)
          omega)]
        rw [show (((2 * j : Nat) : Int) + 1).toNat = 2 * j + 1 from by omega]
        exact hget2
      rw [orderLoop_step_adv (show ¬ ((2 * j : Nat) : Int) + 1 ≥ (L.length : Int) by
          simp only [ge_iff_le, not_le]
          omega) hgetW2 hprec2
        (seExpr_eq_prec hun2 (List.replicate j p) (fun q hq => List.eq_of_mem_replicate hq))
        (Or.inl rfl)]
      rw [show (⟨L, ((2 * j : Nat) : Int) + 1 + 1, none, none,
            p :: List.replicate j p⟩ : OSt) =
          ⟨L, ((2 * (j + 1) : Nat) : Int), none, none, List.replicate (j + 1) p⟩ by
        simp only [OSt.mk.injEq, true_and, and_true]
        exact ⟨by omega, (List.replicate_succ p j).symm⟩]
      exact orderLoop_uniform f2 L p (j + 1) heven hodd hpar (by omega) (by omega)
termination_by fuel _ _ _ _ _ _ _ _ => fuel

mutual

/-- `order_operations` fixes the resolved stream of a good tree: the
precedence scan only ever sees a single operator at one precedence
level, so no slice is ever collapsed. -/
theorem order_iT : ∀ (t : ETree) (fuel : Nat), goodT t = true → sizeOf t ≤ fuel →
    orderOperations fuel (iT t) = some (iT t)
  | .node none _, fuel, h, _ => by simp [goodT] at h
  | .node (some s) [], fuel, h, hfuel => by
    have hsz : sizeOf (ETree.node (some s) ([] : List ETree)) =
        1 + (1 + sizeOf s) + 1 := by simp
    obtain ⟨f, rfl⟩ : ∃ f, fuel = f + 1 := ⟨fuel - 1, by omega⟩
    cases hops : OPERATORS.contains s with
    | false =>
      rw [iT_leaf hops]
      rw [orderOps_succ_eq (orderRecGo_cons_str (orderRecGo_nil _))]
      rw [if_pos (by simp)]
    | true =>
      rcases isOpStr_split (show isOpStr (some s) = true by
          simp only [isOpStr]; exact hops) with hB | hU
      · obtain ⟨hlen, -⟩ := goodT_node_bin hB h
        simp at hlen
      · obtain ⟨hlen, -⟩ := goodT_node_un hU h
        simp at hlen
  | .node (some s) [c], fuel, h, hfuel => by
    have hsz : sizeOf (ETree.node (some s) [c]) =
        1 + (1 + sizeOf s) + (1 + sizeOf c + 1) := by simp
    obtain ⟨f, rfl⟩ : ∃ f, fuel = f + 1 := ⟨fuel - 1, by omega⟩
    cases hops : OPERATORS.contains s with
    | false =>
      obtain ⟨-, hnil⟩ :=
        goodT_node_leaf (contains_op_false hops).1 (contains_op_false hops).2 h
      exact absurd hnil (by simp)
    | true =>
      rcases isOpStr_split (show isOpStr (some s) = true by
          simp only [isOpStr]; exact hops) with hB | hU
      · have hbin : BINARY_OPERATORS.contains s = true := by
          simpa only [isBinStr] using hB
        obtain ⟨-, hch⟩ := goodT_node_bin hB h
        have hc := goodChildren_mem hch (List.mem_cons_self _ _)
        rw [iT_bin hops hbin]
        simp only [pairsL, pairsTl]
        rw [orderOps_succ_eq (orderRec_rT c f [] [] hc.1 (by omega) (orderRecGo_nil _))]
        rw [if_pos (by simp)]
      · have hbin : BINARY_OPERATORS.contains s = false := by
          rw [isUnStr_mem hU]
          decide
        obtain ⟨-, hch⟩ := goodT_node_un hU h
        have hc := goodChildren_mem hch (List.mem_cons_self _ _)
        rw [iT_un hops hbin]
        simp only [rTl]
        rw [orderOps_succ_eq (orderRecGo_cons_str
          (orderRec_rT c f [] [] hc.1 (by omega) (orderRecGo_nil _)))]
        rw [if_pos (by simp)]
  | .node (some s) (c1 :: c2 :: rest), fuel, h, hfuel => by
    have hsz : sizeOf (ETree.node (some s) (c1 :: c2 :: rest)) =
        1 + (1 + sizeOf s) + (1 + sizeOf c1 + (1 + sizeOf c2 + sizeOf rest)) := by simp
    have hszc2 : sizeOf (c2 :: rest : List ETree) = 1 + sizeOf c2 + sizeOf rest := by simp
    obtain ⟨f, rfl⟩ : ∃ f, fuel = f + 1 := ⟨fuel - 1, by omega⟩
    cases hops : OPERATORS.contains s with
    | false =>
      obtain ⟨-, hnil⟩ :=
        goodT_node_leaf (contains_op_false hops).1 (contains_op_false hops).2 h
      exact absurd hnil (by simp)
    | true =>
      rcases isOpStr_split (show isOpStr (some s) = true by
          simp only [isOpStr]; exact hops) with hB | hU
      · have hbin : BINARY_OPERATORS.contains s = true := by
          simpa only [isBinStr] using hB
        obtain ⟨-, hch⟩ := goodT_node_bin hB h
        have hc1 := goodChildren_mem hch (List.mem_cons_self _ _)
        have hrest2 : goodChildren (some s) (c2 :: rest) = true := by
          have hx := hch
          simp only [goodChildren, Bool.and_eq_true] at hx
          simp only [goodChildren, Bool.and_eq_true]
          exact ⟨hx.2.1, hx.2.2⟩
        rw [iT_bin hops hbin]
        simp only [pairsL]
        have hrecP := orderRec_pairs (c2 :: rest) (some s) s f [] [] hrest2
          (by omega) (orderRecGo_nil _)
        rw [List.append_nil] at hrecP
        rw [orderOps_succ_eq (orderRec_rT c1 f _ _ hc1.1 (by omega) hrecP)]
        cases rest with
        | nil =>
          rw [if_pos (by simp [pairsTl])]
        | cons c3 rest2 =>
          rw [if_neg (by
            simp only [List.length_cons, pairsTl_length, not_lt]
            omega)]
          obtain ⟨p, hp⟩ : ∃ p, precOf (.str s) = some p := by
            rcases isBinStr_mem hB with h1 | h1 | h1 <;> subst h1
            · exact ⟨1, by decide⟩
            · exact ⟨3, by decide⟩
            · exact ⟨2, by decide⟩
          have hbtk : isBinTk (.str s) = true := by
            simp only [isBinTk]
            exact hbin
          have heven : ∀ i, 2 * i < (rT c1 :: pairsTl s (c2 :: c3 :: rest2)).length →
              ∃ tk, (rT c1 :: pairsTl s (c2 :: c3 :: rest2)).get? (2 * i) = some tk ∧
                precOf tk = none := by
            intro i hi
            cases i with
            | zero =>
              exact ⟨rT c1, rfl, precOf_of_not_op (rT_not_op c1 hc1.1)⟩
            | succ i' =>
              obtain ⟨c', hm, hg⟩ := pairsTl_get_odd s (c2 :: c3 :: rest2) i' (by
                simp only [List.length_cons] at hi
                omega)
              refine ⟨rT c', ?_, precOf_of_not_op (rT_not_op c'
                (goodChildren_mem hrest2 hm).1)⟩
              rw [show 2 * (i' + 1) = 2 * i' + 1 + 1 from by ring]
              simp only [List.get?_cons_succ]
              exact hg
          have hodd : ∀ i, 2 * i + 1 < (rT c1 :: pairsTl s (c2 :: c3 :: rest2)).length →
              ∃ tk, (rT c1 :: pairsTl s (c2 :: c3 :: rest2)).get? (2 * i + 1) = some tk ∧
                precOf tk = some p ∧ isUnTk tk = false := by
            intro i hi
            refine ⟨.str s, ?_, hp, isBinTk_not_isUnTk hbtk⟩
            simp only [List.get?_cons_succ]
            exact pairsTl_get_even s (c2 :: c3 :: rest2) i (by
              simp only [List.length_cons] at hi
              omega)
          have hpar : (rT c1 :: pairsTl s (c2 :: c3 :: rest2)).length % 2 = 1 := by
            simp only [List.length_cons, pairsTl_length]
            omega
          have hszr := elist_sizeOf_ge (c2 :: c3 :: rest2 : List ETree)
          have hunif := orderLoop_uniform (f + 1)
            (rT c1 :: pairsTl s (c2 :: c3 :: rest2)) p 0 heven hodd hpar
            (by omega)
            (by
              simp only [List.length_cons, pairsTl_length]
              simp only [List.length_cons] at hszr
              omega)
          simpa using hunif
      · obtain ⟨hlen, -⟩ := goodT_node_un hU h
        simp only [List.length_cons] at hlen
        omega
termination_by t fuel _ _ => (sizeOf t, 0)

/-- `orderRecGo` leaves a resolved token in place. -/
theorem orderRec_rT : ∀ (c : ETree) (fuel : Nat) (rest out : List Tok), goodT c = true →
    sizeOf c ≤ fuel → orderRecGo (orderOperations fuel) rest = some out →
    orderRecGo (orderOperations fuel) (rT c :: rest) = some (rT c :: out)
  | .node none _, fuel, rest, out, h, _, _ => by simp [goodT] at h
  | .node (some s) [], fuel, rest, out, h, hfuel, hrest => by
    cases hops : OPERATORS.contains s with
    | false =>
      rw [rT_leaf hops]
      exact orderRecGo_cons_str hrest
    | true =>
      rcases isOpStr_split (show isOpStr (some s) = true by
          simp only [isOpStr]; exact hops) with hB | hU
      · obtain ⟨hlen, -⟩ := goodT_node_bin hB h
        simp at hlen
      · obtain ⟨hlen, -⟩ := goodT_node_un hU h
        simp at hlen
  | .node (some s) [c], fuel, rest, out, h, hfuel, hrest => by
    have hsz : sizeOf (ETree.node (some s) [c]) =
        1 + (1 + sizeOf s) + (1 + sizeOf c + 1) := by simp
    cases hops : OPERATORS.contains s with
    | false =>
      obtain ⟨-, hnil⟩ :=
        goodT_node_leaf (contains_op_false hops).1 (contains_op_false hops).2 h
      exact absurd hnil (by simp)
    | true =>
      rcases isOpStr_split (show isOpStr (some s) = true by
          simp only [isOpStr]; exact hops) with hB | hU
      · have hbin : BINARY_OPERATORS.contains s = true := by
          simpa only [isBinStr] using hB
        obtain ⟨-, hch⟩ := goodT_node_bin hB h
        have hc := goodChildren_mem hch (List.mem_cons_self _ _)
        rw [rT_bin1 hops hbin]
        exact orderRec_rT c fuel rest out hc.1 (by omega) hrest
      · have hbin : BINARY_OPERATORS.contains s = false := by
          rw [isUnStr_mem hU]
          decide
        rw [rT_un hops hbin]
        exact orderRecGo_cons_group
          (order_iT (.node (some s) [c]) fuel h (by omega)) hrest
  | .node (some s) (c1 :: c2 :: rest2), fuel, rest, out, h, hfuel, hrest => by
    cases hops : OPERATORS.contains s with
    | false =>
      obtain ⟨-, hnil⟩ :=
        goodT_node_leaf (contains_op_false hops).1 (contains_op_false hops).2 h
      exact absurd hnil (by simp)
    | true =>
      rcases isOpStr_split (show isOpStr (some s) = true by
          simp only [isOpStr]; exact hops) with hB | hU
      · have hbin : BINARY_OPERATORS.contains s = true := by
          simpa only [isBinStr] using hB
        rw [rT_bin2 hops hbin]
        exact orderRecGo_cons_group
          (order_iT (.node (some s) (c1 :: c2 :: rest2)) fuel h (by omega)) hrest
      · obtain ⟨hlen, -⟩ := goodT_node_un hU h
        simp only [List.length_cons] at hlen
        omega
termination_by c fuel _ _ _ _ _ => (sizeOf c, 1)

/-- `orderRecGo` leaves the operator/resolved-child pairs in place. -/
theorem orderRec_pairs : ∀ (l : List ETree) (banned : Option String) (B : String)
    (fuel : Nat) (rest out : List Tok), goodChildren banned l = true →
    sizeOf l ≤ fuel → orderRecGo (orderOperations fuel) rest = some out →
    orderRecGo (orderOperations fuel) (pairsTl B l ++ rest) =
      some (pairsTl B l ++ out)
  | [], _, B, fuel, rest, out, _, _, hrest => by simpa [pairsTl] using hrest
  | c :: l2, banned, B, fuel, rest, out, hch, hfuel, hrest => by
    have hc := goodChildren_mem hch (List.mem_cons_self _ _)
    have hl2 : goodChildren banned l2 = true := by
      have hx := hch
      simp only [goodChildren, Bool.and_eq_true] at hx
      exact hx.2
    have hszc : sizeOf (c :: l2 : List ETree) = 1 + sizeOf c + sizeOf l2 := by simp
    simp only [pairsTl, List.cons_append]
    exact orderRecGo_cons_str (orderRec_rT c fuel _ _ hc.1 (by omega)
      (orderRec_pairs l2 banned B fuel rest out hl2 (by omega) hrest))
termination_by l _ _ fuel _ _ _ _ _ => (sizeOf l, 2)

end

/-! ## The character scan of `tokenize` on a rendered tree -/

theorem tokStep_plain {w : List Char} {q : Bool} {d : Int} {T : List RawTok} {c : Char}
    (h1 : c ≠ '(') (h2 : c ≠ ')') (h3 : c ≠ '\\') (h4 : c ≠ '"')
    (h5 : pyIsSpace c = false ∨ q = true) :
    tokStep ⟨w, false, q, d, T⟩ c = ⟨w ++ [c], false, q, d, T⟩ := by
  simp only [tokStep]
  rw [if_neg (by simp)]
  rw [if_neg (by
    intro hc
    simp only [Bool.and_eq_true, Bool.or_eq_true, decide_eq_true_eq] at hc
    rcases hc.1 with hc1 | hc1
    · exact h1 hc1
    · exact h2 hc1)]
  rw [if_neg (by simp [h3]), if_neg (by simp [h4])]
  rw [if_neg (by
    intro hc
    simp only [Bool.and_eq_true] at hc
    rcases h5 with h5 | h5
    · rw [h5] at hc
      exact absurd hc.1 (by simp)
    · rw [h5] at hc
      exact absurd hc.2 (by simp))]

theorem tokStep_escape_pair {w : List Char} {q : Bool} {d : Int} {T : List RawTok} (c : Char) :
    List.foldl tokStep ⟨w, false, q, d, T⟩ ['\\', c] = ⟨w ++ [c], false, q, d, T⟩ := by
  simp [tokStep, pyIsSpace]

theorem tokStep_quote {w : List Char} {q : Bool} {d : Int} {T : List RawTok} :
    tokStep ⟨w, false, q, d, T⟩ '"' = ⟨w, false, !q, d, T⟩ := by
  simp [tokStep, pyIsSpace]

theorem tokStep_space {w : List Char} {d : Int} {T : List RawTok} :
    tokStep ⟨w, false, false, d, T⟩ ' ' =
      ⟨[], false, false, d, T ++ [.str (String.mk w)]⟩ := by
  simp [tokStep, pyIsSpace]

theorem tokStep_open {w : List Char} {d : Int} {T : List RawTok} (hd : 0 ≤ d) :
    tokStep ⟨w, false, false, d, T⟩ '(' =
      ⟨[], false, false, d + 1, T ++ [.str (String.mk w), .parenOpen]⟩ := by
  simp [tokStep, pyIsSpace]
  omega

theorem tokStep_close {w : List Char} {d : Int} {T : List RawTok} (hd : 1 ≤ d) :
    tokStep ⟨w, false, false, d, T⟩ ')' =
      ⟨[], false, false, d - 1, T ++ [.str (String.mk w), .parenClose]⟩ := by
  simp [tokStep, pyIsSpace]
  omega

theorem scan_plain : ∀ (cs : List Char) {w : List Char} {q : Bool} {d : Int} {T : List RawTok},
    (∀ c ∈ cs, c ≠ '(' ∧ c ≠ ')' ∧ c ≠ '\\' ∧ c ≠ '"' ∧ (pyIsSpace c = false ∨ q = true)) →
    List.foldl tokStep ⟨w, false, q, d, T⟩ cs = ⟨w ++ cs, false, q, d, T⟩
  | [], w, q, d, T, _ => by simp
  | c :: cs, w, q, d, T, h => by
    obtain ⟨h1, h2, h3, h4, h5⟩ := h c (by simp)
    simp only [List.foldl_cons]
    rw [tokStep_plain h1 h2 h3 h4 h5]
    rw [scan_plain cs (fun c' hc' => h c' (by simp [hc']))]
    simp

theorem scan_escaped : ∀ (cs : List Char) {w : List Char} {q : Bool} {d : Int} {T : List RawTok},
    (∀ c ∈ cs, pyIsSpace c = false ∨ (q = true ∧ c = ' ')) →
    List.foldl tokStep ⟨w, false, q, d, T⟩ (cs.flatMap escapeChar) = ⟨w ++ cs, false, q, d, T⟩
  | [], w, q, d, T, _ => by simp
  | c :: cs, w, q, d, T, h => by
    have hc := h c (by simp)
    have hrest : ∀ c' ∈ cs, pyIsSpace c' = false ∨ (q = true ∧ c' = ' ') :=
      fun c' hc' => h c' (by simp [hc'])
    simp only [List.flatMap_cons, List.foldl_append]
    by_cases hsp : c = '\\' ∨ c = '"' ∨ c = '(' ∨ c = ')'
    · rw [show escapeChar c = ['\\', c] by
        simp only [escapeChar]
        rw [if_pos (by rcases hsp with h | h | h | h <;> simp [h])]]
      rw [tokStep_escape_pair c]
      rw [scan_escaped cs hrest]
      simp
    · push_neg at hsp
      obtain ⟨h1, h2, h3, h4⟩ := hsp
      rw [show escapeChar c = [c] by
        simp only [escapeChar]
        rw [if_neg (by simp [h1, h2, h3, h4])]]
      rw [show List.foldl tokStep (⟨w, false, q, d, T⟩ : TokSt) [c] =
          tokStep ⟨w, false, q, d, T⟩ c from rfl]
      rw [tokStep_plain h3 h4 h1 h2 (by
        rcases hc with hc | hc
        · exact Or.inl hc
        · exact Or.inr hc.1)]
      rw [scan_escaped cs hrest]
      simp

theorem escapeString_data (s : String) :
    (escapeString s).data = s.data.flatMap escapeChar := rfl

theorem mem_escaped_iff (s : String) (c : Char) (hc1 : c ≠ '\\') :
    c ∈ (escapeString s).data ↔ c ∈ s.data := by
  rw [escapeString_data]
  simp only [List.mem_flatMap]
  constructor
  · rintro ⟨a, ha, hmem⟩
    simp only [escapeChar] at hmem
    split at hmem
    · simp only [List.mem_cons, List.not_mem_nil, or_false] at hmem
      rcases hmem with h | h
      · exact absurd h hc1
      · subst h
        exact ha
    · simp only [List.mem_cons, List.not_mem_nil, or_false] at hmem
      subst hmem
      exact ha
  · intro hmem
    refine ⟨c, hmem, ?_⟩
    simp only [escapeChar]
    split <;> simp

theorem intercalate_go_data (sep : String) : ∀ (xs : List String) (acc : String),
    (String.intercalate.go acc sep xs).data =
      acc.data ++ xs.flatMap (fun y => sep.data ++ y.data)
  | [], acc => by simp [String.intercalate.go]
  | x :: xs, acc => by
    show (String.intercalate.go (acc ++ sep ++ x) sep xs).data = _
    rw [intercalate_go_data sep xs (acc ++ sep ++ x)]
    simp [String.data_append]

theorem intercalate_data (sep x : String) (xs : List String) :
    (String.intercalate sep (x :: xs)).data =
      x.data ++ xs.flatMap (fun y => sep.data ++ y.data) := by
  show (String.intercalate.go x sep xs).data = _
  rw [intercalate_go_data]

theorem op_word_chars {s : String} (hops : OPERATORS.contains s = true) :
    (∀ c ∈ s.data, c ≠ '(' ∧ c ≠ ')' ∧ c ≠ '\\' ∧ c ≠ '"' ∧ pyIsSpace c = false) ∧
      s ≠ "" := by
  have hx := hops
  simp only [OPERATORS, BINARY_OPERATORS, UNARY_OPERATORS] at hx
  simp at hx
  rcases hx with h | h | h | h <;> subst h <;> exact ⟨by decide, by decide⟩

theorem wsSafeL_mem : ∀ {cs : List ETree} {c : ETree},
    wsSafeL cs = true → c ∈ cs → wsSafeT c = true
  | c0 :: rest, c, h, hm => by
    simp only [wsSafeL, Bool.and_eq_true] at h
    rcases List.mem_cons.mp hm with h1 | h1
    · subst h1
      exact h.1
    · exact wsSafeL_mem h.2 h1

theorem wsSafeT_children {tok : Option String} {cs : List ETree}
    (h : wsSafeT (.node tok cs) = true) : wsSafeL cs = true := by
  simp only [wsSafeT, Bool.and_eq_true] at h
  exact h.2

theorem wsSafeT_leaf {s : String} {cs : List ETree} (hops : OPERATORS.contains s = false)
    (h : wsSafeT (.node (some s) cs) = true) : wsSafeStr s = true := by
  simp only [wsSafeT, Bool.and_eq_true] at h
  have hx := h.1
  rw [if_neg (by simp only [isOpStr]; rw [hops]; simp)] at hx
  exact hx

theorem rawOf_append : ∀ l1 l2 : List Tok, rawOf (l1 ++ l2) = rawOf l1 ++ rawOf l2
  | [], l2 => by simp [rawOf]
  | .str s :: rest, l2 => by
    simp only [List.cons_append, rawOf]
    rw [rawOf_append rest l2]
  | .group g :: rest, l2 => by
    simp only [List.cons_append, rawOf]
    rw [rawOf_append rest l2]
    simp

theorem renderList_eq : ∀ cs : List ETree,
    renderList cs = cs.map (fun c => if isOpStr c.token then "(" ++ render c ++ ")"
      else render c)
  | [] => by simp [renderList]
  | c :: rest => by
    simp only [renderList, List.map_cons]
    rw [renderList_eq rest]

/-- The empty-word filter of `tokenize` (`[w for w in tokens if w != '']`),
as a named predicate. -/
def keepTk : RawTok → Bool
  | .str w => w ≠ ""
  | _ => true

theorem keepTk_eq_lambda :
    (fun tk : RawTok => match tk with | .str ws => ws ≠ "" | _ => true) = keepTk := by
  funext tk
  cases tk <;> rfl

theorem keepTk_wordPad (w : List Char) :
    List.filter keepTk ([RawTok.str (String.mk w), RawTok.parenClose] ++
      [RawTok.str (String.mk [])]) =
    List.filter keepTk [RawTok.str (String.mk w)] ++ [RawTok.parenClose] := by
  rw [show String.mk ([] : List Char) = "" from rfl]
  by_cases hw : String.mk w = "" <;> simp [keepTk, hw]

/-- The raw-token flattening of a paired `OP operand` stream. -/
theorem rawOf_pairs (s : String) : ∀ l : List ETree,
    rawOf (l.flatMap (fun d2 => [Tok.str s, tokOf d2])) =
      l.flatMap (fun y => RawTok.str s :: rawOf [tokOf y])
  | [] => by simp [rawOf]
  | c :: rest => by
    simp only [List.flatMap_cons]
    rw [show ([Tok.str s, tokOf c] : List Tok) ++
        rest.flatMap (fun d2 => [Tok.str s, tokOf d2]) =
        [Tok.str s] ++ ([tokOf c] ++ rest.flatMap (fun d2 => [Tok.str s, tokOf d2]))
      from rfl]
    rw [rawOf_append, rawOf_append, rawOf_pairs s rest]
    simp [rawOf]

theorem foldl_tokStep_single (st : TokSt) (c : Char) :
    List.foldl tokStep st [c] = tokStep st c := rfl

/-- Scanning one ` OP ` separator flushes the pending word and then the
operator word. -/
theorem scan_sep (tok : String)
    (htokc : ∀ c ∈ tok.data,
      c ≠ '(' ∧ c ≠ ')' ∧ c ≠ '\\' ∧ c ≠ '"' ∧ pyIsSpace c = false)
    (w0 : List Char) (d : Int) (T : List RawTok) :
    List.foldl tokStep ⟨w0, false, false, d, T⟩ (" " ++ tok ++ " ").data =
      ⟨[], false, false, d, (T ++ [RawTok.str (String.mk w0)]) ++ [RawTok.str tok]⟩ := by
  rw [show (" " ++ tok ++ " ").data = ' ' :: (tok.data ++ [' ']) from by
    simp [String.data_append]]
  rw [List.foldl_cons, tokStep_space, List.foldl_append]
  rw [scan_plain tok.data (fun c hc => by
    obtain ⟨h1, h2, h3, h4, h5⟩ := htokc c hc
    exact ⟨h1, h2, h3, h4, Or.inl h5⟩)]
  rw [foldl_tokStep_single, tokStep_space]
  rw [show String.mk ([] ++ tok.data) = tok from rfl]

mutual

/-- The character scan of `tokenize` over the rendering of a good,
whitespace-safe tree: starting at a word boundary it returns to a word
boundary at the same depth, and the emitted raw tokens together with the
final pending word filter to the raw flattening of the tree's token
list. -/
theorem scan_render : ∀ (t : ETree) (d : Int) (T : List RawTok), goodT t = true →
    wsSafeT t = true → 0 ≤ d → ∃ (w : List Char) (E : List RawTok),
    List.foldl tokStep ⟨[], false, false, d, T⟩ (render t).data =
      ⟨w, false, false, d, T ++ E⟩ ∧
    List.filter keepTk (E ++ [RawTok.str (String.mk w)]) = rawOf (toksT t)
  | .node none _, d, T, h, _, _ => by simp [goodT] at h
  | .node (some s) cs, d, T, h, hws, hd => by
    cases hops : OPERATORS.contains s with
    | false =>
      obtain ⟨hne, hnil⟩ :=
        goodT_node_leaf (contains_op_false hops).1 (contains_op_false hops).2 h
      subst hnil
      have hwss := wsSafeT_leaf hops hws
      have hrender : render (.node (some s) []) =
          (if (escapeString s).data.contains ' '
            then "\"" ++ escapeString s ++ "\"" else escapeString s) := by
        simp only [render]
        rw [if_pos (by rw [hops]; rfl)]
      rw [hrender, toksT_leaf hops]
      have hwchar : ∀ c ∈ s.data, pyIsSpace c = false ∨ c = ' ' := by
        intro c hc
        have hx0 := hwss
        simp only [wsSafeStr, List.all_eq_true] at hx0
        have hx := hx0 c hc
        simp only [Bool.or_eq_true, Bool.not_eq_true', decide_eq_true_eq] at hx
        exact hx
      have hfin : List.filter keepTk ([] ++ [RawTok.str (String.mk s.data)]) =
          rawOf [Tok.str s] := by
        rw [show String.mk s.data = s from rfl]
        simp [keepTk, hne, rawOf]
      cases hq : (escapeString s).data.contains ' ' with
      | false =>
        rw [if_neg (by simp)]
        refine ⟨s.data, [], ?_, hfin⟩
        rw [escapeString_data]
        rw [scan_escaped s.data (fun c hc => by
          rcases hwchar c hc with hx | hx
          · exact Or.inl hx
          · exfalso
            have hnm : ' ' ∉ (escapeString s).data := by simpa using hq
            exact hnm ((mem_escaped_iff s ' ' (by decide)).2 (hx ▸ hc)))]
        simp
      | true =>
        rw [if_pos rfl]
        refine ⟨s.data, [], ?_, hfin⟩
        rw [show ("\"" ++ escapeString s ++ "\"").data =
            '"' :: ((escapeString s).data ++ ['"']) from by simp [String.data_append]]
        rw [List.foldl_cons, tokStep_quote, List.foldl_append, escapeString_data]
        rw [scan_escaped s.data (fun c hc => by
          rcases hwchar c hc with hx | hx
          · exact Or.inl hx
          · exact Or.inr ⟨rfl, hx⟩)]
        rw [foldl_tokStep_single, tokStep_quote]
        simp
    | true =>
      have hwl := wsSafeT_children hws
      have hgc : ∀ c ∈ cs, goodT c = true := by
        rcases isOpStr_split (show isOpStr (some s) = true from by
            simpa [isOpStr] using hops) with hB | hU
        · exact fun c hc => (goodChildren_mem (goodT_node_bin hB h).2 hc).1
        · exact fun c hc => (goodChildren_mem (goodT_node_un hU h).2 hc).1
      have hwc : ∀ c ∈ cs, wsSafeT c = true := fun c hc => wsSafeL_mem hwl hc
      cases cs with
      | nil =>
        exfalso
        rcases isOpStr_split (show isOpStr (some s) = true from by
            simpa [isOpStr] using hops) with hB | hU
        · have hx := (goodT_node_bin hB h).1
          simp only [List.length_nil] at hx
          omega
        · have hx := (goodT_node_un hU h).1
          simp only [List.length_nil] at hx
          omega
      | cons c1 cs2 =>
        cases cs2 with
        | nil =>
          obtain ⟨w, E, hscan, hfil⟩ := scan_one s c1 d T hops
            (hgc c1 (List.mem_cons_self _ _)) (hwc c1 (List.mem_cons_self _ _)) hd
          refine ⟨w, E, hscan, ?_⟩
          rw [toksT_un hops]
          exact hfil
        | cons c2 rest =>
          have hB : isBinStr (some s) = true := by
            rcases isOpStr_split (show isOpStr (some s) = true from by
                simpa [isOpStr] using hops) with hB | hU
            · exact hB
            · exfalso
              have hx := (goodT_node_un hU h).1
              simp only [List.length_cons] at hx
              omega
          obtain ⟨hopc, hopne⟩ := op_word_chars hops
          have hrc : render (.node (some s) (c1 :: c2 :: rest)) =
              String.intercalate (" " ++ s ++ " ")
                (renderList (c1 :: c2 :: rest)) := by
            simp only [render]
            rw [if_neg (by rw [hops]; simp)]
          rw [hrc, toksT_bin hops, renderList_eq]
          rw [show List.map (fun c => if isOpStr c.token = true
              then "(" ++ render c ++ ")" else render c) (c1 :: c2 :: rest) =
              (if isOpStr c1.token = true then "(" ++ render c1 ++ ")"
                else render c1) ::
              List.map (fun c => if isOpStr c.token = true
                then "(" ++ render c ++ ")" else render c) (c2 :: rest) from rfl]
          rw [intercalate_data]
          rw [show (List.map (fun c => if isOpStr c.token = true
              then "(" ++ render c ++ ")" else render c) (c2 :: rest)).flatMap
              (fun y => (" " ++ s ++ " ").data ++ y.data) =
              (c2 :: rest).flatMap (fun c => (" " ++ s ++ " ").data ++
                (if isOpStr c.token = true then "(" ++ render c ++ ")"
                  else render c).data) from by
            rw [List.flatMap_map]]
          rw [List.foldl_append]
          obtain ⟨w1, E1, hscan1, hfil1⟩ := scan_seg c1 d T
            (hgc c1 (List.mem_cons_self _ _)) (hwc c1 (List.mem_cons_self _ _)) hd
          rw [hscan1]
          obtain ⟨w, E2, hscan2, hfil2⟩ := scan_tail (c2 :: rest) s d (T ++ E1) w1
            (fun c hc => hgc c (List.mem_cons.mpr (Or.inr hc)))
            (fun c hc => hwc c (List.mem_cons.mpr (Or.inr hc)))
            hd hopc hopne
          rw [hscan2]
          refine ⟨w, E1 ++ E2, by simp only [List.append_assoc], ?_⟩
          rw [List.append_assoc, List.filter_append, hfil2]
          rw [show List.filter keepTk E1 ++
              (List.filter keepTk [RawTok.str (String.mk w1)] ++
                (c2 :: rest).flatMap (fun y => RawTok.str s :: rawOf [tokOf y])) =
              (List.filter keepTk E1 ++
                List.filter keepTk [RawTok.str (String.mk w1)]) ++
                (c2 :: rest).flatMap (fun y => RawTok.str s :: rawOf [tokOf y])
            from (List.append_assoc _ _ _).symm]
          rw [← List.filter_append, hfil1]
          rw [show (tokOf c1 :: (c2 :: rest).flatMap
              (fun d2 => [Tok.str s, tokOf d2])) =
              [tokOf c1] ++ (c2 :: rest).flatMap (fun d2 => [Tok.str s, tokOf d2])
            from rfl]
          rw [rawOf_append, rawOf_pairs]
termination_by t _ _ _ _ _ => (sizeOf t, 0)

/-- The scan of a one-child operator rendering `OP(child)` / `OP child`. -/
theorem scan_one : ∀ (s : String) (c : ETree) (d : Int) (T : List RawTok),
    OPERATORS.contains s = true → goodT c = true → wsSafeT c = true → 0 ≤ d →
    ∃ (w : List Char) (E : List RawTok),
    List.foldl tokStep ⟨[], false, false, d, T⟩ (render (.node (some s) [c])).data =
      ⟨w, false, false, d, T ++ E⟩ ∧
    List.filter keepTk (E ++ [RawTok.str (String.mk w)]) =
      rawOf [Tok.str s, tokOf c]
  | s, c, d, T, hops, hc, hwc, hd => by
    obtain ⟨hopc, hopne⟩ := op_word_chars hops
    have hrc : render (.node (some s) [c]) =
        (if isOpStr c.token = true then s ++ "(" ++ render c ++ ")"
          else s ++ " " ++ render c) := by
      simp only [render]
      rw [if_neg (by rw [hops]; simp)]
    rw [hrc]
    cases hco : isOpStr c.token with
    | true =>
      rw [if_pos rfl]
      obtain ⟨wc, Ec, hscan, hfil⟩ := scan_render c (d + 1)
        (T ++ [RawTok.str s, RawTok.parenOpen]) hc hwc (by omega)
      refine ⟨[], ([RawTok.str s, RawTok.parenOpen] ++ Ec) ++
        [RawTok.str (String.mk wc), RawTok.parenClose], ?_, ?_⟩
      · rw [show (s ++ "(" ++ render c ++ ")").data =
            (s.data ++ ['(']) ++ ((render c).data ++ [')']) from by
          simp [String.data_append]]
        rw [List.foldl_append, List.foldl_append, List.foldl_append]
        rw [scan_plain s.data (fun ch hch => by
          obtain ⟨h1, h2, h3, h4, h5⟩ := hopc ch hch
          exact ⟨h1, h2, h3, h4, Or.inl h5⟩)]
        rw [foldl_tokStep_single, foldl_tokStep_single, tokStep_open hd]
        rw [show String.mk ([] ++ s.data) = s from rfl]
        rw [hscan]
        rw [tokStep_close (by omega)]
        simp only [TokSt.mk.injEq, true_and]
        exact ⟨by omega, by simp⟩
      · have hgrp : tokOf c = Tok.group (toksT c) := by
          obtain ⟨ctok, ccs⟩ := c
          cases ctok with
          | none => exact absurd hc (by simp [goodT])
          | some cst => exact tokOf_op (by simpa [isOpStr, ETree.token] using hco)
        rw [hgrp]
        rw [List.append_assoc, List.append_assoc]
        rw [List.filter_append, List.filter_append]
        rw [keepTk_wordPad]
        rw [show List.filter keepTk [RawTok.str s, RawTok.parenOpen] =
            [RawTok.str s, RawTok.parenOpen] from by simp [keepTk, hopne]]
        rw [show List.filter keepTk Ec ++
            (List.filter keepTk [RawTok.str (String.mk wc)] ++ [RawTok.parenClose]) =
            (List.filter keepTk Ec ++
              List.filter keepTk [RawTok.str (String.mk wc)]) ++ [RawTok.parenClose]
          from (List.append_assoc _ _ _).symm]
        rw [← List.filter_append, hfil]
        simp [rawOf]
    | false =>
      rw [if_neg (by simp)]
      obtain ⟨wc, Ec, hscan, hfil⟩ := scan_render c d (T ++ [RawTok.str s]) hc hwc hd
      refine ⟨wc, [RawTok.str s] ++ Ec, ?_, ?_⟩
      · rw [show (s ++ " " ++ render c).data =
            (s.data ++ [' ']) ++ (render c).data from by simp [String.data_append]]
        rw [List.foldl_append, List.foldl_append]
        rw [scan_plain s.data (fun ch hch => by
          obtain ⟨h1, h2, h3, h4, h5⟩ := hopc ch hch
          exact ⟨h1, h2, h3, h4, Or.inl h5⟩)]
        rw [foldl_tokStep_single, tokStep_space]
        rw [show String.mk ([] ++ s.data) = s from rfl]
        rw [hscan]
        simp only [List.append_assoc]
      · have hstr : ∃ cst, tokOf c = Tok.str cst ∧ toksT c = [Tok.str cst] := by
          obtain ⟨ctok, ccs⟩ := c
          cases ctok with
          | none => exact absurd hc (by simp [goodT])
          | some cst =>
            have hcn : OPERATORS.contains cst = false := by
              simpa [isOpStr, ETree.token] using hco
            exact ⟨cst, tokOf_nonop hcn, toksT_leaf hcn⟩
        obtain ⟨cst, htok, htoks⟩ := hstr
        rw [htok]
        rw [htoks] at hfil
        rw [List.append_assoc, List.filter_append, hfil]
        rw [show List.filter keepTk [RawTok.str s] = [RawTok.str s] from by
          simp [keepTk, hopne]]
        simp [rawOf]
termination_by s c _ _ _ _ _ _ => (sizeOf c, 3)

/-- The scan of one operand segment of a multi-child binary rendering
(an operator child is parenthesized). -/
theorem scan_seg : ∀ (c : ETree) (d : Int) (T : List RawTok), goodT c = true →
    wsSafeT c = true → 0 ≤ d → ∃ (w : List Char) (E : List RawTok),
    List.foldl tokStep ⟨[], false, false, d, T⟩
      (if isOpStr c.token = true then "(" ++ render c ++ ")" else render c).data =
      ⟨w, false, false, d, T ++ E⟩ ∧
    List.filter keepTk (E ++ [RawTok.str (String.mk w)]) = rawOf [tokOf c]
  | c, d, T, h, hws, hd => by
    cases hco : isOpStr c.token with
    | false =>
      rw [if_neg (by simp)]
      obtain ⟨w, E, hscan, hfil⟩ := scan_render c d T h hws hd
      refine ⟨w, E, hscan, ?_⟩
      have hstr : ∃ cst, tokOf c = Tok.str cst ∧ toksT c = [Tok.str cst] := by
        obtain ⟨ctok, ccs⟩ := c
        cases ctok with
        | none => exact absurd h (by simp [goodT])
        | some cst =>
          have hcn : OPERATORS.contains cst = false := by
            simpa [isOpStr, ETree.token] using hco
          exact ⟨cst, tokOf_nonop hcn, toksT_leaf hcn⟩
      obtain ⟨cst, htok, htoks⟩ := hstr
      rw [htok]
      rw [htoks] at hfil
      exact hfil
    | true =>
      rw [if_pos rfl]
      obtain ⟨wc, Ec, hscan, hfil⟩ := scan_render c (d + 1)
        (T ++ [RawTok.str (String.mk []), RawTok.parenOpen]) h hws (by omega)
      refine ⟨[], ([RawTok.str (String.mk []), RawTok.parenOpen] ++ Ec) ++
        [RawTok.str (String.mk wc), RawTok.parenClose], ?_, ?_⟩
      · rw [show ("(" ++ render c ++ ")").data =
            ['('] ++ ((render c).data ++ [')']) from by simp [String.data_append]]
        rw [List.foldl_append, List.foldl_append]
        rw [foldl_tokStep_single, foldl_tokStep_single, tokStep_open hd]
        rw [hscan]
        rw [tokStep_close (by omega)]
        simp only [TokSt.mk.injEq, true_and]
        exact ⟨by omega, by simp⟩
      · have hgrp : tokOf c = Tok.group (toksT c) := by
          obtain ⟨ctok, ccs⟩ := c
          cases ctok with
          | none => exact absurd h (by simp [goodT])
          | some cst => exact tokOf_op (by simpa [isOpStr, ETree.token] using hco)
        rw [hgrp]
        rw [List.append_assoc, List.append_assoc]
        rw [List.filter_append, List.filter_append]
        rw [keepTk_wordPad]
        rw [show List.filter keepTk [RawTok.str (String.mk []), RawTok.parenOpen] =
            [RawTok.parenOpen] from by
          rw [show String.mk ([] : List Char) = "" from rfl]
          simp [keepTk]]
        rw [show List.filter keepTk Ec ++
            (List.filter keepTk [RawTok.str (String.mk wc)] ++ [RawTok.parenClose]) =
            (List.filter keepTk Ec ++
              List.filter keepTk [RawTok.str (String.mk wc)]) ++ [RawTok.parenClose]
          from (List.append_assoc _ _ _).symm]
        rw [← List.filter_append, hfil]
        simp [rawOf]
termination_by c _ _ _ _ _ => (sizeOf c, 1)

/-- The scan of the remaining ` OP segment` pieces of a multi-child
binary rendering, with the previous segment's word pending. -/
theorem scan_tail : ∀ (cs : List ETree) (tok : String) (d : Int) (T : List RawTok)
    (w0 : List Char),
    (∀ c ∈ cs, goodT c = true) → (∀ c ∈ cs, wsSafeT c = true) → 0 ≤ d →
    (∀ c ∈ tok.data,
      c ≠ '(' ∧ c ≠ ')' ∧ c ≠ '\\' ∧ c ≠ '"' ∧ pyIsSpace c = false) →
    tok ≠ "" → ∃ (w : List Char) (E : List RawTok),
    List.foldl tokStep ⟨w0, false, false, d, T⟩
      (cs.flatMap (fun c => (" " ++ tok ++ " ").data ++
        (if isOpStr c.token = true then "(" ++ render c ++ ")" else render c).data)) =
      ⟨w, false, false, d, T ++ E⟩ ∧
    List.filter keepTk (E ++ [RawTok.str (String.mk w)]) =
      List.filter keepTk [RawTok.str (String.mk w0)] ++
        cs.flatMap (fun y => RawTok.str tok :: rawOf [tokOf y])
  | [], tok, d, T, w0, _, _, _, _, _ => ⟨w0, [], by simp, by simp⟩
  | c :: cs, tok, d, T, w0, hgc, hwl, hd, htokc, htokne => by
    simp only [List.flatMap_cons]
    rw [List.foldl_append, List.foldl_append]
    rw [scan_sep tok htokc w0 d T]
    obtain ⟨w1, E1, hscan1, hfil1⟩ := scan_seg c d
      ((T ++ [RawTok.str (String.mk w0)]) ++ [RawTok.str tok])
      (hgc c (List.mem_cons_self _ _)) (hwl c (List.mem_cons_self _ _)) hd
    rw [hscan1]
    obtain ⟨w, E2, hscan2, hfil2⟩ := scan_tail cs tok d
      (((T ++ [RawTok.str (String.mk w0)]) ++ [RawTok.str tok]) ++ E1) w1
      (fun c' hc' => hgc c' (List.mem_cons.mpr (Or.inr hc')))
      (fun c' hc' => hwl c' (List.mem_cons.mpr (Or.inr hc')))
      hd htokc htokne
    rw [hscan2]
    refine ⟨w, [RawTok.str (String.mk w0)] ++ ([RawTok.str tok] ++ (E1 ++ E2)),
      by simp only [List.append_assoc], ?_⟩
    rw [List.append_assoc, List.filter_append]
    congr 1
    rw [List.append_assoc, List.filter_append]
    rw [show List.filter keepTk [RawTok.str tok] = [RawTok.str tok] from by
      simp [keepTk, htokne]]
    rw [List.append_assoc, List.filter_append]
    rw [hfil2]
    rw [show List.filter keepTk E1 ++
        (List.filter keepTk [RawTok.str (String.mk w1)] ++
          cs.flatMap (fun y => RawTok.str tok :: rawOf [tokOf y])) =
        (List.filter keepTk E1 ++
          List.filter keepTk [RawTok.str (String.mk w1)]) ++
          cs.flatMap (fun y => RawTok.str tok :: rawOf [tokOf y])
      from (List.append_assoc _ _ _).symm]
    rw [← List.filter_append, hfil1]
    simp [List.flatMap_cons]
termination_by cs _ _ _ _ _ _ _ _ _ => (sizeOf cs, 2)

end

/-- `tokenize` on the rendering of a good, whitespace-safe tree returns
exactly the raw flattening of the tree's token list. -/
theorem rawTokenize_render (t : ETree) (h : goodT t = true) (hws : wsSafeT t = true) :
    rawTokenize (render t) = rawOf (toksT t) := by
  obtain ⟨w, E, hscan, hfil⟩ := scan_render t 0 [] h hws (by omega)
  have hfold : (render t).data.foldl tokStep tokInit = ⟨w, false, false, 0, [] ++ E⟩ := by
    rw [show tokInit = (⟨[], false, false, 0, []⟩ : TokSt) from rfl]
    exact hscan
  rw [show rawTokenize (render t) =
      ((((render t).data.foldl tokStep tokInit).toks ++
        [RawTok.str (String.mk ((render t).data.foldl tokStep tokInit).word)]).filter
        (fun tk => match tk with | .str ws => ws ≠ "" | _ => true)) from rfl]
  rw [hfold]
  rw [keepTk_eq_lambda]
  show List.filter keepTk (([] ++ E) ++ [RawTok.str (String.mk w)]) = rawOf (toksT t)
  rw [List.nil_append]
  exact hfil

/-- `sublist_tokens` on the raw flattening of a token list followed by a
closing parenthesis consumes the flattening and stops at the close. -/
theorem sublistAux_rawOf : ∀ (fuel : Nat) (L : List Tok) (rest : List RawTok),
    (rawOf L).length + 1 ≤ fuel →
    sublistAux fuel (rawOf L ++ RawTok.parenClose :: rest) = some (L, rest)
  | 0, L, rest, h => by omega
  | fuel + 1, [], rest, _ => by simp [rawOf, sublistAux]
  | fuel + 1, .str s :: out, rest, h => by
    have hlen : (rawOf (Tok.str s :: out)).length = 1 + (rawOf out).length := by
      simp only [rawOf, List.length_cons]
      omega
    rw [show rawOf (Tok.str s :: out) ++ RawTok.parenClose :: rest =
        RawTok.str s :: (rawOf out ++ RawTok.parenClose :: rest) from by
      simp only [rawOf, List.cons_append]]
    show (match sublistAux fuel (rawOf out ++ RawTok.parenClose :: rest) with
          | none => none
          | some (out2, rest2) => some (Tok.str s :: out2, rest2)) =
        some (Tok.str s :: out, rest)
    rw [sublistAux_rawOf fuel out rest (by omega)]
  | fuel + 1, .group g :: out, rest, h => by
    have hlen : (rawOf (Tok.group g :: out)).length =
        1 + ((rawOf g).length + (1 + (rawOf out).length)) := by
      simp only [rawOf, List.length_cons, List.length_append]
      omega
    rw [show rawOf (Tok.group g :: out) ++ RawTok.parenClose :: rest =
        RawTok.parenOpen :: (rawOf g ++ RawTok.parenClose ::
          (rawOf out ++ RawTok.parenClose :: rest)) from by simp [rawOf]]
    show (match sublistAux fuel (rawOf g ++ RawTok.parenClose ::
            (rawOf out ++ RawTok.parenClose :: rest)) with
          | none => none
          | some (g2, rest2) =>
            match sublistAux fuel rest2 with
            | none => none
            | some (out2, rest3) => some (Tok.group g2 :: out2, rest3)) =
        some (Tok.group g :: out, rest)
    rw [sublistAux_rawOf fuel g (rawOf out ++ RawTok.parenClose :: rest) (by omega)]
    show (match sublistAux fuel (rawOf out ++ RawTok.parenClose :: rest) with
          | none => none
          | some (out2, rest3) => some (Tok.group g :: out2, rest3)) =
        some (Tok.group g :: out, rest)
    rw [sublistAux_rawOf fuel out rest (by omega)]

/-- `sublist_tokens` on a full raw flattening: the end of input closes
the scan with everything consumed. -/
theorem sublistAux_rawOf_nil : ∀ (fuel : Nat) (L : List Tok),
    (rawOf L).length + 1 ≤ fuel → sublistAux fuel (rawOf L) = some (L, [])
  | 0, L, h => by omega
  | fuel + 1, [], _ => by simp [rawOf, sublistAux]
  | fuel + 1, .str s :: out, h => by
    have hlen : (rawOf (Tok.str s :: out)).length = 1 + (rawOf out).length := by
      simp only [rawOf, List.length_cons]
      omega
    rw [show rawOf (Tok.str s :: out) = RawTok.str s :: rawOf out from by
      simp only [rawOf]]
    show (match sublistAux fuel (rawOf out) with
          | none => none
          | some (out2, rest2) => some (Tok.str s :: out2, rest2)) =
        some (Tok.str s :: out, [])
    rw [sublistAux_rawOf_nil fuel out (by omega)]
  | fuel + 1, .group g :: out, h => by
    have hlen : (rawOf (Tok.group g :: out)).length =
        1 + ((rawOf g).length + (1 + (rawOf out).length)) := by
      simp only [rawOf, List.length_cons, List.length_append]
      omega
    rw [show rawOf (Tok.group g :: out) =
        RawTok.parenOpen :: (rawOf g ++ RawTok.parenClose :: rawOf out) from by
      simp only [rawOf]]
    show (match sublistAux fuel (rawOf g ++ RawTok.parenClose :: rawOf out) with
          | none => none
          | some (g2, rest2) =>
            match sublistAux fuel rest2 with
            | none => none
            | some (out2, rest3) => some (Tok.group g2 :: out2, rest3)) =
        some (Tok.group g :: out, [])
    rw [sublistAux_rawOf fuel g (rawOf out) (by omega)]
    show (match sublistAux fuel (rawOf out) with
          | none => none
          | some (out2, rest3) => some (Tok.group g :: out2, rest3)) =
        some (Tok.group g :: out, [])
    rw [sublistAux_rawOf_nil fuel out (by omega)]

/-- The top-level `sublist_tokens` call recovers the token list from its
raw flattening. -/
theorem sublistTokens_rawOf (fuel : Nat) (L : List Tok)
    (h : (rawOf L).length + 1 ≤ fuel) : sublistTokens fuel (rawOf L) = some L := by
  show (match sublistAux fuel (rawOf L) with
        | none => none
        | some (out, _) => some out) = some L
  rw [sublistAux_rawOf_nil fuel L h]

/-- `tokenize` on the rendering of a good, whitespace-safe tree yields
the resolved token stream `iT`. -/
theorem tokenizePy_render (t : ETree) (F : Nat) (hg : goodT t = true)
    (hws : wsSafeT t = true) (h1 : (rawOf (toksT t)).length + 1 ≤ F)
    (h2 : 2 * sizeOf t ≤ F) : tokenizePy F (render t) = some (iT t) := by
  show (match sublistTokens F (rawTokenize (render t)) with
        | none => none
        | some ts =>
          match impliedTokens F ts with
          | none => none
          | some ts2 => orderOperations F ts2) = some (iT t)
  rw [rawTokenize_render t hg hws, sublistTokens_rawOf F (toksT t) h1]
  show (match impliedTokens F (toksT t) with
        | none => none
        | some ts2 => orderOperations F ts2) = some (iT t)
  rw [implied_toksT t F hg h2]
  show orderOperations F (iT t) = some (iT t)
  exact order_iT t F hg (by omega)

/-- Parsing the rendering of a good, whitespace-safe tree succeeds and
produces the flattening-normalized tree `normT`. -/
theorem parseString_render (t : ETree) (F : Nat) (hg : goodT t = true)
    (hws : wsSafeT t = true) (h1 : (rawOf (toksT t)).length + 1 ≤ F)
    (h2 : 2 * sizeOf t ≤ F) :
    parseString F (render t) = some (.ok (normT t)) := by
  show (match tokenizePy F (render t) with
        | none => none
        | some ts => some (parseList ts)) = some (Except.ok (normT t))
  rw [tokenizePy_render t F hg hws h1 h2]
  show some (parseList (iT t)) = some (Except.ok (normT t))
  rw [parseList_iT t hg]

/-! ## Claims -/

/-- Claim C1: for every boolean assignment to the operands `a`, `b`, `c`
(every match function), `parse("a OR b AND c").evaluate` agrees with
`parse("a OR (b AND c)").evaluate`: the two strings in fact parse to the
same tree, whose evaluation is `a OR (b AND c)` — `AND` binds tighter
than `OR` under `order_operations`. -/
theorem claim_C1_and_binds_tighter (mf : String → Bool) :
    ∃ t : ETree,
      parseString 1000 "a OR b AND c" = some (.ok t) ∧
      parseString 1000 "a OR (b AND c)" = some (.ok t) ∧
      evalE false (liftMatch mf) t = .ok (mf "a" || (mf "b" && mf "c")) := by
  refine ⟨.node (some "OR") [.node (some "a") [],
            .node (some "AND") [.node (some "b") [], .node (some "c") []]],
          by decide, by decide, ?_⟩
  cases ha : mf "a" <;> cases hb : mf "b" <;> cases hc : mf "c" <;>
    simp [evalE, evalI, evalOr, evalAnd, wrapExc, liftMatch, isOpStr,
          OPERATORS, BINARY_OPERATORS, UNARY_OPERATORS, ha, hb, hc]

/-- Claim C2: semantic round-trip of rendering — for every expression
string `s` that parses successfully and whose tree is whitespace-safe
(the spec's hedge "no stray whitespace-sensitivity issues": every
operand character is either a plain space or not Python-whitespace),
re-parsing the rendered string `str(parse(s))` succeeds with some fuel,
and the tree it produces evaluates identically to `parse(s)` for every
match function. -/
theorem claim_C2_semantic_round_trip (fuel : Nat) (s : String) (t : ETree)
    (hp : parseString fuel s = some (.ok t)) (hws : wsSafeT t = true) :
    ∃ (fuel2 : Nat) (t2 : ETree),
      parseString fuel2 (render t) = some (.ok t2) ∧
      ∀ mf : String → Bool,
        evalE false (liftMatch mf) t2 = evalE false (liftMatch mf) t := by
  have hg : goodT t = true := parseString_good hp
  refine ⟨(rawOf (toksT t)).length + 1 + 2 * sizeOf t, normT t,
    parseString_render t _ hg hws (by omega) (by omega), ?_⟩
  intro mf
  rw [evalE_total mf (normT t) (strictT_evalSafe (normT t) (strictT_normT t hg))]
  rw [evalE_total mf t (goodT_evalSafe t hg)]
  rw [evalB_normT mf t hg]

/-- Witness for the hypotheses of `claim_C2_semantic_round_trip`:
`"a AND b"` parses to the concrete `AND` tree, which is whitespace-safe,
and the round trip holds for it. -/
theorem claim_C2_semantic_round_trip_witness :
    parseString 64 "a AND b" = some (.ok (ETree.node (some "AND")
      [ETree.node (some "a") [], ETree.node (some "b") []])) ∧
    wsSafeT (ETree.node (some "AND")
      [ETree.node (some "a") [], ETree.node (some "b") []]) = true ∧
    ∃ (fuel2 : Nat) (t2 : ETree),
      parseString fuel2 (render (ETree.node (some "AND")
        [ETree.node (some "a") [], ETree.node (some "b") []])) = some (.ok t2) ∧
      ∀ mf : String → Bool,
        evalE false (liftMatch mf) t2 =
          evalE false (liftMatch mf) (ETree.node (some "AND")
            [ETree.node (some "a") [], ETree.node (some "b") []]) :=
  ⟨by decide, by decide,
   claim_C2_semantic_round_trip 64 "a AND b" _ (by decide) (by decide)⟩

/-- Claim C3, counterexample: the claim says the escaping backslash is
preserved in the output token, but tokenizing `\(test\)` yields the
token `(test)`, which contains no backslash at all. -/
theorem claim_C3_counterexample :
    tokenizePy 1000 "\\(test\\)" = some [Tok.str "(test)"] ∧
    "(test)".data.contains '\\' = false := by
  exact ⟨by decide, by decide⟩

/-- Claim C3 (amended): a backslash outside an escape is consumed (not
kept) and the following character — whatever it is, including `(`, `)`,
`"`, `\` — is appended literally to the current token; in particular
`\(test\)` tokenizes to the single token `(test)`.  (The rendering step
re-adds the escapes, which is what makes the round-trip coherent.) -/
theorem claim_C3_backslash_consumed :
    (∀ (st : TokSt) (c : Char), st.inEscape = false →
        tokStep (tokStep st '\\') c =
          { st with word := st.word ++ [c], inEscape := false }) ∧
    tokenizePy 1000 "\\(test\\)" = some [Tok.str "(test)"] := by
  constructor
  · intro st c h
    simp [tokStep, h]
  · decide

/-- Witness for the hypothesis of `claim_C3_backslash_consumed`: the
step equation applied in the initial state to the escaped character
`(`. -/
theorem claim_C3_backslash_consumed_witness :
    tokInit.inEscape = false ∧
    tokStep (tokStep tokInit '\\') '(' =
      { tokInit with word := tokInit.word ++ ['('], inEscape := false } :=
  ⟨rfl, claim_C3_backslash_consumed.1 tokInit '(' rfl⟩

/-- Claim C4, counterexample: the output of `implied_tokens` can both
begin and end with an operator token.  `['a', 'AND', 'NOT']` normalizes
to `['a', 'AND']` (the trailing pop removes only the `NOT`, leaving the
binary operator last), and `['NOT', 'a']` normalizes to itself, which
begins with the operator `NOT`. -/
theorem claim_C4_counterexample :
    impliedTokens 10 [Tok.str "a", Tok.str "AND", Tok.str "NOT"] =
      some [Tok.str "a", Tok.str "AND"] ∧
    ([Tok.str "a", Tok.str "AND"] : List Tok).getLast? = some (Tok.str "AND") ∧
    isOpTk (Tok.str "AND") = true ∧
    impliedTokens 10 [Tok.str "NOT", Tok.str "a"] =
      some [Tok.str "NOT", Tok.str "a"] ∧
    isOpTk (Tok.str "NOT") = true := by
  refine ⟨by decide, by decide, by decide, by decide, by decide⟩

/-- Claim C4 (amended): whenever `implied_tokens` terminates, its output
never begins with a *binary* operator (it may begin with `NOT`), never
ends with a *unary* operator (it may end with a binary one, as the
counterexample forces), contains no two adjacent operator tokens other
than a binary operator directly followed by `NOT`, and contains no empty
or single-element nested groups — `allTokOK` additionally imposes the
same invariant recursively inside every nested group. -/
theorem claim_C4_output_invariant (fuel : Nat) (ts out : List Tok)
    (h : impliedTokens fuel ts = some out) :
    headNotBin out = true ∧ okPairs out = true ∧
      lastNotUn out = true ∧ allTokOK out = true := by
  have hi := (impliedPair_inv fuel).2 ts out h
  simp only [invList, Bool.and_eq_true] at hi
  exact ⟨hi.1.1.1, hi.1.1.2, hi.1.2, hi.2⟩

/-- Witness for the hypothesis of `claim_C4_output_invariant`: a
concrete normalization (`['a', 'b']` gains an implied `AND`) whose
output satisfies the invariant. -/
theorem claim_C4_output_invariant_witness :
    impliedTokens 10 [Tok.str "a", Tok.str "b"] =
      some [Tok.str "a", Tok.str "AND", Tok.str "b"] ∧
    (headNotBin [Tok.str "a", Tok.str "AND", Tok.str "b"] = true ∧
      okPairs [Tok.str "a", Tok.str "AND", Tok.str "b"] = true ∧
      lastNotUn [Tok.str "a", Tok.str "AND", Tok.str "b"] = true ∧
      allTokOK [Tok.str "a", Tok.str "AND", Tok.str "b"] = true) :=
  ⟨by decide, claim_C4_output_invariant 10 [Tok.str "a", Tok.str "b"]
    [Tok.str "a", Tok.str "AND", Tok.str "b"] (by decide)⟩

/-- Claim C5: the module docstring promises that the reserved words can
"be enclosed in quotes if you need to literally match the word AND", but
the tokenizer discards the quoting before `implied_tokens` runs, so the
quoted word is treated as an operator and dropped: `parse('"AND"')`
raises `NoTokens` instead of producing a single-leaf tree. -/
theorem claim_C5_quoted_operator_lost :
    tokenizePy 1000 "\"AND\"" = some [] ∧
    parseString 1000 "\"AND\"" = some (.error .noTokens) := by
  exact ⟨by decide, by decide⟩

/-- Claim C6: `prune()` fails to remove every `None`-token node.  The
`for child in self.children` loop iterates by index while a pruned
child removes itself from the list, so the sibling that slides into its
place is never pruned: on `AND(OR(None), OR(None))` (the result of
`map` sending both operands to `None`) the second `OR(None)` and its
`None` leaf survive. -/
theorem claim_C6_prune_misses_sibling :
    pruneFuel 10 (.node (some "AND")
        [.node (some "OR") [.node none []], .node (some "OR") [.node none []]]) =
      .node (some "AND") [.node (some "OR") [.node none []]] ∧
    hasNoneToken (pruneFuel 10 (.node (some "AND")
        [.node (some "OR") [.node none []], .node (some "OR") [.node none []]])) = true := by
  exact ⟨by decide, by decide⟩

/-- Claim C7: an `XOR` node evaluates to true iff an odd number of its
children evaluate to true (N-ary parity); in particular
`parse('[r] XOR [sci-fi]').evaluate('[r] [sci-fi]')` is `False` (two
true children, even count). -/
theorem claim_C7_xor_parity :
    (∀ (dflt : Bool) (m : MatchFn) (cs : List ETree) (bs : List Bool),
        evalList dflt m cs = .ok bs →
        evalE dflt m (.node (some "XOR") cs) = .ok (decide (bs.count true % 2 = 1))) ∧
    (∃ t : ETree, parseString 1000 "[r] XOR [sci-fi]" = some (.ok t) ∧
        evalE true (defaultMatch "[r] [sci-fi]") t = .ok false) := by
  constructor
  · intro dflt m cs bs h
    simp [evalE, evalI, wrapExc, func_xor, isOpStr,
          OPERATORS, BINARY_OPERATORS, UNARY_OPERATORS, h]
  · exact ⟨.node (some "XOR") [.node (some "[r]") [], .node (some "[sci-fi]") []],
           by decide, by decide⟩

/-- Witness for the hypothesis of `claim_C7_xor_parity`: a concrete
`XOR` node with two true children evaluates to `False`. -/
theorem claim_C7_xor_parity_witness :
    evalList true (liftMatch (fun _ => true))
      [ETree.node (some "a") [], ETree.node (some "b") []] = .ok [true, true] ∧
    evalE true (liftMatch (fun _ => true))
      (.node (some "XOR") [ETree.node (some "a") [], ETree.node (some "b") []]) =
      .ok (decide ([true, true].count true % 2 = 1)) :=
  ⟨rfl, claim_C7_xor_parity.1 true (liftMatch (fun _ => true))
    [ETree.node (some "a") [], ETree.node (some "b") []] [true, true] rfl⟩

mutual

/-- No empty parenthetical group anywhere inside a token (the
normalizer `implied_tokens` removes them, so token sequences reaching
tree construction in the pipeline satisfy this). -/
def noEmptyTok : Tok → Bool
  | .str _ => true
  | .group g => !g.isEmpty && noEmptyList g

/-- `noEmptyTok` over a token sequence. -/
def noEmptyList : List Tok → Bool
  | [] => true
  | t :: rest => noEmptyTok t && noEmptyList rest

end

/-- `stepParse` never fails with `NoTokens`: its error branches are the
three generic exceptions. -/
theorem stepParse_ne_noTokens (st : PState) (new : ETree) :
    stepParse st new ≠ .error .noTokens := by
  cases st with
  | top cur =>
    cases cur with
    | node curTok curCh =>
      cases new with
      | node newTok newCh =>
        simp only [stepParse]
        repeat' split
        all_goals simp
  | deep rootTok sibs notTok => simp [stepParse]

mutual

theorem parseTok_ne_noTokens : ∀ t : Tok, noEmptyTok t = true →
    parseTok t ≠ .error .noTokens
  | .str s => by intro _ h; simp [parseTok] at h
  | .group g => by
      intro hne
      simp only [noEmptyTok, Bool.and_eq_true, Bool.not_eq_true', List.isEmpty_eq_false] at hne
      simp only [parseTok]
      exact parseList_ne_noTokens g hne.1 hne.2

theorem parseList_ne_noTokens : ∀ ts : List Tok, ts ≠ [] → noEmptyList ts = true →
    parseList ts ≠ .error .noTokens
  | [], h, _ => absurd rfl h
  | t :: rest, _, hne => by
      simp only [noEmptyList, Bool.and_eq_true] at hne
      simp only [parseList]
      cases hpt : parseTok t with
      | error e =>
        intro hcontra
        injection hcontra with h
        subst h
        exact parseTok_ne_noTokens t hne.1 hpt
      | ok c0 =>
        show ¬ (match parseRest (PState.top c0) rest with
                | Except.error e => Except.error e
                | Except.ok st => Except.ok st.root) = Except.error ParseError.noTokens
        cases hr : parseRest (.top c0) rest with
        | error e =>
          intro hcontra
          injection hcontra with h
          subst h
          exact parseRest_ne_noTokens (.top c0) rest hne.2 hr
        | ok st =>
          simp

theorem parseRest_ne_noTokens : ∀ (st : PState) (ts : List Tok), noEmptyList ts = true →
    parseRest st ts ≠ .error .noTokens
  | _, [], _ => by simp [parseRest]
  | st, t :: rest, hne => by
      simp only [noEmptyList, Bool.and_eq_true] at hne
      simp only [parseRest]
      cases hpt : parseTok t with
      | error e =>
        intro hcontra
        injection hcontra with h
        subst h
        exact parseTok_ne_noTokens t hne.1 hpt
      | ok new =>
        show ¬ (match stepParse st new with
                | Except.error e => Except.error e
                | Except.ok st' => parseRest st' rest) = Except.error ParseError.noTokens
        cases hsp : stepParse st new with
        | error e =>
          intro hcontra
          injection hcontra with h
          subst h
          exact stepParse_ne_noTokens st new hsp
        | ok st' =>
          exact parseRest_ne_noTokens st' rest hne.2

end

/-- Claim C8: `parse` fails with the distinct `NoTokens` exception
exactly when the token sequence it constructs from is empty (over
sequences free of empty nested groups, which is what the normalizer
delivers to tree construction); in particular an empty, whitespace-only
or normalized-to-nothing query string raises `NoTokens` rather than
returning a default tree. -/
theorem claim_C8_noTokens_iff_empty :
    (∀ ts : List Tok, noEmptyList ts = true →
        (parseList ts = .error .noTokens ↔ ts = [])) ∧
    parseString 1000 "" = some (.error .noTokens) ∧
    parseString 1000 "   " = some (.error .noTokens) ∧
    parseString 1000 "AND AND" = some (.error .noTokens) := by
  refine ⟨?_, by decide, by decide, by decide⟩
  intro ts hne
  constructor
  · intro hp
    by_contra hcne
    exact parseList_ne_noTokens ts hcne hne hp
  · rintro rfl
    rfl

/-- Witness for the hypothesis of `claim_C8_noTokens_iff_empty`: the
iff applied to the empty sequence and to a concrete one-leaf
sequence. -/
theorem claim_C8_noTokens_iff_empty_witness :
    parseList [] = .error .noTokens ∧
    parseList [Tok.str "a"] ≠ .error .noTokens :=
  ⟨(claim_C8_noTokens_iff_empty.1 [] (by decide)).mpr rfl,
   fun h => by simpa using (claim_C8_noTokens_iff_empty.1 [Tok.str "a"] (by decide)).mp h⟩

/-- Claim C9: when `_evaluate` raises under the default match function,
`evaluate` raises a new exception carrying the guidance message with the
original exception as its cause; under a custom match function the
original exception propagates unwrapped. -/
theorem claim_C9_default_match_rewrap :
    (∀ (m : MatchFn) (t : ETree) (e : Exc),
        evalI true m t = .error e →
        evalE true m t = .error (.wrapped MESSAGE_WRITE_YOUR_OWN_MATCHER e)) ∧
    (∀ (m : MatchFn) (t : ETree) (e : Exc),
        evalI false m t = .error e → evalE false m t = .error e) := by
  constructor <;> intro m t e h <;> simp [evalE, wrapExc, h]

/-- Witness for the hypotheses of `claim_C9_default_match_rewrap`: a
match function that raises, applied to a single leaf, once treated as
the default function and once as a custom one. -/
theorem claim_C9_default_match_rewrap_witness :
    evalE true (fun _ => .error (.custom "boom")) (.node (some "x") []) =
      .error (.wrapped MESSAGE_WRITE_YOUR_OWN_MATCHER (.custom "boom")) ∧
    evalE false (fun _ => .error (.custom "boom")) (.node (some "x") []) =
      .error (.custom "boom") :=
  ⟨claim_C9_default_match_rewrap.1 (fun _ => .error (.custom "boom"))
      (.node (some "x") []) (.custom "boom") rfl,
   claim_C9_default_match_rewrap.2 (fun _ => .error (.custom "boom"))
      (.node (some "x") []) (.custom "boom") rfl⟩

/-- Claim C10: evaluation dispatches on the token string alone.  A
non-operator token (even `None`) always goes to the match function; a
childless node whose token is `AND` evaluates to `True` and one whose
token is `OR` evaluates to `False`, for every input and match function —
including a former leaf whose token was set to `AND` by `map`. -/
theorem claim_C10_dispatch_on_token :
    (∀ (dflt : Bool) (m : MatchFn), evalE dflt m (.node (some "AND") []) = .ok true) ∧
    (∀ (dflt : Bool) (m : MatchFn), evalE dflt m (.node (some "OR") []) = .ok false) ∧
    (∀ (dflt : Bool) (m : MatchFn) (tok : Option String) (cs : List ETree),
        isOpStr tok = false → evalI dflt m (.node tok cs) = m tok) ∧
    (∀ (dflt : Bool) (m : MatchFn) (f : Option String → Option String) (s : String),
        isOpStr (some s) = false → f (some s) = some "AND" →
        evalE dflt m (ETree.mapLeaves f (.node (some s) [])) = .ok true) := by
  refine ⟨?_, ?_, ?_, ?_⟩
  · intro dflt m
    simp [evalE, evalI, evalAnd, wrapExc, isOpStr,
          OPERATORS, BINARY_OPERATORS, UNARY_OPERATORS]
  · intro dflt m
    simp [evalE, evalI, evalOr, wrapExc, isOpStr,
          OPERATORS, BINARY_OPERATORS, UNARY_OPERATORS]
  · intro dflt m tok cs h
    simp [evalI, h]
  · intro dflt m f s hs hf
    simp only [ETree.mapLeaves, mapLeavesList, hs, Bool.false_eq_true, if_false, hf]
    simp [evalE, evalI, evalAnd, wrapExc, isOpStr,
          OPERATORS, BINARY_OPERATORS, UNARY_OPERATORS]

/-- Witness for the hypotheses of `claim_C10_dispatch_on_token`: the
match-function dispatch at a concrete non-operator token, and `map`
turning a concrete leaf into a childless `AND` that evaluates `True`. -/
theorem claim_C10_dispatch_on_token_witness :
    evalI false (liftMatch (fun _ => false)) (.node (some "x") []) =
      liftMatch (fun _ => false) (some "x") ∧
    evalE false (liftMatch (fun _ => false))
      (ETree.mapLeaves (fun _ => some "AND") (.node (some "x") [])) = .ok true :=
  ⟨claim_C10_dispatch_on_token.2.2.1 false (liftMatch (fun _ => false)) (some "x") [] rfl,
   claim_C10_dispatch_on_token.2.2.2 false (liftMatch (fun _ => false))
     (fun _ => some "AND") "x" rfl rfl⟩

end ExpressionMatch
